import Mathlib

/-! # escom: upload engine of a serial terminal for embedded Forth systems

A shallow embedding of `src/src/escom.c`, followed by theorems about it.
`echoFilter` is the same function in `src/src/efthcom.c`; `Efthcom.beautify` is
the function `beautify` of `src/src/efthcom.c`, which differs from the one of escom.c.

Modelling conventions

* A C string is a `List Char` without its terminating NUL. Where the C code looks
  at a byte buffer through `strlen`, `strchr`, ... the model first applies `strz`,
  the text up to the first NUL byte.
* Fixed-size `char` arrays are modelled by lists of any length; the capacities of
  the source (`symbol[20]`, `dictionary[1000]`, `line[256]`, ...) are recorded as
  constants and show up as hypotheses of theorems only.
* The dictionary is modelled twice: as the list of its entries, which stands for
  the array as long as every symbol is shorter than the 20 bytes of `symbol`, and
  as the bytes of the array (`DictMem`), where `strcpy` lets a longer symbol run
  into the `value` field and `strcmp` reads on until it meets a NUL.
* The serial device is a log of the buffers handed to `writecom` and a script of
  `ReadFile` results. The file system is a pair of functions (`fileExists`,
  `fopen`). Console output is not modelled.
* A NULL pointer handed to a C library function that dereferences it is the
  fault `Fault.null`.
* A process can hold a limited number of open files, and `include_file` keeps its
  file open while it streams it. The first argument of `include_file` is the
  number of files the process can open beside the file of that invocation; when
  it is 0, every `fopen` made while the file is streamed gives NULL, that of a
  nested `include_file` and that of `load_cpu_res` alike.
-/

namespace Escom

/-- C strings: the characters before the terminating NUL. -/
abbrev Str := List Char

/-- The NUL byte. -/
def NUL : Char := Char.ofNat 0

/-- ASCII BEL, 0x07: the error signal of the target. -/
def BEL : Char := Char.ofNat 7

/-- Line feed. -/
def LF : Char := Char.ofNat 10

/-- Carriage return. -/
def CR : Char := Char.ofNat 13

/-- The backslash, comment marker of Forth sources. -/
def BSL : Char := Char.ofNat 92

/-- The forward slash. -/
def SLASH : Char := Char.ofNat 47

/-- The text of a byte buffer seen as a C string: everything before the first NUL. -/
def strz (buf : List Char) : Str := buf.takeWhile (fun c => c != NUL)

/-- C `strchr ( s, c ) != NULL` for a character `c` other than NUL. -/
def strchr (s : Str) (c : Char) : Bool := s.contains c

/-- C `strrchr`: index of the last occurrence of `c`, if any. `strrchrFrom i s` is
the same for a string whose first character has index `i`. -/
def strrchrFrom (c : Char) : Nat → Str → Option Nat
  | _, [] => none
  | i, x :: xs =>
    match strrchrFrom c (i + 1) xs with
    | some j => some j
    | none => if x = c then some i else none

/-- C `strrchr ( s, c )` as an index into `s`. -/
def strrchr (s : Str) (c : Char) : Option Nat := strrchrFrom c 0 s

/-- C `strstr ( line, pat ) == line`: `pat` is an initial segment of `line`. -/
def startsWith (line pat : Str) : Bool := pat.isPrefixOf line

/-- C `tolower` in the "C" locale. -/
def tolower (c : Char) : Char := c.toLower

/-- C `strcasecmp ( a, b ) == 0`. -/
def strcasecmp (a b : Str) : Bool := a.map tolower == b.map tolower

/-- C `strcmp ( a, b ) == 0`. -/
def strcmp (a b : Str) : Bool := a == b

/-! ## echoFilter (escom.c 427-439, identical in efthcom.c 261-273) -/

/-- The `while` loop of `echoFilter`: both pointers advance while both strings have
a character left and the characters agree; the rest of `combuf` is returned. -/
def echoFilter : Str → Str → Str
  | c :: combuf, i :: inbuf => if c != i then c :: combuf else echoFilter combuf inbuf
  | combuf, _ => combuf

/-- Length of the longest common initial segment of two strings (specification
side of `echoFilter`). -/
def commonPrefixLen : Str → Str → Nat
  | a :: as, b :: bs => if a = b then commonPrefixLen as bs + 1 else 0
  | _, _ => 0

/-! ## Reply classification: check_ok_stm8e, check_ok_mecrisp, beautify -/

/-- Function `check_ok_stm8e` (escom.c 512-524). The result is the index of the character
`res` points to, `strlen ( buf ) - 3`, or `none` for NULL. For a string shorter
than three characters the C code reads in front of the buffer; the model reports
no match there. -/
def check_ok_stm8e (buf : Str) : Option Nat :=
  if buf.length < 3 then none
  else
    let res := buf.length - 3
    if tolower (buf.getD res NUL) != Char.ofNat 111 ||
       tolower (buf.getD (res + 1) NUL) != Char.ofNat 107 ||
       buf.getD (res + 2) NUL != LF then none
    else some res

/-- Function `check_ok_mecrisp` (escom.c 533-546): as `check_ok_stm8e` with the four
characters `o`, `k`, `.`, line feed. For a string shorter than four characters the
C code reads in front of the buffer; the model reports no match there. -/
def check_ok_mecrisp (buf : Str) : Option Nat :=
  if buf.length < 4 then none
  else
    let res := buf.length - 4
    if tolower (buf.getD res NUL) != Char.ofNat 111 ||
       tolower (buf.getD (res + 1) NUL) != Char.ofNat 107 ||
       buf.getD (res + 2) NUL != Char.ofNat 46 ||
       buf.getD (res + 3) NUL != LF then none
    else some res

/-- Function `set_target_specials` (escom.c 1101-1109): the check function selected by the
configured target name, `check_ok_stm8e` unless the name is "mecrisp". -/
def ok_chk (target : Str) : Str → Option Nat :=
  if strcasecmp target "mecrisp".toList then check_ok_mecrisp else check_ok_stm8e

/-- The `while` loop of `beautify`: one space is appended as long as the length of
the first part plus `lenok` is below the margin. The first argument bounds the
number of iterations (the distance to the margin is enough). -/
def pad_loop : Nat → Str → Nat → Nat → Str
  | 0, buf, _, _ => buf
  | k + 1, buf, lenok, margin =>
    if buf.length + lenok < margin then pad_loop k (buf ++ [Char.ofNat 32]) lenok margin
    else buf

/-- Function `beautify` (escom.c 554-573): when the line ends with the "ok" phrase, the
phrase is cut off, the first part is padded with spaces up to the margin and the
phrase is appended again. -/
def beautify (chk : Str → Option Nat) (buf : Str) (margin : Nat) : Str :=
  match chk buf with
  | some p =>
    let okbuf := buf.drop p
    let lenok := okbuf.length
    pad_loop margin (buf.take p) lenok margin ++ okbuf
  | none => buf

/-! ## Tokens: strtok and gettoken (escom.c 634-647) -/

/-- The delimiters of `gettoken`: space, carriage return, line feed. -/
def isDelim (c : Char) : Bool := c == Char.ofNat 32 || c == CR || c == LF

/-- Token spans of a string, in order: each pair is the index of the first
character of a token (a maximal run of characters that are no delimiters) and the
index just behind its last character. `spansFrom delim i cur s` scans `s`, whose
first character has index `i`, with `cur` the start of the token being read. -/
def spansFrom (delim : Char → Bool) : Nat → Option Nat → Str → List (Nat × Nat)
  | _, none, [] => []
  | i, some st, [] => [(st, i)]
  | i, none, c :: cs =>
    if delim c then spansFrom delim (i + 1) none cs else spansFrom delim (i + 1) (some i) cs
  | i, some st, c :: cs =>
    if delim c then (st, i) :: spansFrom delim (i + 1) none cs
    else spansFrom delim (i + 1) (some st) cs

/-- Token spans of a whole string. -/
def spans (delim : Char → Bool) (s : Str) : List (Nat × Nat) := spansFrom delim 0 none s

/-- The static buffer `cstr` of `gettoken` after the call `gettoken ( str, i )`:
the copy of `str` in which `strtok` has overwritten with NUL the delimiter behind
each token it has returned, that is behind the tokens 0 .. i (as far as they
exist, and where a delimiter follows the token). -/
def gettoken_buf (str : Str) (i : Nat) : List Char :=
  ((spans isDelim (strz str)).take (i + 1)).foldl (fun b sp => b.set sp.2 NUL) (strz str)

/-- Function `gettoken ( str, i )` (escom.c 634-647): the pointer it returns, as an index
into the static buffer `cstr`; `none` is NULL. -/
def gettoken (str : Str) (i : Nat) : Option Nat :=
  ((spans isDelim (strz str)).get? i).map (fun sp => sp.1)

/-- The C string found at index `p` of a byte buffer. -/
def strAt (buf : List Char) (p : Nat) : Str := strz (buf.drop p)

/-- The string a caller reads through the pointer returned by
`gettoken ( str, i )` as long as `gettoken` has not been called again. -/
def token (str : Str) (i : Nat) : Option Str :=
  (gettoken str i).map (strAt (gettoken_buf str i))

/-! ## strip_comment (escom.c 655-664) -/

/-- The `while` loop of `strip_comment`: as long as the last backslash of the line
is not its first character, it is overwritten with CR and the line ends behind
it. The first argument bounds the number of iterations. -/
def strip_loop : Nat → Str → Str
  | 0, line => line
  | k + 1, line =>
    match strrchr line BSL with
    | some p => if 0 < p then strip_loop k (line.take p ++ [CR]) else line
    | none => line

/-- Function `strip_comment` (escom.c 655-664). Each iteration removes a backslash, so
`strlen ( line )` iterations are enough. -/
def strip_comment (line : Str) : Str := strip_loop line.length line

/-! ## Numbers: strtol with base 16, the C type WORD, printf "%X" -/

/-- Value of a hexadecimal digit. -/
def hexval (c : Char) : Option Nat :=
  if Char.ofNat 48 ≤ c ∧ c ≤ Char.ofNat 57 then some (c.toNat - 48)
  else if Char.ofNat 97 ≤ c ∧ c ≤ Char.ofNat 102 then some (c.toNat - 87)
  else if Char.ofNat 65 ≤ c ∧ c ≤ Char.ofNat 70 then some (c.toNat - 55)
  else none

/-- C `isspace` in the "C" locale. -/
def isspace (c : Char) : Bool := c == Char.ofNat 32 || (9 ≤ c.toNat && c.toNat ≤ 13)

/-- Value of a string of hexadecimal digits, most significant first. -/
def hexnum (ds : Str) : Nat := ds.foldl (fun a c => 16 * a + (hexval c).getD 0) 0

/-- Removes an optional "0x" or "0X" in front of a hexadecimal digit. -/
def skip0x : Str → Str
  | z :: x :: h :: t =>
    if z = Char.ofNat 48 ∧ (x = Char.ofNat 120 ∨ x = Char.ofNat 88) ∧ (hexval h).isSome
    then h :: t else z :: x :: h :: t
  | s => s

/-- C `strtol ( s, NULL, 16 )` with a 32-bit `long` (Windows): white space is
skipped, then an optional sign and an optional "0x", then the longest run of
hexadecimal digits is converted; the result saturates at LONG_MIN and LONG_MAX. -/
def strtol16 (s : Str) : Int :=
  let s1 := s.dropWhile isspace
  let neg := s1.head? == some (Char.ofNat 45)
  let s2 := if neg || s1.head? == some (Char.ofNat 43) then s1.tail else s1
  let mag : Int := hexnum ((skip0x s2).takeWhile (fun c => (hexval c).isSome))
  if neg then max (-(2147483648 : Int)) (-mag) else min 2147483647 mag

/-- Conversion of an `int` to the C type `WORD` (16 bits, unsigned). -/
def toWORD (v : Int) : Nat := (v % 65536).toNat

/-- The upper case hexadecimal digit of a number below 16. -/
def hexdigit (d : Nat) : Char := if d < 10 then Char.ofNat (48 + d) else Char.ofNat (55 + d)

/-- Digits of `n` in base 16 in front of `acc`; the first argument bounds the
number of digits. -/
def hexdigits : Nat → Nat → Str → Str
  | 0, _, acc => acc
  | k + 1, n, acc =>
    if n / 16 = 0 then hexdigit (n % 16) :: acc
    else hexdigits k (n / 16) (hexdigit (n % 16) :: acc)

/-- C `printf` conversion "%X" of a value that is not negative. -/
def fmtX (n : Nat) : Str := hexdigits (n + 1) n []

/-! ## The dictionary (escom.c 54-72, 673-685) -/

/-- C type `struct dict_t`: a symbolic name and its value of type `WORD`. -/
structure dict_t where
  symbol : Str
  value : Nat
  deriving DecidableEq

/-- Capacity of `symbol` in `struct dict_t`, terminating NUL included. -/
def SYMBOL_SIZE : Nat := 20

/-- Number of entries of the array `dictionary`. -/
def DICT_SIZE : Nat := 1000

/-- Function `search_dict` (escom.c 673-685) on `dictionary[0..dinx)`: index of the first
entry with the given symbol; `none` stands for -1. `search_from i d` searches a
part of the dictionary whose first entry has index `i`. -/
def search_from (symbol : Str) : Nat → List dict_t → Option Nat
  | _, [] => none
  | i, e :: es => if strcmp e.symbol symbol then some i else search_from symbol (i + 1) es

/-- Function `search_dict ( symbol )` on the dictionary `d`, with `dinx = d.length`. -/
def search_dict (d : List dict_t) (symbol : Str) : Option Nat := search_from symbol 0 d

/-- The assignment `dictionary[i].value = x`. -/
def set_value : List dict_t → Nat → Nat → List dict_t
  | [], _, _ => []
  | e :: es, 0, x => { e with value := x } :: es
  | e :: es, i + 1, x => e :: set_value es i x

/-- The insert-or-update block of `load_cpu_res` (escom.c 721-731) and of
`handle_res` (escom.c 835-845): a symbol that is found keeps its entry and gets the
new value; a symbol that is not found is stored in `dictionary[dinx]` and `dinx`
is incremented. The value is converted to `WORD` by the assignment. The list of
entries stands for the array as long as every symbol is shorter than the 20 bytes
of `symbol`; `Mem.dict_define` is the same block on the bytes of the array, for
symbols of any length. -/
def dict_define (d : List dict_t) (symbol : Str) (v : Int) : List dict_t :=
  match search_dict d symbol with
  | none => d ++ [{ symbol := symbol, value := toWORD v }]
  | some i => set_value d i (toWORD v)

/-! ## The environment: file system, configuration, serial device -/

/-- What the program does not change while it runs: the configured search path
(global `path`) and target name (global `target`), the file system, and the two
places where the C code reads memory it has not written. -/
structure Env where
  /-- global `path`: directories separated by semicolons -/
  path : Str
  /-- global `target`: name of the target system -/
  target : Str
  /-- function `fileExists ( fspec )` (escom.c 576-583) -/
  fileExists : Str → Bool
  /-- function `fopen ( fspec, "r" )` while the process can still open a file: the
  characters the text stream delivers, `none` when the file cannot be opened. The
  number of files that can still be opened is the first argument of
  `include_file`; `no_file_left` is the environment when that number is used up. -/
  fopen : Str → Option (List Char)
  /-- the byte in front of the buffer handed to `readcom`, which `readcom` inspects
  when no byte has been read yet (`buf[totread - 1]` with `totread` 0) -/
  under : Char
  /-- content of the local buffer `line` of `forth_check` before anything is
  written to it (the buffer is not initialised) -/
  junk : List Char

/-- The state the program changes: the serial device and the dictionary. -/
structure World where
  /-- the buffers handed to `writecom`, oldest first -/
  sent : List Str
  /-- result of the k-th call of `ReadFile` on the serial port: `none` when the
  call fails, otherwise the bytes it delivers (cut to the length asked for) -/
  reads : Nat → Option (List Char)
  /-- number of calls of `ReadFile` made so far -/
  nread : Nat
  /-- the entries `dictionary[0..dinx)` -/
  dict : List dict_t

/-- Function `writecom` (escom.c 318-331): the string is handed to the serial port. None of
the callers modelled here looks at the result. -/
def writecom (buf : Str) (w : World) : World := { w with sent := w.sent ++ [buf] }

/-- The end-of-line test of `readcom`: `buf[totread - 1]` is LF or CR. With
`totread` 0 the byte tested is the one in front of the buffer. -/
def eol_seen (under : Char) (buf : List Char) (totread : Nat) : Bool :=
  let c := if totread = 0 then under else buf.getD (totread - 1) NUL
  c == LF || c == CR

/-- The `while` loop of `readcom` (escom.c 392-417). Arguments: the number of
tries left (`maxtry`, at least 1 on entry), the buffer content, `totread`, `maxlen`
and the world. The result is the return value (-1 after a failed read), the buffer
content and the world. -/
def readcom_loop (under : Char) : Nat → List Char → Nat → Nat → World → Int × List Char × World
  | 0, buf, totread, _, w => ((totread : Int), buf, w)
  | k + 1, buf, totread, maxlen, w =>
    let w1 := { w with nread := w.nread + 1 }
    match w.reads w.nread with
    | none => (-1, buf, w1)
    | some chunk =>
      let data := chunk.take maxlen
      let buf1 := buf.take totread ++ data
      let tot1 := totread + data.length
      if eol_seen under buf1 tot1 then ((tot1 : Int), buf1, w1)
      else if k = 0 then ((tot1 : Int), buf1, w1)
      else readcom_loop under k buf1 tot1 (maxlen - data.length) w1

/-- Function `readcom ( buf, maxlen, maxtry )` (escom.c 384-419) for `maxtry` at least 1;
`buf0` is the content of the buffer on entry. -/
def readcom (env : Env) (buf0 : List Char) (maxlen maxtry : Nat) (w : World) :
    Int × List Char × World :=
  readcom_loop env.under maxtry buf0 0 maxlen w

/-- Function `forth_check` (escom.c 744-751): the string is sent, the reply is read with at
most 12 tries and the result is TRUE when the buffer holds no BEL. -/
def forth_check (env : Env) (teststr : Str) (w : World) : Bool × World :=
  let w1 := writecom teststr w
  let r := readcom env env.junk 128 12 w1
  (!strchr (strz r.2.1) BEL, r.2.2)

/-- The probe sent for a word (escom.c 814 and 898): `' word DROP` and CR. -/
def probe_cmd (word : Str) : Str := "' ".toList ++ word ++ " DROP\r".toList

/-- The part of a string between two indices. -/
def substr (s : Str) (a b : Nat) : Str := (s.drop a).take (b - a)

/-- All tokens of a string for a set of delimiters, in order (what successive
calls of `strtok` return). -/
def tokens (delim : Char → Bool) (s : Str) : List Str :=
  (spans delim (strz s)).map (fun sp => substr (strz s) sp.1 sp.2)

/-- The `while` loop of `search_file` (escom.c 613-623) over the directories of
the search path: the first `dir/fnam` that exists. -/
def search_dirs (env : Env) (fnam : Str) : List Str → Option Str
  | [] => none
  | dir :: rest =>
    let sfile := dir ++ [SLASH] ++ fnam
    if env.fileExists sfile then some sfile else search_dirs env fnam rest

/-- Function `search_file` (escom.c 592-625); `none` is NULL. -/
def search_file (env : Env) (fnam : Str) : Option Str :=
  if env.fileExists fnam then some fnam
  else if strchr fnam SLASH then none
  else if strchr fnam BSL then none
  else search_dirs env fnam (tokens (fun c => c == Char.ofNat 59) env.path)

/-- Successive results of `fgets ( line, size, fp )` on a text stream until it
returns NULL: each line ends behind a line feed or when `size - 1` characters have
been read. The last argument is the line being read. -/
def fgets_all (size : Nat) : List Char → Str → List Str
  | [], cur => if cur.isEmpty then [] else [cur]
  | c :: cs, cur =>
    if c == LF || size ≤ cur.length + 2 then (cur ++ [c]) :: fgets_all size cs []
    else fgets_all size cs (cur ++ [c])

/-! ## load_cpu_res and handle_res -/

/-- Body of the `while` loop of `load_cpu_res` (escom.c 709-732) for one line. -/
def res_line (d : List dict_t) (raw : Str) : List dict_t :=
  let line := strz raw
  if line.head? == some BSL then d
  else
    match token line 2 with
    | none => d
    | some symbol =>
      match token line 1 with
      | none => d
      | some t1 =>
        if strcmp t1 "equ".toList then
          dict_define d symbol (strtol16 ((token line 0).getD []))
        else d

/-- Function `load_cpu_res` (escom.c 693-736). -/
def load_cpu_res (env : Env) (filespec : Str) (w : World) : Bool × World :=
  match env.fopen filespec with
  | none => (false, w)
  | some content =>
    (true, { w with dict := (fgets_all 128 content []).foldl res_line w.dict })

/-- Ways in which a run ends without a result. -/
inductive Fault where
  /-- a NULL pointer is handed to `strcasecmp` or `strcpy` -/
  | null
  deriving DecidableEq

/-- The tokens `gettoken ( line, tinx )`, `gettoken ( line, tinx + 1 )`, ... up to
the first NULL, as the `while` condition of the export branch of `handle_res`
(escom.c 806) fetches them. The first argument bounds their number (a line has
fewer tokens than characters). -/
def tokens_from (line : Str) : Nat → Nat → List Str
  | 0, _ => []
  | k + 1, tinx =>
    match token line tinx with
    | none => []
    | some symbol => symbol :: tokens_from line k (tinx + 1)

/-- Body of the `while` loop of the export branch of `handle_res` (escom.c
808-825), iterated over the symbols of the line. -/
def export_loop (env : Env) : List Str → World → Bool × World
  | [], w => (true, w)
  | symbol :: rest, w =>
    match search_dict w.dict symbol with
    | none => (false, w)
    | some inx =>
      let probe := forth_check env (probe_cmd symbol) w
      if !probe.1 then
        let v := ((probe.2.dict.get? inx).map (fun e => e.value)).getD 0
        let defn := forth_check env
          ([Char.ofNat 36] ++ fmtX v ++ " CONSTANT ".toList ++ symbol ++ [CR]) probe.2
        if !defn.1 then (false, defn.2) else export_loop env rest defn.2
      else export_loop env rest probe.2

/-- Function `handle_res` (escom.c 770-849). In the "equ" branch the symbol is read through
the pointer returned by `gettoken ( line, 3 )` after `gettoken ( line, 1 )` has
been called again, that is from the buffer as that later call leaves it. -/
def handle_res (env : Env) (line : Str) (w : World) : Except Fault (Bool × World) :=
  match token line 1 with
  | none => .error .null
  | some t1 =>
    if strcasecmp t1 "MCU:".toList then
      match token line 2 with
      | none => .error .null
      | some t2 =>
        let cpu := t2 ++ ".efr".toList
        match search_file env cpu with
        | none => .ok (false, w)
        | some p => .ok (true, (load_cpu_res env p w).2)
    else if strcasecmp t1 "export".toList then
      .ok (export_loop env (tokens_from line line.length 2) w)
    else
      match token line 2 with
      | none => .error .null
      | some t2 =>
        if strcasecmp t2 "equ".toList then
          let symbol := (gettoken line 3).map (strAt (gettoken_buf line 1))
          let v := strtol16 t1
          match symbol with
          | some sym => .ok (true, { w with dict := dict_define w.dict sym v })
          | none => .ok (true, w)
        else .ok (true, w)

/-! ## include_file (escom.c 859-990) -/

/-- The local variables of `include_file` that live across iterations of its
`while` loop, with the world. -/
structure Loop where
  margin : Nat
  result : Bool
  w : World

/-- How an iteration of the `while` loop ends: with the next line (`continue`, or
the end of the body) or by leaving the loop (`break`). -/
inductive Next where
  | cont (s : Loop)
  | brk (s : Loop)

/-- Line-end normalisation (escom.c 915-922): a final line feed becomes CR,
otherwise CR is appended. -/
def normalize (line : Str) : Str :=
  if line.getLast? == some LF then line.dropLast ++ [CR] else line ++ [CR]

/-- The word of the probe of a conditional inclusion (escom.c 885-897): the part
of the file name behind its last backslash, or, without backslash, behind its last
slash, or else the whole name. -/
def probe_word (filename : Str) : Str :=
  match strrchr filename BSL with
  | some i => filename.drop (i + 1)
  | none =>
    match strrchr filename SLASH with
    | some i => filename.drop (i + 1)
    | none => filename

/-- The margin after a reply of `n` bytes (escom.c 966-969): `n` when it is wider
than the margin. -/
def new_margin (margin : Nat) (n : Int) : Nat :=
  if (margin : Int) < n then n.toNat else margin

/-- Body of the `while` loop of `include_file` (escom.c 912-982) for one line
delivered by `fgets`; `incl` is the recursive call. -/
def do_line (env : Env) (incl : Str → Bool → World → Except Fault (Bool × World))
    (raw : Str) (s : Loop) : Except Fault Next :=
  if (strz raw).length ≤ 1 then .ok (.cont s)
  else
    let line := normalize (strz raw)
    if startsWith line [BSL, BSL] then .ok (.brk s)
    else if startsWith line "\\res".toList then
      match handle_res env line s.w with
      | .error f => .error f
      | .ok r =>
        if !r.1 then .ok (.brk { s with result := r.1, w := r.2 })
        else .ok (.cont { s with result := r.1, w := r.2 })
    else if line.head? == some BSL then .ok (.cont s)
    else
      let rcond := startsWith line "#require".toList
      if rcond || startsWith line "#include".toList then
        let w1 := writecom line s.w
        match token line 1 with
        | some p =>
          match incl p rcond w1 with
          | .error f => .error f
          | .ok r =>
            if !r.1 then .ok (.brk { s with result := r.1, w := r.2 })
            else .ok (.cont { s with result := r.1, w := r.2 })
        | none => .ok (.cont { s with w := w1 })
      else
        let line1 := strip_comment line
        let w1 := writecom line1 s.w
        let r := readcom env line1 256 12 w1
        if 0 < r.1 then
          let margin := new_margin s.margin r.1
          let shown := beautify (ok_chk env.target) (strz r.2.1) margin
          if strchr shown BEL then .ok (.brk { s with margin := margin, w := r.2.2 })
          else .ok (.cont { s with margin := margin, w := r.2.2 })
        else .ok (.cont { s with w := r.2.2 })

/-- The `while` loop of `include_file` (escom.c 910-983) over the lines of the
file. -/
def stream (env : Env) (incl : Str → Bool → World → Except Fault (Bool × World)) :
    List Str → Loop → Except Fault Loop
  | [], s => .ok s
  | raw :: rest, s =>
    match do_line env incl raw s with
    | .error f => .error f
    | .ok (.brk s1) => .ok s1
    | .ok (.cont s1) => stream env incl rest s1

/-- The file system while the process has no file left to open: every `fopen`
gives NULL. `fileExists` asks for the attributes of a file (escom.c 580) and
opens nothing, so it is as before. -/
def no_file_left (env : Env) : Env := { env with fopen := fun _ => none }

/-- Function `include_file ( filename, conditional )` (escom.c 859-990). The first argument
is the number of files the process can open beside the file of this invocation.
An invocation keeps its file open until it returns (escom.c 876 and 987), so the
invocations it calls have one file less. When the number is 0 the file of this
invocation is the last one the process can open: while it is streamed, the
`fopen` of a nested invocation gives NULL, so that invocation returns FALSE and
writes nothing (escom.c 878-882), and the `fopen` of `load_cpu_res` gives NULL as
well. -/
def include_file (env : Env) : Nat → Str → Bool → World → Except Fault (Bool × World)
  | 0, filename, conditional, w =>
    match (search_file env filename).bind env.fopen with
    | none => .ok (false, w)
    | some content =>
      let probe :=
        if conditional then
          forth_check env (probe_cmd (probe_word filename)) w
        else (false, w)
      if probe.1 then .ok (true, probe.2)
      else
        match stream (no_file_left env) (fun _ _ w1 => .ok (false, w1))
            (fgets_all 256 content []) { margin := 85, result := true, w := probe.2 } with
        | .error f => .error f
        | .ok s => .ok (s.result, s.w)
  | files + 1, filename, conditional, w =>
    match (search_file env filename).bind env.fopen with
    | none => .ok (false, w)
    | some content =>
      let probe :=
        if conditional then
          forth_check env (probe_cmd (probe_word filename)) w
        else (false, w)
      if probe.1 then .ok (true, probe.2)
      else
        match stream env (include_file env files) (fgets_all 256 content [])
            { margin := 85, result := true, w := probe.2 } with
        | .error f => .error f
        | .ok s => .ok (s.result, s.w)

/-- The result of a run, if it has one. -/
def result_of (r : Except Fault (Bool × World)) : Option Bool :=
  match r with
  | .ok x => some x.1
  | .error _ => none

/-- The buffers written to the device by a run that has a result. -/
def sent_of (r : Except Fault (Bool × World)) : Option (List Str) :=
  match r with
  | .ok x => some x.2.sent
  | .error _ => none

/-- The dictionary left by a run that has a result. -/
def dict_of (r : Except Fault (Bool × World)) : Option (List dict_t) :=
  match r with
  | .ok x => some x.2.dict
  | .error _ => none

/-! ## Notions used to state the theorems -/

/-- A string ends with the marker of stm8ef: `o` or `O`, `k` or `K`, line feed. -/
def endsWithOk (buf : Str) : Prop :=
  ∃ pre o k, buf = pre ++ [o, k, LF] ∧ (o = Char.ofNat 111 ∨ o = Char.ofNat 79) ∧
    (k = Char.ofNat 107 ∨ k = Char.ofNat 75)

/-- A string ends with the marker of mecrisp: `o` or `O`, `k` or `K`, `.`, line
feed. -/
def endsWithOkDot (buf : Str) : Prop :=
  ∃ pre o k, buf = pre ++ [o, k, Char.ofNat 46, LF] ∧
    (o = Char.ofNat 111 ∨ o = Char.ofNat 79) ∧ (k = Char.ofNat 107 ∨ k = Char.ofNat 75)

/-- The state of the `while` loop of `include_file` after the given lines when
none of them leaves the loop (by `break` or by a fault); `none` otherwise. -/
def passes (env : Env) (incl : Str → Bool → World → Except Fault (Bool × World)) :
    List Str → Loop → Option Loop
  | [], s => some s
  | raw :: rest, s =>
    match do_line env incl raw s with
    | .ok (.cont s1) => passes env incl rest s1
    | _ => none

/-- A line delivered by `fgets` is an ordinary line when `include_file` sends it
to the target as Forth text: it has more than one character and, normalised,
starts neither with a backslash nor with `#require` or `#include`. -/
def ordinary (raw : Str) : Bool :=
  decide (1 < (strz raw).length) &&
  !((normalize (strz raw)).head? == some BSL) &&
  !startsWith (normalize (strz raw)) "#require".toList &&
  !startsWith (normalize (strz raw)) "#include".toList

/-- What `include_file` sends for an ordinary line. -/
def ordinary_cmd (raw : Str) : Str := strip_comment (normalize (strz raw))

/-- The result of `readcom` for the reply to an ordinary line in the loop state
`s`: return value, buffer, world. -/
def line_reply (env : Env) (raw : Str) (s : Loop) : Int × List Char × World :=
  readcom env (ordinary_cmd raw) 256 12 (writecom (ordinary_cmd raw) s.w)

/-- A line delivered by `fgets` is an inclusion directive when, normalised, it
starts with `#require` or `#include`. -/
def directive (raw : Str) : Bool :=
  decide (1 < (strz raw).length) &&
  (startsWith (normalize (strz raw)) "#require".toList ||
   startsWith (normalize (strz raw)) "#include".toList)

/-- The world in which `include_file` starts to stream the file: the one left by
the probe of a conditional inclusion, or the one it was called in. -/
def start_world (env : Env) (filename : Str) (conditional : Bool) (w : World) : World :=
  if conditional then (forth_check env (probe_cmd (probe_word filename)) w).2 else w

/-- The reply buffer `forth_check` looks at after it has sent `teststr`, as a C
string. -/
def check_reply (env : Env) (teststr : Str) (w : World) : Str :=
  strz (readcom env env.junk 128 12 (writecom teststr w)).2.1

/-- A token as `gettoken` sees it: not empty, without delimiter and without NUL. -/
def is_token (t : Str) : Prop := t ≠ [] ∧ ∀ c ∈ t, isDelim c = false ∧ c ≠ NUL

/-- A number written in hexadecimal digits. -/
def is_hex (t : Str) : Prop := t ≠ [] ∧ ∀ c ∈ t, (hexval c).isSome = true

/-- The line made of the given tokens, each followed by the given delimiter. -/
def join_tokens : List (Str × Char) → Str
  | [] => []
  | p :: ps => p.1 ++ p.2 :: join_tokens ps

/-- The token spans of `join_tokens` for a line whose first character has index
`j`. -/
def join_spans : Nat → List (Str × Char) → List (Nat × Nat)
  | _, [] => []
  | j, p :: ps => (j, j + p.1.length) :: join_spans (j + p.1.length + 1) ps

/-- The constant definition sent by an export (escom.c 818): `$`, the value in
upper case hexadecimal, ` CONSTANT `, the symbol and CR. -/
def constant_cmd (v : Nat) (symbol : Str) : Str :=
  [Char.ofNat 36] ++ fmtX v ++ " CONSTANT ".toList ++ symbol ++ [CR]

/-- The value an export reads for a symbol (escom.c 808 and 817): the value of
the entry `search_dict` finds, if it finds one. -/
def lookup (d : List dict_t) (symbol : Str) : Option Nat :=
  (search_dict d symbol).bind (fun i => (d.get? i).map (fun e => e.value))

/-- An operation on the dictionary: loading a resource file, or a `\res` line
handled by `handle_res`. -/
inductive DictOp where
  | load (filespec : Str)
  | res (line : Str)

/-- Runs a sequence of dictionary operations. -/
def run_ops (env : Env) : List DictOp → World → Except Fault World
  | [], w => .ok w
  | DictOp.load filespec :: rest, w => run_ops env rest (load_cpu_res env filespec w).2
  | DictOp.res line :: rest, w =>
    match handle_res env line w with
    | .error f => .error f
    | .ok r => run_ops env rest r.2

/-- No two entries of a dictionary carry the same symbol. -/
def dict_unique (d : List dict_t) : Prop :=
  ∀ i j, i < d.length → j < d.length → i ≠ j →
    (d.get? i).map (fun e => e.symbol) ≠ (d.get? j).map (fun e => e.symbol)

/-! ## Concrete environments used for examples -/

/-- A file system given by a list of paths with their contents. -/
def demo_fs (files : List (String × String)) (name : Str) : Option (List Char) :=
  (files.find? (fun f => f.1.toList == name)).map (fun f => f.2.toList)

/-- An environment with the default search path and target of escom.c and the
given files. -/
def demo_env (files : List (String × String)) : Env :=
  { path := ".;./mcu;./lib".toList
    target := "stm8ef".toList
    fileExists := fun name => (demo_fs files name).isSome
    fopen := demo_fs files
    under := NUL
    junk := [] }

/-- A world with an empty log and an empty dictionary in which the calls of
`ReadFile` deliver the given replies, one per call, and nothing afterwards. -/
def demo_world (replies : List String) : World :=
  { sent := []
    reads := fun k => some ((replies.getD k "").toList)
    nread := 0
    dict := [] }

/-! ## Notions for the directives, the search path and comment stripping -/

/-- A line delivered by `fgets` is a stop line when it has more than one character
and, normalised, starts with two backslashes (escom.c 923). -/
def stop_line (raw : Str) : Bool :=
  decide (1 < (strz raw).length) && startsWith (normalize (strz raw)) [BSL, BSL]

/-- A line delivered by `fgets` is a resource directive when it has more than one
character and, normalised, starts with `\res` (escom.c 927). -/
def res_directive (raw : Str) : Bool :=
  decide (1 < (strz raw).length) && startsWith (normalize (strz raw)) "\\res".toList

/-- What `include_file` returns after its `while` loop has run over the given
lines from the world `w0` (escom.c 864, 870 and 910-989), with `files` as the first
argument of the recursive calls. -/
def stream_result (env : Env) (files : Nat) (lines : List Str) (w0 : World) :
    Except Fault (Bool × World) :=
  match stream env (include_file env files) lines { margin := 85, result := true, w := w0 } with
  | .error f => .error f
  | .ok s => .ok (s.result, s.w)

/-- What `include_file` returns after its `while` loop has run over the given
lines from the world `w0` while the process has no file left to open: the
recursive calls return FALSE at once and `load_cpu_res` opens nothing. -/
def last_result (env : Env) (lines : List Str) (w0 : World) : Except Fault (Bool × World) :=
  match stream (no_file_left env) (fun _ _ w1 => .ok (false, w1)) lines
      { margin := 85, result := true, w := w0 } with
  | .error f => .error f
  | .ok s => .ok (s.result, s.w)

/-- The export of the symbol `x` in the world `w` fails: the symbol is not in the
dictionary, or the probe is answered with BEL and the constant definition sent
after it is answered with BEL too. -/
def export_fails_at (env : Env) (x : Str) (w : World) : Prop :=
  search_dict w.dict x = none ∨
  ∃ v, lookup w.dict x = some v ∧
    strchr (check_reply env (probe_cmd x) w) BEL = true ∧
    strchr (check_reply env (constant_cmd v x) (forth_check env (probe_cmd x) w).2) BEL = true

/-- The candidate paths of `search_file` for a name that holds no separator: the
directories of the search path, each followed by a slash and the name. -/
def candidates (env : Env) (name : Str) : List Str :=
  (tokens (fun c => c == Char.ofNat 59) env.path).map (fun dir => dir ++ [SLASH] ++ name)

/-- A directory of a search path: not empty, without semicolon and without NUL. -/
def is_dir (d : Str) : Prop := d ≠ [] ∧ ∀ c ∈ d, c ≠ Char.ofNat 59 ∧ c ≠ NUL

/-- The text a search path is made of: the directories with a semicolon between
each two of them. -/
def join_path : List Str → Str
  | [] => []
  | [d] => d
  | d :: ds => d ++ Char.ofNat 59 :: join_path ds

/-- The specification of `strip_comment` for a line that does not start with a
backslash: the text in front of the first backslash and CR, or the line itself
when it has no backslash. -/
def strip_spec (line : Str) : Str :=
  if BSL ∈ line then line.takeWhile (fun c => c != BSL) ++ [CR] else line

/-! ## Notions for the reads, the margin and a silent target -/

/-- Specification of `readcom`, in the words of the spec: the reads are made one
after the other; a failed read gives -1; reading stops after the first read after
which the data accumulated so far ends in CR or LF, or after the last of the
`maxtry` reads, and the result is the number of bytes accumulated. Arguments: the
reads left, the data accumulated, `maxlen`, the world. -/
def readcom_spec : Nat → List Char → Nat → World → Int × List Char × World
  | 0, acc, _, w => ((acc.length : Int), acc, w)
  | k + 1, acc, maxlen, w =>
    let w1 := { w with nread := w.nread + 1 }
    match w.reads w.nread with
    | none => (-1, acc, w1)
    | some chunk =>
      let acc1 := acc ++ chunk.take maxlen
      if acc1.getLast? = some LF ∨ acc1.getLast? = some CR then ((acc1.length : Int), acc1, w1)
      else if k = 0 then ((acc1.length : Int), acc1, w1)
      else readcom_spec k acc1 (maxlen - (chunk.take maxlen).length) w1

/-- The return values of `readcom` for the ordinary lines that the loop of
`include_file` handles while it runs over the given lines, in order. -/
def replies (env : Env) (incl : Str → Bool → World → Except Fault (Bool × World)) :
    List Str → Loop → List Int
  | [], _ => []
  | raw :: rest, s =>
    let here := if ordinary raw then [(line_reply env raw s).1] else []
    match do_line env incl raw s with
    | .ok (.cont s1) => here ++ replies env incl rest s1
    | _ => here

/-- The largest of the given byte counts; 0 when none of them is positive. -/
def longest (ns : List Int) : Nat := ns.foldl (fun m n => max m n.toNat) 0

/-- The target is silent: every call of `ReadFile` succeeds and delivers no byte. -/
def silent (w : World) : Prop := ∀ k, w.reads k = some []

/-- Everything written to the device between the worlds `w` and `w1` is a string
that does not start with a backslash. -/
def wrote_no_backslash (w w1 : World) : Prop :=
  ∃ extra, w1.sent = w.sent ++ extra ∧ ∀ x ∈ extra, x.head? ≠ some BSL

/-! ## efthcom.c: beautify (efthcom.c 344-367) -/

/-- The `while` loop of `beautify` in efthcom.c (357-363) on the bytes of the
array `buf`: as long as `strlen ( buf )` is below the margin, NUL is stored at
`len + 1`, the bytes at `len - 2` and `len - 3` are copied one place to the right
and a space is stored at `len - 3`. The first argument bounds the number of
iterations; `none` says that the bound was reached. -/
def Efthcom.beautify_loop : Nat → List Char → Nat → Option (List Char)
  | 0, _, _ => none
  | k + 1, buf, margin =>
    let len := (strz buf).length
    if len < margin then
      let b1 := buf.set (len + 1) NUL
      let b2 := b1.set (len - 1) (b1.getD (len - 2) NUL)
      let b3 := b2.set (len - 2) (b2.getD (len - 3) NUL)
      Efthcom.beautify_loop k (b3.set (len - 3) (Char.ofNat 32)) margin
    else some buf

/-- Function `beautify` of efthcom.c (344-367) on the bytes of the array `buf`. For a
string shorter than three characters the C code reads in front of the buffer; the
model reports no match there. -/
def Efthcom.beautify (fuel : Nat) (buf : List Char) (margin : Nat) : Option (List Char) :=
  let len := (strz buf).length
  if 3 ≤ len ∧ tolower (buf.getD (len - 3) NUL) = Char.ofNat 111 ∧
      tolower (buf.getD (len - 2) NUL) = Char.ofNat 107 ∧ buf.getD (len - 1) NUL = LF
  then Efthcom.beautify_loop fuel buf margin
  else some buf

/-- The bare file name of a path, in the words of the spec: the part behind its
last directory separator, slash or backslash; the whole path when it holds
none. -/
def basename (path : Str) : Str :=
  (path.reverse.takeWhile (fun c => c != SLASH && c != BSL)).reverse

/-- A world with an empty log and an empty dictionary in which the first call of
`ReadFile` delivers the given bytes and every later call fails. -/
def broken_world (first : String) : World :=
  { sent := []
    reads := fun k => if k = 0 then some first.toList else none
    nread := 0
    dict := [] }

/-! ## The dictionary as bytes (escom.c 54-58 and 70-71) -/

/-- Size of `struct dict_t` in bytes: the 20 bytes of `symbol` and the 2 bytes of
`value`. -/
def ENTRY_SIZE : Nat := 22

/-- The global array `dictionary` as the bytes it occupies, with `dinx`. -/
structure DictMem where
  /-- the bytes of `dictionary`, entry after entry -/
  dictionary : List Char
  /-- number of entries in use -/
  dinx : Nat

/-- Bytes stored into an array from an offset on, one after the other; the array
keeps its length. -/
def poke : List Char → Nat → List Char → List Char
  | [], _, _ => []
  | m :: ms, 0, [] => m :: ms
  | _ :: ms, 0, b :: bs => b :: poke ms 0 bs
  | m :: ms, off + 1, bs => m :: poke ms off bs

/-- The two bytes of a `WORD`, low byte first (the program is built for Windows on
x86). -/
def word_bytes (v : Nat) : List Char := [Char.ofNat (v % 256), Char.ofNat (v / 256 % 256)]

/-- The `for` loop of `search_dict` (escom.c 677-683) on the bytes of the array:
`strcmp` reads the C string that starts at `dictionary[i].symbol`; it goes on
into `value` and into the next entry when the 20 bytes of `symbol` hold no NUL.
Arguments: the index `i` and the number of entries left. -/
def Mem.search_from (bytes : List Char) (symbol : Str) : Nat → Nat → Option Nat
  | _, 0 => none
  | i, k + 1 =>
    if strcmp (strAt bytes (ENTRY_SIZE * i)) symbol then some i
    else Mem.search_from bytes symbol (i + 1) k

/-- Function `search_dict` (escom.c 673-685) on the bytes of the array. -/
def Mem.search_dict (m : DictMem) (symbol : Str) : Option Nat :=
  Mem.search_from m.dictionary symbol 0 m.dinx

/-- The insert-or-update block of `load_cpu_res` (escom.c 721-731) and of
`handle_res` (escom.c 835-845) on the bytes of the array: for a symbol that is
not found, `strcpy` stores the symbol and its NUL from the start of the entry
`dictionary[dinx]` on, then the value is stored behind the 20 bytes of `symbol`. -/
def Mem.dict_define (m : DictMem) (symbol : Str) (v : Int) : DictMem :=
  match Mem.search_dict m symbol with
  | none =>
    { dictionary :=
        poke (poke m.dictionary (ENTRY_SIZE * m.dinx) (symbol ++ [NUL]))
          (ENTRY_SIZE * m.dinx + SYMBOL_SIZE) (word_bytes (toWORD v)),
      dinx := m.dinx + 1 }
  | some i =>
    { dictionary :=
        poke m.dictionary (ENTRY_SIZE * i + SYMBOL_SIZE) (word_bytes (toWORD v)),
      dinx := m.dinx }

/-- The array when the program starts: a global variable, all bytes zero. -/
def Mem.empty : DictMem :=
  { dictionary := List.replicate (ENTRY_SIZE * DICT_SIZE) NUL, dinx := 0 }

/-- The symbol field of the entry `i`: its 20 bytes. -/
def Mem.symbol_field (m : DictMem) (i : Nat) : List Char :=
  (m.dictionary.drop (ENTRY_SIZE * i)).take SYMBOL_SIZE

/-- Every symbol of the dictionary fits the array `symbol[20]` with its NUL, and
holds no NUL. -/
def dict_fits (d : List dict_t) : Prop :=
  ∀ e ∈ d, e.symbol.length < SYMBOL_SIZE ∧ NUL ∉ e.symbol

/-- The bytes of the array hold the entries of the dictionary `d`: `dinx` is the
number of entries, and the entry `i` holds the symbol with its NUL at the start
of `symbol` and the two bytes of the value behind the 20 bytes of `symbol`. -/
def Mem.holds (m : DictMem) (d : List dict_t) : Prop :=
  m.dinx = d.length ∧
  ∀ i e, d.get? i = some e →
    (m.dictionary.drop (ENTRY_SIZE * i)).take (e.symbol.length + 1) = e.symbol ++ [NUL] ∧
    (m.dictionary.drop (ENTRY_SIZE * i + SYMBOL_SIZE)).take 2 = word_bytes e.value

/-! # Theorems -/



theorem search_from_none (symbol : Str) (i : Nat) (d : List dict_t) :
    search_from symbol i d = none ↔ symbol ∉ d.map (fun e => e.symbol) := by
  induction d generalizing i with
  | nil => simp [search_from]
  | cons e es ih =>
    unfold search_from strcmp
    by_cases h : e.symbol = symbol
    · simp [h]
    · have h2 : ¬ symbol = e.symbol := fun h3 => h h3.symm
      simp [h, h2, ih]

theorem search_from_some (symbol : Str) (i j : Nat) (d : List dict_t)
    (h : search_from symbol i d = some j) :
    i ≤ j ∧ j - i < d.length ∧ (d.get? (j - i)).map (fun e => e.symbol) = some symbol := by
  induction d generalizing i with
  | nil => simp [search_from] at h
  | cons e es ih =>
    unfold search_from strcmp at h
    by_cases h1 : e.symbol = symbol
    · simp [h1] at h
      subst h
      simp [h1]
    · simp [h1] at h
      obtain ⟨g1, g2, g3⟩ := ih (i + 1) h
      have : j - i = (j - (i + 1)) + 1 := by omega
      refine ⟨by omega, by simp; omega, ?_⟩
      rw [this]
      simpa using g3

theorem search_from_shift (symbol : Str) (i : Nat) (d : List dict_t) :
    search_from symbol i d = (search_from symbol 0 d).map (fun j => j + i) := by
  induction d generalizing i with
  | nil => simp [search_from]
  | cons e es ih =>
    unfold search_from
    by_cases h : strcmp e.symbol symbol
    · simp [h]
    · simp only [h]
      rw [ih (i + 1), ih (0 + 1)]
      cases search_from symbol 0 es <;> simp
      omega

theorem map_symbol_set_value (d : List dict_t) (i : Nat) (x : Nat) :
    (set_value d i x).map (fun e => e.symbol) = d.map (fun e => e.symbol) := by
  induction d generalizing i with
  | nil => simp [set_value]
  | cons e es ih =>
    cases i with
    | zero => simp [set_value]
    | succ i => simp [set_value, ih]

theorem search_from_congr (symbol : Str) (i : Nat) (d d2 : List dict_t)
    (h : d.map (fun e => e.symbol) = d2.map (fun e => e.symbol)) :
    search_from symbol i d = search_from symbol i d2 := by
  induction d generalizing i d2 with
  | nil =>
    cases d2 with
    | nil => rfl
    | cons _ _ => simp at h
  | cons e es ih =>
    cases d2 with
    | nil => simp at h
    | cons e2 es2 =>
      simp only [List.map_cons, List.cons.injEq] at h
      unfold search_from
      rw [h.1, ih (i + 1) es2 h.2]

theorem search_from_append_new (symbol : Str) (x : Nat) (d : List dict_t) (i : Nat)
    (h : search_from symbol i d = none) :
    search_from symbol i (d ++ [{ symbol := symbol, value := x }]) = some (i + d.length) := by
  induction d generalizing i with
  | nil => simp [search_from, strcmp]
  | cons e es ih =>
    unfold search_from at h
    simp only [List.cons_append]
    unfold search_from
    by_cases h2 : strcmp e.symbol symbol
    · simp [h2] at h
    · simp only [h2] at h ⊢
      rw [ih (i + 1) (by simpa using h)]
      simp
      omega

theorem search_dict_append_new (d : List dict_t) (symbol : Str) (x : Nat)
    (h : search_dict d symbol = none) :
    search_dict (d ++ [{ symbol := symbol, value := x }]) symbol = some d.length := by
  simpa [search_dict] using search_from_append_new symbol x d 0 h

theorem set_value_get?_same (d : List dict_t) (i : Nat) (x : Nat) :
    (set_value d i x).get? i = (d.get? i).map (fun e => { e with value := x }) := by
  induction d generalizing i with
  | nil => simp [set_value]
  | cons e es ih =>
    cases i with
    | zero => simp [set_value]
    | succ i => simpa [set_value] using ih i

theorem set_value_get?_other (d : List dict_t) (i j : Nat) (x : Nat) (h : j ≠ i) :
    (set_value d i x).get? j = d.get? j := by
  induction d generalizing i j with
  | nil => simp [set_value]
  | cons e es ih =>
    cases i with
    | zero =>
      cases j with
      | zero => exact absurd rfl h
      | succ j => simp [set_value]
    | succ i =>
      cases j with
      | zero => simp [set_value]
      | succ j =>
        have : j ≠ i := fun h2 => h (by rw [h2])
        simpa [set_value] using ih i j this

theorem set_value_length (d : List dict_t) (i : Nat) (x : Nat) :
    (set_value d i x).length = d.length := by
  induction d generalizing i with
  | nil => simp [set_value]
  | cons e es ih =>
    cases i with
    | zero => simp [set_value]
    | succ i => simp [set_value, ih]

theorem set_value_idem (d : List dict_t) (i : Nat) (x : Nat) :
    set_value (set_value d i x) i x = set_value d i x := by
  induction d generalizing i with
  | nil => simp [set_value]
  | cons e es ih =>
    cases i with
    | zero => simp [set_value]
    | succ i => simp [set_value, ih]

theorem set_value_append_last (d : List dict_t) (e : dict_t) :
    set_value (d ++ [e]) d.length e.value = d ++ [e] := by
  induction d with
  | nil => simp [set_value]
  | cons a as ih => simp [set_value, ih]

theorem dict_define_found (d : List dict_t) (symbol : Str) (v : Int) (i : Nat)
    (h : search_dict d symbol = some i) :
    dict_define d symbol v = set_value d i (toWORD v) := by
  simp [dict_define, h]

theorem dict_define_new (d : List dict_t) (symbol : Str) (v : Int)
    (h : search_dict d symbol = none) :
    dict_define d symbol v = d ++ [{ symbol := symbol, value := toWORD v }] := by
  simp [dict_define, h]

theorem search_dict_define (d : List dict_t) (symbol : Str) (v : Int) :
    search_dict (dict_define d symbol v) symbol =
      some ((search_dict d symbol).getD d.length) := by
  cases h : search_dict d symbol with
  | none =>
    rw [dict_define_new d symbol v h]
    simpa using search_dict_append_new d symbol (toWORD v) h
  | some i =>
    rw [dict_define_found d symbol v i h]
    unfold search_dict at *
    rw [search_from_congr symbol 0 _ d (map_symbol_set_value d i (toWORD v)), h]
    simp

theorem dict_define_get_found (d : List dict_t) (symbol : Str) (v : Int) (i : Nat)
    (h : search_dict d symbol = some i) :
    (dict_define d symbol v).get? i = some { symbol := symbol, value := toWORD v } := by
  rw [dict_define_found d symbol v i h, set_value_get?_same]
  obtain ⟨_, g2, g3⟩ := search_from_some symbol 0 i d h
  simp only [Nat.sub_zero] at g2 g3
  cases hg : d.get? i with
  | none => rw [hg] at g3; simp at g3
  | some e =>
    rw [hg] at g3
    simp only [Option.map_some', Option.some.injEq] at g3
    simp [← g3]

theorem lookup_dict_define_same (d : List dict_t) (symbol : Str) (v : Int) :
    lookup (dict_define d symbol v) symbol = some (toWORD v) := by
  unfold lookup
  rw [search_dict_define]
  cases h : search_dict d symbol with
  | none =>
    rw [dict_define_new d symbol v h]
    simp [List.get?_eq_getElem?]
  | some i =>
    show Option.map (fun e => e.value) ((dict_define d symbol v).get? i) = _
    rw [dict_define_get_found d symbol v i h]
    rfl

/-! ### The dictionary keeps its symbols distinct -/

theorem dict_define_nodup (d : List dict_t) (symbol : Str) (v : Int)
    (h : (d.map (fun e => e.symbol)).Nodup) :
    ((dict_define d symbol v).map (fun e => e.symbol)).Nodup := by
  unfold dict_define
  cases hs : search_dict d symbol with
  | none =>
    have hn := (search_from_none symbol 0 d).1 hs
    simp only [List.map_append, List.map_cons, List.map_nil]
    rw [List.nodup_append]
    refine ⟨h, by simp, ?_⟩
    intro a ha hb
    simp only [List.mem_singleton] at hb
    subst hb
    exact hn ha
  | some i =>
    simp only
    rw [map_symbol_set_value]
    exact h

theorem res_line_nodup (d : List dict_t) (raw : Str)
    (h : (d.map (fun e => e.symbol)).Nodup) :
    ((res_line d raw).map (fun e => e.symbol)).Nodup := by
  unfold res_line
  simp only
  split
  · exact h
  · split
    · exact h
    · split
      · exact h
      · split
        · exact dict_define_nodup _ _ _ h
        · exact h

theorem foldl_res_line_nodup (lines : List Str) (d : List dict_t)
    (h : (d.map (fun e => e.symbol)).Nodup) :
    ((lines.foldl res_line d).map (fun e => e.symbol)).Nodup := by
  induction lines generalizing d with
  | nil => exact h
  | cons l ls ih => exact ih _ (res_line_nodup d l h)

theorem load_cpu_res_nodup (env : Env) (filespec : Str) (w : World)
    (h : (w.dict.map (fun e => e.symbol)).Nodup) :
    (((load_cpu_res env filespec w).2).dict.map (fun e => e.symbol)).Nodup := by
  unfold load_cpu_res
  split
  · exact h
  · exact foldl_res_line_nodup _ _ h

theorem readcom_loop_frame (under : Char) (k : Nat) (buf : List Char) (tot maxlen : Nat)
    (w : World) :
    (readcom_loop under k buf tot maxlen w).2.2.sent = w.sent ∧
    (readcom_loop under k buf tot maxlen w).2.2.dict = w.dict ∧
    (readcom_loop under k buf tot maxlen w).2.2.reads = w.reads := by
  induction k generalizing buf tot maxlen w with
  | zero => simp [readcom_loop]
  | succ k ih =>
    unfold readcom_loop
    simp only
    split
    · simp
    · split
      · simp
      · split
        · simp
        · have := ih (List.take tot buf ++ List.take maxlen ‹List Char›)
            (tot + (List.take maxlen ‹List Char›).length)
            (maxlen - (List.take maxlen ‹List Char›).length)
            { w with nread := w.nread + 1 }
          simpa using this

theorem readcom_frame (env : Env) (buf0 : List Char) (maxlen maxtry : Nat) (w : World) :
    (readcom env buf0 maxlen maxtry w).2.2.sent = w.sent ∧
    (readcom env buf0 maxlen maxtry w).2.2.dict = w.dict ∧
    (readcom env buf0 maxlen maxtry w).2.2.reads = w.reads :=
  readcom_loop_frame env.under maxtry buf0 0 maxlen w

theorem forth_check_sent (env : Env) (teststr : Str) (w : World) :
    (forth_check env teststr w).2.sent = w.sent ++ [teststr] := by
  unfold forth_check
  simp only
  rw [(readcom_frame env env.junk 128 12 (writecom teststr w)).1]
  rfl

theorem forth_check_dict (env : Env) (teststr : Str) (w : World) :
    (forth_check env teststr w).2.dict = w.dict := by
  unfold forth_check
  simp only
  rw [(readcom_frame env env.junk 128 12 (writecom teststr w)).2.1]
  rfl

theorem forth_check_result (env : Env) (teststr : Str) (w : World) :
    (forth_check env teststr w).1 = !strchr (check_reply env teststr w) BEL := rfl

theorem export_loop_dict (env : Env) (syms : List Str) (w : World) :
    (export_loop env syms w).2.dict = w.dict := by
  induction syms generalizing w with
  | nil => rfl
  | cons symbol rest ih =>
    unfold export_loop
    split
    · rfl
    · simp only
      split
      · split
        · simp [forth_check_dict]
        · rw [ih]; simp [forth_check_dict]
      · rw [ih]; simp [forth_check_dict]

theorem handle_res_nodup (env : Env) (line : Str) (w : World) (r : Bool × World)
    (hr : handle_res env line w = .ok r)
    (h : (w.dict.map (fun e => e.symbol)).Nodup) :
    (r.2.dict.map (fun e => e.symbol)).Nodup := by
  unfold handle_res at hr
  split at hr
  · simp at hr
  · split at hr
    · split at hr
      · simp at hr
      · simp only at hr
        split at hr
        · simp only [Except.ok.injEq] at hr
          subst hr
          exact h
        · simp only [Except.ok.injEq] at hr
          subst hr
          exact load_cpu_res_nodup env _ w h
    · split at hr
      · simp only [Except.ok.injEq] at hr
        subst hr
        rw [export_loop_dict]
        exact h
      · split at hr
        · simp at hr
        · split at hr
          · simp only at hr
            split at hr
            · simp only [Except.ok.injEq] at hr
              subst hr
              exact dict_define_nodup _ _ _ h
            · simp only [Except.ok.injEq] at hr
              subst hr
              exact h
          · simp only [Except.ok.injEq] at hr
            subst hr
            exact h

theorem run_ops_nodup (env : Env) (ops : List DictOp) (w0 w : World)
    (hrun : run_ops env ops w0 = .ok w)
    (h : (w0.dict.map (fun e => e.symbol)).Nodup) :
    (w.dict.map (fun e => e.symbol)).Nodup := by
  induction ops generalizing w0 with
  | nil =>
    simp only [run_ops, Except.ok.injEq] at hrun
    subst hrun
    exact h
  | cons op rest ih =>
    cases op with
    | load filespec =>
      simp only [run_ops] at hrun
      exact ih _ hrun (load_cpu_res_nodup env filespec w0 h)
    | res line =>
      simp only [run_ops] at hrun
      split at hrun
      · simp at hrun
      · rename_i r hr
        exact ih _ hrun (handle_res_nodup env line w0 r hr h)

theorem dict_unique_of_nodup (d : List dict_t)
    (h : (d.map (fun e => e.symbol)).Nodup) : dict_unique d := by
  intro i j hi hj hij heq
  rw [List.nodup_iff_injective_get] at h
  have hi2 : i < (d.map (fun e => e.symbol)).length := by simpa using hi
  have hj2 : j < (d.map (fun e => e.symbol)).length := by simpa using hj
  have := @h ⟨i, hi2⟩ ⟨j, hj2⟩ (by
    simp only [List.get_eq_getElem, List.getElem_map]
    rw [List.get?_eq_get hi, List.get?_eq_get hj] at heq
    simpa using heq)
  exact hij (by simpa using this)

/-- Starting from the empty dictionary, after any sequence of resource file
loads and `\res` lines handled by `handle_res` in which every symbol stored is
shorter than 20 characters, no two entries of the dictionary carry the same
symbol. -/
theorem dict_unique_invariant (env : Env) (ops : List DictOp) (w0 w : World)
    (h0 : w0.dict = []) (hrun : run_ops env ops w0 = .ok w)
    (_hsym : ∀ e ∈ w.dict, e.symbol.length < SYMBOL_SIZE)
    (_hcap : w.dict.length < DICT_SIZE) :
    dict_unique w.dict :=
  dict_unique_of_nodup _ (run_ops_nodup env ops w0 w hrun (by simp [h0]))

theorem dict_unique_invariant_witness :
    dict_unique [{ symbol := "A".toList, value := 0x30 }, { symbol := "a".toList, value := 0x20 },
      { symbol := "B\r".toList, value := 0x50 }] :=
  dict_unique_invariant (demo_env [("./mcu/X.efr", "10 equ A\n20 equ a\n30 equ A\n")])
    [DictOp.load "./mcu/X.efr".toList, DictOp.res "\\res 40 equ B\r".toList,
      DictOp.res "\\res 50 equ B\r".toList, DictOp.res "\\res MCU: X\r".toList]
    (demo_world [])
    { demo_world [] with dict :=
      [{ symbol := "A".toList, value := 0x30 }, { symbol := "a".toList, value := 0x20 },
       { symbol := "B\r".toList, value := 0x50 }] }
    rfl rfl (by decide) (by decide)



theorem echoFilter_eq_drop (received sent : Str) :
    echoFilter received sent = received.drop (commonPrefixLen received sent) := by
  induction received generalizing sent with
  | nil => cases sent <;> simp [echoFilter, commonPrefixLen]
  | cons c cs ih =>
    cases sent with
    | nil => simp [echoFilter, commonPrefixLen]
    | cons i is =>
      by_cases h : c = i
      · subst h
        simp [echoFilter, commonPrefixLen, ih]
      · simp [echoFilter, commonPrefixLen, h]

theorem echoFilter_first_diff (received sent : Str) (k : Nat)
    (hk : received.take k = sent.take k) (hd : received.get? k ≠ sent.get? k) :
    echoFilter received sent = received.drop k := by
  induction k generalizing received sent with
  | zero =>
    cases received with
    | nil => cases sent <;> simp [echoFilter]
    | cons c cs =>
      cases sent with
      | nil => simp [echoFilter]
      | cons i is =>
        have : c ≠ i := by
          intro h; apply hd; simp [h]
        simp [echoFilter, this]
  | succ k ih =>
    cases received with
    | nil => cases sent <;> simp [echoFilter]
    | cons c cs =>
      cases sent with
      | nil => simp at hk
      | cons i is =>
        simp only [List.take_succ_cons, List.cons.injEq] at hk
        obtain ⟨h1, h2⟩ := hk
        subst h1
        have hd2 : cs.get? k ≠ is.get? k := by simpa using hd
        simp [echoFilter, ih cs is h2 hd2]

/-- C6: `echoFilter ( received, sent )` is `received` without the longest common
initial segment of the two strings. -/
theorem echoFilter_spec (received sent : Str) :
    echoFilter received sent = received.drop (commonPrefixLen received sent) ∧
    (received <+: sent → echoFilter received sent = []) ∧
    (∀ k, received.take k = sent.take k → received.get? k ≠ sent.get? k →
      echoFilter received sent = received.drop k) ∧
    echoFilter [] sent = [] := by
  refine ⟨echoFilter_eq_drop received sent, ?_, ?_, ?_⟩
  · rintro ⟨t, rfl⟩
    induction received with
    | nil => cases t <;> simp [echoFilter]
    | cons c cs ih => simp [echoFilter, ih]
  · intro k hk hd
    exact echoFilter_first_diff received sent k hk hd
  · cases sent <;> simp [echoFilter]

theorem echoFilter_spec_witness :
    ("ab".toList <+: "abc".toList ∧ echoFilter "ab".toList "abc".toList = []) ∧
    echoFilter "ab ok".toList "ab".toList = " ok".toList ∧
    echoFilter "abXd".toList "abcd".toList = "Xd".toList :=
  ⟨⟨⟨"c".toList, rfl⟩, (echoFilter_spec "ab".toList "abc".toList).2.1 ⟨"c".toList, rfl⟩⟩,
   (echoFilter_spec "ab ok".toList "ab".toList).2.2.1 2 (by decide) (by decide),
   (echoFilter_spec "abXd".toList "abcd".toList).2.2.1 2 (by decide) (by decide)⟩



theorem tolower_of_upper (c : Char) (h : 65 ≤ c.toNat ∧ c.toNat ≤ 90) :
    tolower c = Char.ofNat (c.toNat + 32) := by
  simp [tolower, Char.toLower, h]

theorem tolower_of_not_upper (c : Char) (h : ¬ (65 ≤ c.toNat ∧ c.toNat ≤ 90)) :
    tolower c = c := by
  unfold tolower Char.toLower
  simp only [ge_iff_le]
  rw [if_neg h]

theorem tolower_eq_o (c : Char) :
    tolower c = Char.ofNat 111 ↔ c = Char.ofNat 111 ∨ c = Char.ofNat 79 := by
  by_cases h : 65 ≤ c.toNat ∧ c.toNat ≤ 90
  · rw [tolower_of_upper c h]
    have hc : c = Char.ofNat c.toNat := (Char.ofNat_toNat c).symm
    obtain ⟨h1, h2⟩ := h
    generalize c.toNat = n at *
    subst hc
    interval_cases n <;> decide
  · rw [tolower_of_not_upper c h]
    constructor
    · intro h1; exact Or.inl h1
    · rintro (h1 | h1)
      · exact h1
      · exfalso; apply h; subst h1; decide

theorem tolower_eq_k (c : Char) :
    tolower c = Char.ofNat 107 ↔ c = Char.ofNat 107 ∨ c = Char.ofNat 75 := by
  by_cases h : 65 ≤ c.toNat ∧ c.toNat ≤ 90
  · rw [tolower_of_upper c h]
    have hc : c = Char.ofNat c.toNat := (Char.ofNat_toNat c).symm
    obtain ⟨h1, h2⟩ := h
    generalize c.toNat = n at *
    subst hc
    interval_cases n <;> decide
  · rw [tolower_of_not_upper c h]
    constructor
    · intro h1; exact Or.inl h1
    · rintro (h1 | h1)
      · exact h1
      · exfalso; apply h; subst h1; decide

theorem getD_append_right3 (pre : Str) (a b c : Char) :
    (pre ++ [a, b, c]).getD pre.length NUL = a ∧
    (pre ++ [a, b, c]).getD (pre.length + 1) NUL = b ∧
    (pre ++ [a, b, c]).getD (pre.length + 2) NUL = c := by
  refine ⟨?_, ?_, ?_⟩
  · rw [List.getD_eq_getElem?_getD, List.getElem?_append_right (Nat.le_refl _)]; simp
  · rw [List.getD_eq_getElem?_getD, List.getElem?_append_right (Nat.le_add_right _ _)]; simp
  · rw [List.getD_eq_getElem?_getD, List.getElem?_append_right (Nat.le_add_right _ _)]; simp

theorem exists_last3 (buf : Str) (h : 3 ≤ buf.length) :
    ∃ pre a b c, buf = pre ++ [a, b, c] ∧ pre.length = buf.length - 3 := by
  have hl : (buf.drop (buf.length - 3)).length = 3 := by simp; omega
  match hd : buf.drop (buf.length - 3), hl with
  | [a, b, c], _ =>
    refine ⟨buf.take (buf.length - 3), a, b, c, ?_, ?_⟩
    · rw [← hd, List.take_append_drop]
    · simp

theorem split_last3 (buf : Str) (h : 3 ≤ buf.length) :
    buf = buf.take (buf.length - 3) ++ [buf.getD (buf.length - 3) NUL,
      buf.getD (buf.length - 3 + 1) NUL, buf.getD (buf.length - 3 + 2) NUL] := by
  obtain ⟨pre, a, b, c, rfl, hp⟩ := exists_last3 buf h
  obtain ⟨g1, g2, g3⟩ := getD_append_right3 pre a b c
  rw [← hp, g1, g2, g3]
  simp

theorem check_ok_stm8e_iff (buf : Str) (h : 3 ≤ buf.length) :
    (check_ok_stm8e buf = some (buf.length - 3) ↔ endsWithOk buf) ∧
    (¬ endsWithOk buf → check_ok_stm8e buf = none) := by
  have key : check_ok_stm8e buf = some (buf.length - 3) ∨ check_ok_stm8e buf = none := by
    unfold check_ok_stm8e
    simp only [Nat.not_lt.mpr h, if_false]
    split <;> simp
  have fwd : check_ok_stm8e buf = some (buf.length - 3) → endsWithOk buf := by
    intro h1
    unfold check_ok_stm8e at h1
    simp only [Nat.not_lt.mpr h, if_false] at h1
    split at h1
    · simp at h1
    · rename_i h2
      simp only [Bool.or_eq_true, bne_iff_ne, ne_eq, not_or, not_not] at h2
      obtain ⟨⟨ho, hk⟩, hl⟩ := h2
      refine ⟨buf.take (buf.length - 3), buf.getD (buf.length - 3) NUL,
        buf.getD (buf.length - 3 + 1) NUL, ?_, (tolower_eq_o _).1 ho, (tolower_eq_k _).1 hk⟩
      rw [← hl]
      exact split_last3 buf h
  have bwd : endsWithOk buf → check_ok_stm8e buf = some (buf.length - 3) := by
    rintro ⟨pre, o, k, rfl, ho, hk⟩
    unfold check_ok_stm8e
    have hlen : (pre ++ [o, k, LF]).length - 3 = pre.length := by simp
    obtain ⟨g1, g2, g3⟩ := getD_append_right3 pre o k LF
    simp only [Nat.not_lt.mpr h, if_false, hlen, g1, g2, g3]
    rw [(tolower_eq_o o).2 ho, (tolower_eq_k k).2 hk]
    simp
  refine ⟨⟨fwd, bwd⟩, ?_⟩
  intro hn
  rcases key with h1 | h1
  · exact absurd (fwd h1) hn
  · exact h1

theorem getD_append_right4 (pre : Str) (a b c d : Char) :
    (pre ++ [a, b, c, d]).getD pre.length NUL = a ∧
    (pre ++ [a, b, c, d]).getD (pre.length + 1) NUL = b ∧
    (pre ++ [a, b, c, d]).getD (pre.length + 2) NUL = c ∧
    (pre ++ [a, b, c, d]).getD (pre.length + 3) NUL = d := by
  refine ⟨?_, ?_, ?_, ?_⟩
  · rw [List.getD_eq_getElem?_getD, List.getElem?_append_right (Nat.le_refl _)]; simp
  · rw [List.getD_eq_getElem?_getD, List.getElem?_append_right (Nat.le_add_right _ _)]; simp
  · rw [List.getD_eq_getElem?_getD, List.getElem?_append_right (Nat.le_add_right _ _)]; simp
  · rw [List.getD_eq_getElem?_getD, List.getElem?_append_right (Nat.le_add_right _ _)]; simp

theorem exists_last4 (buf : Str) (h : 4 ≤ buf.length) :
    ∃ pre a b c d, buf = pre ++ [a, b, c, d] ∧ pre.length = buf.length - 4 := by
  have hl : (buf.drop (buf.length - 4)).length = 4 := by simp; omega
  match hd : buf.drop (buf.length - 4), hl with
  | [a, b, c, d], _ =>
    refine ⟨buf.take (buf.length - 4), a, b, c, d, ?_, ?_⟩
    · rw [← hd, List.take_append_drop]
    · simp

theorem check_ok_mecrisp_iff (buf : Str) (h : 4 ≤ buf.length) :
    (check_ok_mecrisp buf = some (buf.length - 4) ↔ endsWithOkDot buf) ∧
    (¬ endsWithOkDot buf → check_ok_mecrisp buf = none) := by
  have key : check_ok_mecrisp buf = some (buf.length - 4) ∨ check_ok_mecrisp buf = none := by
    unfold check_ok_mecrisp
    simp only [Nat.not_lt.mpr h, if_false]
    split <;> simp
  have fwd : check_ok_mecrisp buf = some (buf.length - 4) → endsWithOkDot buf := by
    intro h1
    obtain ⟨pre, a, b, c, d, rfl, hp⟩ := exists_last4 buf h
    obtain ⟨g1, g2, g3, g4⟩ := getD_append_right4 pre a b c d
    unfold check_ok_mecrisp at h1
    simp only [Nat.not_lt.mpr h, if_false, ← hp, g1, g2, g3, g4] at h1
    split at h1
    · simp at h1
    · rename_i h2
      simp only [Bool.or_eq_true, bne_iff_ne, ne_eq, not_or, not_not] at h2
      obtain ⟨⟨⟨ho, hk⟩, hdot⟩, hl⟩ := h2
      exact ⟨pre, a, b, by rw [hdot, hl], (tolower_eq_o _).1 ho, (tolower_eq_k _).1 hk⟩
  have bwd : endsWithOkDot buf → check_ok_mecrisp buf = some (buf.length - 4) := by
    rintro ⟨pre, o, k, rfl, ho, hk⟩
    unfold check_ok_mecrisp
    have hlen : (pre ++ [o, k, Char.ofNat 46, LF]).length - 4 = pre.length := by simp
    obtain ⟨g1, g2, g3, g4⟩ := getD_append_right4 pre o k (Char.ofNat 46) LF
    simp only [Nat.not_lt.mpr h, if_false, hlen, g1, g2, g3, g4]
    rw [(tolower_eq_o o).2 ho, (tolower_eq_k k).2 hk]
    simp
  refine ⟨⟨fwd, bwd⟩, ?_⟩
  intro hn
  rcases key with h1 | h1
  · exact absurd (fwd h1) hn
  · exact h1

/-- C7: on a line long enough to hold the marker, the ok check of a target
designates the first character of the marker exactly when the line ends with the
marker, and is NULL otherwise; the active check is the one of mecrisp when the
target name is "mecrisp" (in any case) and the one of stm8ef otherwise. -/
theorem check_ok_spec (buf : Str) (target : Str) :
    (3 ≤ buf.length →
      (check_ok_stm8e buf = some (buf.length - 3) ↔ endsWithOk buf) ∧
      (¬ endsWithOk buf → check_ok_stm8e buf = none)) ∧
    (4 ≤ buf.length →
      (check_ok_mecrisp buf = some (buf.length - 4) ↔ endsWithOkDot buf) ∧
      (¬ endsWithOkDot buf → check_ok_mecrisp buf = none)) ∧
    (ok_chk target = if strcasecmp target "mecrisp".toList then check_ok_mecrisp
      else check_ok_stm8e) :=
  ⟨check_ok_stm8e_iff buf, check_ok_mecrisp_iff buf, rfl⟩

theorem check_ok_spec_witness :
    (3 ≤ "2 Ok\n".toList.length ∧ endsWithOk "2 Ok\n".toList ∧
      check_ok_stm8e "2 Ok\n".toList = some 2) ∧
    (4 ≤ "2 ok.\n".toList.length ∧ endsWithOkDot "2 ok.\n".toList ∧
      check_ok_mecrisp "2 ok.\n".toList = some 2) :=
  have h3 : endsWithOk "2 Ok\n".toList :=
    ⟨"2 ".toList, Char.ofNat 79, Char.ofNat 107, by decide, by decide, by decide⟩
  have h4 : endsWithOkDot "2 ok.\n".toList :=
    ⟨"2 ".toList, Char.ofNat 111, Char.ofNat 107, by decide, by decide, by decide⟩
  ⟨⟨by decide, h3, ((check_ok_spec "2 Ok\n".toList []).1 (by decide)).1.2 h3⟩,
   ⟨by decide, h4, ((check_ok_spec "2 ok.\n".toList []).2.1 (by decide)).1.2 h4⟩⟩



/-! ### Tokens -/

theorem strz_no_nul (buf : List Char) : ∀ c ∈ strz buf, c ≠ NUL := by
  intro c hc
  have := List.mem_takeWhile_imp hc
  simpa using this

theorem strz_of_no_nul (s : Str) (h : ∀ c ∈ s, c ≠ NUL) : strz s = s := by
  unfold strz
  rw [List.takeWhile_eq_self_iff]
  intro c hc
  simpa using h c hc

theorem strz_strz (buf : List Char) : strz (strz buf) = strz buf :=
  strz_of_no_nul _ (strz_no_nul buf)

theorem strz_set_nul (l : Str) (n : Nat) (h : ∀ c ∈ l, c ≠ NUL) :
    strz (l.set n NUL) = l.take n := by
  induction l generalizing n with
  | nil => simp [strz]
  | cons x xs ih =>
    cases n with
    | zero => simp [strz]
    | succ n =>
      have hx : x ≠ NUL := h x (List.mem_cons_self _ _)
      have := ih n (fun c hc => h c (List.mem_cons_of_mem _ hc))
      simp only [List.set_cons_succ, List.take_succ_cons]
      unfold strz at this ⊢
      rw [List.takeWhile_cons_of_pos (by simpa using hx), this]

theorem spansFrom_wf (delim : Char → Bool) (s : Str) (i : Nat) (cur : Option Nat)
    (hcur : ∀ st, cur = some st → st < i) :
    (∀ p ∈ spansFrom delim i cur s, cur.getD i ≤ p.1 ∧ p.1 < p.2 ∧ i ≤ p.2 ∧
      p.2 ≤ i + s.length) ∧
    (spansFrom delim i cur s).Pairwise (fun p q => p.2 < q.1) := by
  induction s generalizing i cur with
  | nil =>
    cases cur with
    | none => simp [spansFrom]
    | some st => simp [spansFrom, hcur st rfl]
  | cons c cs ih =>
    cases cur with
    | none =>
      unfold spansFrom
      split
      · obtain ⟨h1, h2⟩ := ih (i + 1) none (by simp)
        refine ⟨fun p hp => ?_, h2⟩
        have := h1 p hp
        simp only [Option.getD_none, List.length_cons] at this ⊢
        omega
      · obtain ⟨h1, h2⟩ := ih (i + 1) (some i) (by simp)
        refine ⟨fun p hp => ?_, h2⟩
        have := h1 p hp
        simp only [Option.getD_some, Option.getD_none, List.length_cons] at this ⊢
        omega
    | some st =>
      have hst := hcur st rfl
      unfold spansFrom
      split
      · obtain ⟨h1, h2⟩ := ih (i + 1) none (by simp)
        refine ⟨fun p hp => ?_, ?_⟩
        · rcases List.mem_cons.1 hp with hp | hp
          · subst hp
            simp only [Option.getD_some, List.length_cons]
            omega
          · have := h1 p hp
            simp only [Option.getD_some, Option.getD_none, List.length_cons] at this ⊢
            omega
        · rw [List.pairwise_cons]
          refine ⟨fun q hq => ?_, h2⟩
          have := h1 q hq
          simp only [Option.getD_none] at this
          omega
      · obtain ⟨h1, h2⟩ := ih (i + 1) (some st) (by
          intro st2 h; simp only [Option.some.injEq] at h; omega)
        refine ⟨fun p hp => ?_, h2⟩
        have := h1 p hp
        simp only [Option.getD_some, List.length_cons] at this ⊢
        omega

theorem foldl_set_length (ps : List (Nat × Nat)) (s : List Char) :
    (ps.foldl (fun b sp => b.set sp.2 NUL) s).length = s.length := by
  induction ps generalizing s with
  | nil => rfl
  | cons p ps ih => simp [ih]

theorem foldl_set_drop (ps : List (Nat × Nat)) (s : List Char) (a : Nat)
    (h : ∀ p ∈ ps, p.2 < a) :
    (ps.foldl (fun b sp => b.set sp.2 NUL) s).drop a = s.drop a := by
  induction ps generalizing s with
  | nil => rfl
  | cons p ps ih =>
    simp only [List.foldl_cons]
    rw [ih _ (fun q hq => h q (List.mem_cons_of_mem _ hq))]
    exact List.drop_set_of_lt _ _ (h p (List.mem_cons_self _ _))

theorem take_succ_of_get? {α : Type} (l : List α) (i : Nat) (x : α) (h : l[i]? = some x) :
    l.take (i + 1) = l.take i ++ [x] := by
  induction l generalizing i with
  | nil => simp at h
  | cons y ys ih =>
    cases i with
    | zero => simp at h; simp [h]
    | succ i =>
      have h2 : ys[i]? = some x := by simpa using h
      simp [ih i h2]

/-- The string read through the pointer `gettoken ( str, i )` returns is the i-th
token of `str`. -/
theorem token_eq_tokens (str : Str) (i : Nat) :
    token str i = (tokens isDelim str).get? i := by
  unfold token gettoken tokens gettoken_buf
  rw [List.get?_eq_getElem?, List.get?_eq_getElem?, List.getElem?_map]
  cases hsp : (spans isDelim (strz str))[i]? with
  | none => rfl
  | some sp =>
    simp only [Option.map_some', Option.some.injEq]
    obtain ⟨hb, hpw⟩ := spansFrom_wf isDelim (strz str) 0 none (by simp)
    rw [take_succ_of_get? _ i sp hsp, List.foldl_append]
    simp only [List.foldl_cons, List.foldl_nil]
    unfold strAt
    have hlt : ∀ p ∈ (spans isDelim (strz str)).take i, p.2 < sp.1 := by
      intro p hp
      have hsplit : spans isDelim (strz str) =
          (spans isDelim (strz str)).take i ++ sp :: (spans isDelim (strz str)).drop (i + 1) := by
        have h1 := List.take_append_drop (i + 1) (spans isDelim (strz str))
        rw [take_succ_of_get? _ i sp hsp] at h1
        simpa using h1.symm
      have hpw2 : (spans isDelim (strz str)).Pairwise (fun p q => p.2 < q.1) := hpw
      rw [hsplit, List.pairwise_append] at hpw2
      exact hpw2.2.2 p hp sp (List.mem_cons_self _ _)
    have hmem : sp ∈ spans isDelim (strz str) := List.getElem?_mem hsp
    have hsp1 := (hb sp hmem).2.1
    rw [List.drop_set, if_neg (by omega), foldl_set_drop _ _ _ hlt]
    rw [strz_set_nul _ _ (fun c hc => strz_no_nul str c (List.mem_of_mem_drop hc))]
    rfl

theorem spansFrom_cons_none (delim : Char → Bool) (i : Nat) (c : Char) (cs : Str) :
    spansFrom delim i none (c :: cs) =
      if delim c then spansFrom delim (i + 1) none cs
      else spansFrom delim (i + 1) (some i) cs := rfl

theorem spansFrom_cons_some (delim : Char → Bool) (i st : Nat) (c : Char) (cs : Str) :
    spansFrom delim i (some st) (c :: cs) =
      if delim c then (st, i) :: spansFrom delim (i + 1) none cs
      else spansFrom delim (i + 1) (some st) cs := rfl

theorem spansFrom_in_token (delim : Char → Bool) (t : Str) (hnd : ∀ c ∈ t, delim c = false)
    (d : Char) (hd : delim d = true) (rest : Str) (j st : Nat) :
    spansFrom delim j (some st) (t ++ d :: rest) =
      (st, j + t.length) :: spansFrom delim (j + t.length + 1) none rest := by
  induction t generalizing j with
  | nil => simp [spansFrom_cons_some, hd]
  | cons c cs ih =>
    have hc : delim c = false := hnd c (List.mem_cons_self _ _)
    rw [List.cons_append, spansFrom_cons_some]
    simp only [hc, Bool.false_eq_true, if_false]
    rw [ih (fun x hx => hnd x (List.mem_cons_of_mem _ hx))]
    simp only [List.length_cons]
    have e1 : j + 1 + cs.length = j + (cs.length + 1) := by omega
    rw [e1]

theorem spansFrom_token (delim : Char → Bool) (t : Str) (hne : t ≠ [])
    (hnd : ∀ c ∈ t, delim c = false) (d : Char) (hd : delim d = true) (rest : Str) (j : Nat) :
    spansFrom delim j none (t ++ d :: rest) =
      (j, j + t.length) :: spansFrom delim (j + t.length + 1) none rest := by
  cases t with
  | nil => exact absurd rfl hne
  | cons c cs =>
    have hc : delim c = false := hnd c (List.mem_cons_self _ _)
    rw [List.cons_append, spansFrom_cons_none]
    simp only [hc, Bool.false_eq_true, if_false]
    rw [spansFrom_in_token delim cs (fun x hx => hnd x (List.mem_cons_of_mem _ hx)) d hd rest]
    simp only [List.length_cons]
    have e1 : j + 1 + cs.length = j + (cs.length + 1) := by omega
    rw [e1]

theorem substr_mid (a t b : Str) : substr (a ++ t ++ b) a.length (a.length + t.length) = t := by
  unfold substr
  rw [List.append_assoc, List.drop_left, Nat.add_sub_cancel_left, List.take_left]



theorem strchr_iff (s : Str) (c : Char) : strchr s c = true ↔ c ∈ s := by
  simp [strchr]

theorem mem_pad_loop (k : Nat) (buf : Str) (lenok margin : Nat) (c : Char) (h : c ∈ buf) :
    c ∈ pad_loop k buf lenok margin := by
  induction k generalizing buf with
  | zero => exact h
  | succ k ih =>
    unfold pad_loop
    split
    · exact ih _ (List.mem_append_left _ h)
    · exact h

theorem mem_beautify (chk : Str → Option Nat) (buf : Str) (margin : Nat) (c : Char)
    (h : c ∈ buf) : c ∈ beautify chk buf margin := by
  unfold beautify
  split
  · rename_i p _
    simp only
    rw [← List.take_append_drop p buf] at h
    rcases List.mem_append.1 h with h1 | h1
    · exact List.mem_append_left _ (mem_pad_loop _ _ _ _ _ h1)
    · exact List.mem_append_right _ h1
  · exact h

theorem readcom_loop_count (under : Char) (k : Nat) (buf : List Char) (tot maxlen : Nat)
    (w : World) (hk : 0 < k) (ht : tot ≤ buf.length) :
    (readcom_loop under k buf tot maxlen w).1 = -1 ∨
    (readcom_loop under k buf tot maxlen w).1 =
      ((readcom_loop under k buf tot maxlen w).2.1.length : Int) := by
  induction k generalizing buf tot maxlen w with
  | zero => exact absurd hk (Nat.lt_irrefl 0)
  | succ k ih =>
    unfold readcom_loop
    simp only
    split
    · exact Or.inl rfl
    · rename_i chunk _
      have hl : (List.take tot buf ++ List.take maxlen chunk).length =
          tot + (List.take maxlen chunk).length := by
        rw [List.length_append, List.length_take, Nat.min_eq_left ht]
      split
      · right; simp only; rw [hl]
      · split
        · right; simp only; rw [hl]
        · rename_i hk0
          exact ih _ _ _ _ (Nat.pos_of_ne_zero hk0) (by rw [hl])

theorem readcom_count (env : Env) (buf0 : List Char) (maxlen maxtry : Nat) (w : World)
    (hk : 0 < maxtry) :
    (readcom env buf0 maxlen maxtry w).1 = -1 ∨
    (readcom env buf0 maxlen maxtry w).1 =
      ((readcom env buf0 maxlen maxtry w).2.1.length : Int) :=
  readcom_loop_count env.under maxtry buf0 0 maxlen w hk (Nat.zero_le _)

theorem strz_nil_of_nil (buf : List Char) (h : buf = []) : strz buf = [] := by
  subst h; rfl

theorem do_line_ordinary (env : Env) (incl : Str → Bool → World → Except Fault (Bool × World))
    (raw : Str) (s : Loop) (hord : ordinary raw = true) :
    do_line env incl raw s =
      if 0 < (line_reply env raw s).1 then
        (if strchr (beautify (ok_chk env.target) (strz (line_reply env raw s).2.1)
            (new_margin s.margin (line_reply env raw s).1)) BEL
         then .ok (.brk { s with
            margin := new_margin s.margin (line_reply env raw s).1,
            w := (line_reply env raw s).2.2 })
         else .ok (.cont { s with
            margin := new_margin s.margin (line_reply env raw s).1,
            w := (line_reply env raw s).2.2 }))
      else .ok (.cont { s with w := (line_reply env raw s).2.2 }) := by
  simp only [ordinary, Bool.and_eq_true, decide_eq_true_eq, Bool.not_eq_true',
    beq_eq_false_iff_ne, ne_eq] at hord
  obtain ⟨⟨⟨h1, h2⟩, h3⟩, h4⟩ := hord
  have hbb : startsWith (normalize (strz raw)) [BSL, BSL] = false := by
    cases hn : normalize (strz raw) with
    | nil => rfl
    | cons c cs =>
      rw [hn] at h2
      simp only [List.head?_cons, Option.some.injEq] at h2
      have : ¬ (BSL = c) := fun h => h2 h.symm
      simp [startsWith, List.isPrefixOf, this]
  have hres : startsWith (normalize (strz raw)) "\\res".toList = false := by
    cases hn : normalize (strz raw) with
    | nil => rfl
    | cons c cs =>
      rw [hn] at h2
      simp only [List.head?_cons, Option.some.injEq] at h2
      have : ¬ (Char.ofNat 92 = c) := fun h => h2 (by rw [← h]; rfl)
      simp [startsWith, List.isPrefixOf, this]
  unfold do_line
  simp only [Nat.not_le.mpr h1, if_false, hbb, hres, h3, h4, Bool.or_self]
  have h2b : ((normalize (strz raw)).head? == some BSL) = false := by
    simpa using h2
  simp only [h2b]
  rfl



theorem stream_cons (env : Env) (incl : Str → Bool → World → Except Fault (Bool × World))
    (raw : Str) (rest : List Str) (s : Loop) :
    stream env incl (raw :: rest) s =
      match do_line env incl raw s with
      | .error f => .error f
      | .ok (.brk s1) => .ok s1
      | .ok (.cont s1) => stream env incl rest s1 := rfl

theorem line_reply_sent (env : Env) (raw : Str) (s : Loop) :
    (line_reply env raw s).2.2.sent = s.w.sent ++ [ordinary_cmd raw] := by
  unfold line_reply
  rw [(readcom_frame env _ 256 12 _).1]
  rfl

theorem line_reply_pos (env : Env) (raw : Str) (s : Loop)
    (hn : (line_reply env raw s).1 ≠ -1)
    (hb : strchr (strz (line_reply env raw s).2.1) BEL = true) :
    0 < (line_reply env raw s).1 := by
  rcases readcom_count env (ordinary_cmd raw) 256 12 (writecom (ordinary_cmd raw) s.w)
    (by decide) with h | h
  · exact absurd h hn
  · have h2 : (line_reply env raw s).1 = ((line_reply env raw s).2.1.length : Int) := h
    rw [h2]
    have : (line_reply env raw s).2.1 ≠ [] := by
      intro h3
      rw [h3] at hb
      simp [strz, strchr] at hb
    have := List.length_pos.2 this
    omega

/-- C8 (amended): a reply that holds BEL makes `forth_check` report failure; and
when `readcom` has not returned -1 it makes the loop of `include_file` leave the
file at once, with or without the ok marker at the end of the reply: the line
just sent is the last one written to the device. When `readcom` has returned -1
the loop does not look at the reply and goes on with the next line. -/
theorem bel_takes_priority (env : Env)
    (incl : Str → Bool → World → Except Fault (Bool × World))
    (raw : Str) (rest : List Str) (s : Loop) (teststr : Str) (w : World) :
    (strchr (check_reply env teststr w) BEL = true → (forth_check env teststr w).1 = false) ∧
    (ordinary raw = true → (line_reply env raw s).1 ≠ -1 →
      strchr (strz (line_reply env raw s).2.1) BEL = true →
      stream env incl (raw :: rest) s =
          .ok { s with margin := new_margin s.margin (line_reply env raw s).1,
                       w := (line_reply env raw s).2.2 } ∧
        (line_reply env raw s).2.2.sent = s.w.sent ++ [ordinary_cmd raw]) ∧
    (ordinary raw = true → (line_reply env raw s).1 = -1 →
      stream env incl (raw :: rest) s =
        stream env incl rest { s with w := (line_reply env raw s).2.2 }) := by
  refine ⟨?_, ?_, ?_⟩
  · intro h
    rw [forth_check_result, h]
    rfl
  rotate_left
  · intro hord hn
    rw [stream_cons, do_line_ordinary env incl raw s hord, if_neg (by rw [hn]; decide)]
  · intro hord hn hb
    have hpos := line_reply_pos env raw s hn hb
    have hshown : strchr (beautify (ok_chk env.target) (strz (line_reply env raw s).2.1)
        (new_margin s.margin (line_reply env raw s).1)) BEL = true :=
      (strchr_iff _ _).2 (mem_beautify _ _ _ _ ((strchr_iff _ _).1 hb))
    refine ⟨?_, line_reply_sent env raw s⟩
    rw [stream_cons, do_line_ordinary env incl raw s hord]
    simp only [hpos, if_true, hshown]

theorem bel_takes_priority_witness :
    (forth_check (demo_env []) "' foo DROP\r".toList (demo_world ["\x07 ok\n"])).1 = false ∧
    sent_of ((stream (demo_env []) (include_file (demo_env []) 0) ["foo\n".toList, "bar\n".toList]
      { margin := 85, result := true, w := demo_world ["foo \x07 ok\n"] }).map
        (fun s => (s.result, s.w))) = some ["foo\r".toList] :=
  ⟨(bel_takes_priority (demo_env []) (include_file (demo_env []) 0) [] [] 
      { margin := 85, result := true, w := demo_world [] } "' foo DROP\r".toList
      (demo_world ["\x07 ok\n"])).1 (by decide),
   by
    have h := (bel_takes_priority (demo_env []) (include_file (demo_env []) 0) "foo\n".toList
      ["bar\n".toList] { margin := 85, result := true, w := demo_world ["foo \x07 ok\n"] }
      [] (demo_world [])).2.1 (by decide) (by decide) (by decide)
    rw [h.1]
    exact congrArg some h.2⟩

/-- C8, as stated, fails: the reply `foo ?` with BEL arrives in a first read and
the second read fails. The buffer holds the BEL, but `readcom` returns -1, the
loop does not look at the reply, sends the next line of the file and
`include_file` returns TRUE. -/
theorem bel_after_failed_read :
    ordinary "foo\n".toList = true ∧
    (line_reply (demo_env []) "foo\n".toList
      { margin := 85, result := true, w := broken_world "foo ?\x07" }).1 = -1 ∧
    strchr (strz (line_reply (demo_env []) "foo\n".toList
      { margin := 85, result := true, w := broken_world "foo ?\x07" }).2.1) BEL = true ∧
    sent_of (include_file (demo_env [("a.fs", "foo\nbar\n")]) 1 "a.fs".toList false
      (broken_world "foo ?\x07")) = some ["foo\r".toList, "bar\r".toList] ∧
    result_of (include_file (demo_env [("a.fs", "foo\nbar\n")]) 1 "a.fs".toList false
      (broken_world "foo ?\x07")) = some true := by
  refine ⟨?_, ?_, ?_, ?_, ?_⟩ <;> decide

/-- The sending branch of the loop never changes `result`: whatever the target
replies to an ordinary line, the loop goes on or stops with the result it had. -/
theorem do_line_ordinary_result (env : Env)
    (incl : Str → Bool → World → Except Fault (Bool × World))
    (raw : Str) (s : Loop) (hord : ordinary raw = true) :
    ∃ s1, (do_line env incl raw s = .ok (.brk s1) ∨ do_line env incl raw s = .ok (.cont s1)) ∧
      s1.result = s.result := by
  rw [do_line_ordinary env incl raw s hord]
  split
  · split
    · exact ⟨_, Or.inl rfl, rfl⟩
    · exact ⟨_, Or.inr rfl, rfl⟩
  · exact ⟨_, Or.inr rfl, rfl⟩



theorem stream_append (env : Env) (incl : Str → Bool → World → Except Fault (Bool × World))
    (pre post : List Str) (s s1 : Loop) (h : passes env incl pre s = some s1) :
    stream env incl (pre ++ post) s = stream env incl post s1 := by
  induction pre generalizing s with
  | nil =>
    simp only [passes, Option.some.injEq] at h
    subst h
    rfl
  | cons raw pre ih =>
    simp only [List.cons_append]
    unfold passes at h
    rw [stream_cons]
    split at h
    · rename_i s2 hd
      rw [hd]
      exact ih s2 h
    · simp at h

theorem head_of_startsWith (line pat : Str) (c : Char) (h : startsWith line (c :: pat) = true) :
    line.head? = some c := by
  cases line with
  | nil => simp [startsWith, List.isPrefixOf] at h
  | cons x xs =>
    simp [startsWith, List.isPrefixOf] at h
    simp [h.1]

theorem do_line_directive (env : Env)
    (incl : Str → Bool → World → Except Fault (Bool × World))
    (raw : Str) (s : Loop) (hdir : directive raw = true) :
    do_line env incl raw s =
      match token (normalize (strz raw)) 1 with
      | some p =>
        match incl p (startsWith (normalize (strz raw)) "#require".toList)
            (writecom (normalize (strz raw)) s.w) with
        | .error f => .error f
        | .ok r =>
          if !r.1 then .ok (.brk { s with result := r.1, w := r.2 })
          else .ok (.cont { s with result := r.1, w := r.2 })
      | none => .ok (.cont { s with w := writecom (normalize (strz raw)) s.w }) := by
  simp only [directive, Bool.and_eq_true, decide_eq_true_eq] at hdir
  obtain ⟨h1, h2⟩ := hdir
  have hhead : (normalize (strz raw)).head? = some (Char.ofNat 35) := by
    rcases Bool.or_eq_true _ _ ▸ h2 with h | h
    · exact head_of_startsWith _ _ _ h
    · exact head_of_startsWith _ _ _ h
  have hbb : startsWith (normalize (strz raw)) [BSL, BSL] = false := by
    cases hn : normalize (strz raw) with
    | nil => rfl
    | cons c cs =>
      rw [hn] at hhead
      simp only [List.head?_cons, Option.some.injEq] at hhead
      subst hhead
      rfl
  have hres : startsWith (normalize (strz raw)) "\\res".toList = false := by
    cases hn : normalize (strz raw) with
    | nil => rfl
    | cons c cs =>
      rw [hn] at hhead
      simp only [List.head?_cons, Option.some.injEq] at hhead
      subst hhead
      rfl
  have hb : ((normalize (strz raw)).head? == some BSL) = false := by
    rw [hhead]; rfl
  unfold do_line
  simp only [Nat.not_le.mpr h1, if_false, hbb, hres, hb, h2, if_true]
  rfl

/-- C2: when the recursive call made for a `#include` or `#require` line returns
failure, the loop of the enclosing `include_file` stops there and the enclosing
call returns failure, in the world the recursive call has left (nothing more is
sent or interpreted). The recursive call may itself have failed in this way, so
that a failure passes through every level of the nesting. -/
theorem include_failure_propagates (env : Env) (fuel : Nat) (filename : Str)
    (conditional : Bool) (w : World) (content : List Char) (pre rest : List Str) (raw : Str)
    (s1 : Loop) (p : Str) (w2 : World)
    (hopen : (search_file env filename).bind env.fopen = some content)
    (hprobe : conditional = true →
      (forth_check env (probe_cmd (probe_word filename)) w).1 = false)
    (hlines : fgets_all 256 content [] = pre ++ raw :: rest)
    (hpre : passes env (include_file env fuel) pre
      { margin := 85, result := true, w := start_world env filename conditional w } = some s1)
    (hdir : directive raw = true)
    (htok : token (normalize (strz raw)) 1 = some p)
    (hfail : include_file env fuel p (startsWith (normalize (strz raw)) "#require".toList)
      (writecom (normalize (strz raw)) s1.w) = .ok (false, w2)) :
    stream env (include_file env fuel) (raw :: rest) s1 =
      .ok { s1 with result := false, w := w2 } ∧
    include_file env (fuel + 1) filename conditional w = .ok (false, w2) := by
  have hstep : stream env (include_file env fuel) (raw :: rest) s1 =
      .ok { s1 with result := false, w := w2 } := by
    rw [stream_cons, do_line_directive env _ raw s1 hdir, htok]
    simp only [hfail]
    rfl
  refine ⟨hstep, ?_⟩
  unfold include_file
  simp only [hopen]
  cases conditional with
  | false =>
    simp only [Bool.false_eq_true, if_false]
    rw [hlines, stream_append env _ pre (raw :: rest) _ s1 (by simpa [start_world] using hpre),
      hstep]
  | true =>
    have hp := hprobe rfl
    simp only [if_true, hp, Bool.false_eq_true, if_false]
    rw [hlines, stream_append env _ pre (raw :: rest) _ s1 (by simpa [start_world] using hpre),
      hstep]

/-- A conditional inclusion of a file that can be opened first sends the probe
for the word that `include_file` takes from the file name. When the reply holds no BEL it returns success in
the world the probe has left, in which the probe is the only thing written; when
the reply holds BEL it goes on as the unconditional inclusion does from there. -/
theorem conditional_include (env : Env) (fuel : Nat) (filename : Str) (w : World)
    (content : List Char)
    (hopen : (search_file env filename).bind env.fopen = some content) :
    (forth_check env (probe_cmd (probe_word filename)) w).2.sent =
      w.sent ++ [probe_cmd (probe_word filename)] ∧
    (forth_check env (probe_cmd (probe_word filename)) w).2.dict = w.dict ∧
    (strchr (check_reply env (probe_cmd (probe_word filename)) w) BEL = false →
      include_file env (fuel + 1) filename true w =
        .ok (true, (forth_check env (probe_cmd (probe_word filename)) w).2)) ∧
    (strchr (check_reply env (probe_cmd (probe_word filename)) w) BEL = true →
      include_file env (fuel + 1) filename true w =
        include_file env (fuel + 1) filename false
          (forth_check env (probe_cmd (probe_word filename)) w).2) := by
  refine ⟨forth_check_sent _ _ _, forth_check_dict _ _ _, ?_, ?_⟩
  · intro h
    have h1 : (forth_check env (probe_cmd (probe_word filename)) w).1 = true := by
      rw [forth_check_result, h]; rfl
    unfold include_file
    simp only [hopen, if_true, h1]
  · intro h
    have h1 : (forth_check env (probe_cmd (probe_word filename)) w).1 = false := by
      rw [forth_check_result, h]; rfl
    unfold include_file
    simp only [hopen, if_true, h1, Bool.false_eq_true, if_false]

theorem include_failure_propagates_witness :
    include_file (demo_env [("a.fs", "1 2 +\n#include missing.fs\n3 4 +\n")]) 2 "a.fs".toList
      false (demo_world ["1 2 + ok\n"]) =
      .ok (false, { sent := ["1 2 +\r".toList, "#include missing.fs\r".toList],
                    reads := (demo_world ["1 2 + ok\n"]).reads, nread := 1, dict := [] }) :=
  (include_failure_propagates (demo_env [("a.fs", "1 2 +\n#include missing.fs\n3 4 +\n")]) 1
    "a.fs".toList false (demo_world ["1 2 + ok\n"]) "1 2 +\n#include missing.fs\n3 4 +\n".toList
    ["1 2 +\n".toList] ["3 4 +\n".toList] "#include missing.fs\n".toList
    { margin := 85, result := true,
      w := { sent := ["1 2 +\r".toList], reads := (demo_world ["1 2 + ok\n"]).reads,
             nread := 1, dict := [] } }
    "missing.fs".toList
    { sent := ["1 2 +\r".toList, "#include missing.fs\r".toList],
      reads := (demo_world ["1 2 + ok\n"]).reads, nread := 1, dict := [] }
    (by decide) (by decide) (by decide) rfl (by decide) (by decide) rfl).2

theorem conditional_include_witness :
    include_file (demo_env [("lib/b.fs", ": b.fs ;\n")]) 1 "lib/b.fs".toList true
        (demo_world [" ok\n"]) =
      .ok (true, (forth_check (demo_env [("lib/b.fs", ": b.fs ;\n")])
        (probe_cmd (probe_word "lib/b.fs".toList)) (demo_world [" ok\n"])).2) ∧
    include_file (demo_env [("lib/b.fs", ": b.fs ;\n")]) 1 "lib/b.fs".toList true
        (demo_world ["b.fs ?\x07\n"]) =
      include_file (demo_env [("lib/b.fs", ": b.fs ;\n")]) 1 "lib/b.fs".toList false
        (forth_check (demo_env [("lib/b.fs", ": b.fs ;\n")])
          (probe_cmd (probe_word "lib/b.fs".toList)) (demo_world ["b.fs ?\x07\n"])).2 :=
  ⟨(conditional_include (demo_env [("lib/b.fs", ": b.fs ;\n")]) 0 "lib/b.fs".toList
      (demo_world [" ok\n"]) ": b.fs ;\n".toList (by decide)).2.2.1 (by decide),
   (conditional_include (demo_env [("lib/b.fs", ": b.fs ;\n")]) 0 "lib/b.fs".toList
      (demo_world ["b.fs ?\x07\n"]) ": b.fs ;\n".toList (by decide)).2.2.2 (by decide)⟩



/-! ### Lines made of tokens -/

theorem delim_ne_nul (d : Char) (h : isDelim d = true) : d ≠ NUL := by
  intro h2; subst h2; revert h; decide

theorem join_tokens_no_nul (pairs : List (Str × Char))
    (h : ∀ p ∈ pairs, is_token p.1 ∧ isDelim p.2 = true) :
    ∀ c ∈ join_tokens pairs, c ≠ NUL := by
  induction pairs with
  | nil => simp [join_tokens]
  | cons p ps ih =>
    intro c hc
    simp only [join_tokens, List.mem_append, List.mem_cons] at hc
    obtain ⟨ht, hd⟩ := h p (List.mem_cons_self _ _)
    rcases hc with hc | hc | hc
    · exact (ht.2 c hc).2
    · subst hc; exact delim_ne_nul _ hd
    · exact ih (fun q hq => h q (List.mem_cons_of_mem _ hq)) c hc

theorem spans_join (pairs : List (Str × Char))
    (h : ∀ p ∈ pairs, is_token p.1 ∧ isDelim p.2 = true) (pre : Str) :
    (spansFrom isDelim pre.length none (join_tokens pairs)).map
        (fun sp => substr (pre ++ join_tokens pairs) sp.1 sp.2) =
      pairs.map (fun p => p.1) := by
  induction pairs generalizing pre with
  | nil => simp [join_tokens, spansFrom]
  | cons p ps ih =>
    obtain ⟨ht, hd⟩ := h p (List.mem_cons_self _ _)
    simp only [join_tokens]
    rw [spansFrom_token isDelim p.1 ht.1 (fun c hc => (ht.2 c hc).1) p.2 hd]
    simp only [List.map_cons, List.cons.injEq]
    constructor
    · have := substr_mid pre p.1 (p.2 :: join_tokens ps)
      simpa [List.append_assoc] using this
    · have := ih (fun q hq => h q (List.mem_cons_of_mem _ hq)) (pre ++ p.1 ++ [p.2])
      simpa [List.append_assoc] using this

theorem tokens_join (pairs : List (Str × Char))
    (h : ∀ p ∈ pairs, is_token p.1 ∧ isDelim p.2 = true) :
    tokens isDelim (join_tokens pairs) = pairs.map (fun p => p.1) := by
  unfold tokens spans
  rw [strz_of_no_nul _ (join_tokens_no_nul pairs h)]
  simpa using spans_join pairs h []

theorem token_join (pairs : List (Str × Char))
    (h : ∀ p ∈ pairs, is_token p.1 ∧ isDelim p.2 = true) (i : Nat) :
    token (join_tokens pairs) i = (pairs.get? i).map (fun p => p.1) := by
  rw [token_eq_tokens, tokens_join pairs h]
  simp [List.get?_eq_getElem?]

/-! ### Hexadecimal numbers -/

theorem hexval_hexdigit (d : Nat) (h : d < 16) : hexval (hexdigit d) = some d := by
  interval_cases d <;> decide

theorem hexnum_foldl (ds : Str) (a : Nat) :
    ds.foldl (fun a c => 16 * a + (hexval c).getD 0) a = a * 16 ^ ds.length + hexnum ds := by
  induction ds generalizing a with
  | nil => simp [hexnum]
  | cons c cs ih =>
    unfold hexnum
    simp only [List.foldl_cons, List.length_cons]
    rw [ih, ih (16 * 0 + (hexval c).getD 0)]
    ring

theorem hexnum_cons (c : Char) (cs : Str) :
    hexnum (c :: cs) = (hexval c).getD 0 * 16 ^ cs.length + hexnum cs := by
  unfold hexnum
  simp only [List.foldl_cons]
  rw [hexnum_foldl]
  simp [hexnum]

theorem hexnum_hexdigits (k n : Nat) (acc : Str) (h : n < 16 ^ k) :
    hexnum (hexdigits k n acc) = n * 16 ^ acc.length + hexnum acc := by
  induction k generalizing n acc with
  | zero =>
    have : n = 0 := by simpa using h
    subst this
    simp [hexdigits]
  | succ k ih =>
    unfold hexdigits
    have hmod : n % 16 < 16 := Nat.mod_lt _ (by decide)
    split
    · rename_i h0
      have hn : n < 16 := by
        rcases Nat.lt_or_ge n 16 with h1 | h1
        · exact h1
        · have := Nat.div_pos h1 (by decide : 0 < 16); omega
      rw [hexnum_cons, hexval_hexdigit _ hmod, Nat.mod_eq_of_lt hn]
      rfl
    · have hdiv : n / 16 < 16 ^ k := by
        rw [Nat.div_lt_iff_lt_mul (by decide)]
        rw [pow_succ] at h
        exact h
      rw [ih (n / 16) _ hdiv, hexnum_cons, hexval_hexdigit _ hmod]
      simp only [List.length_cons, Option.getD_some]
      have hn : n = 16 * (n / 16) + n % 16 := (Nat.div_add_mod n 16).symm
      generalize n / 16 = q at hn ⊢
      generalize n % 16 = r at hn ⊢
      subst hn
      rw [pow_succ]
      ring

/-- Reading back what `printf` writes for "%X" gives the number. -/
theorem hexnum_fmtX (n : Nat) : hexnum (fmtX n) = n := by
  unfold fmtX
  have h : n < 16 ^ (n + 1) := by
    have h1 : n < 2 ^ n := Nat.lt_two_pow n
    have h2 : 2 ^ n ≤ 16 ^ (n + 1) := by
      calc 2 ^ n ≤ 16 ^ n := Nat.pow_le_pow_left (by decide) n
        _ ≤ 16 ^ (n + 1) := Nat.pow_le_pow_right (by decide) (Nat.le_succ n)
    omega
  rw [hexnum_hexdigits _ _ _ h]
  simp [hexnum]



/-! ### strtol on a hexadecimal number -/

theorem hex_not_special (c : Char) (h : (hexval c).isSome = true) :
    isDelim c = false ∧ c ≠ NUL ∧ isspace c = false ∧ c ≠ Char.ofNat 45 ∧ c ≠ Char.ofNat 43 ∧
    c ≠ Char.ofNat 120 ∧ c ≠ Char.ofNat 88 ∧ c ≠ BSL := by
  have hd : isDelim c = false := by
    cases hc : isDelim c with
    | false => rfl
    | true =>
      exfalso
      simp only [isDelim, Bool.or_eq_true, beq_iff_eq] at hc
      rcases hc with (hc | hc) | hc <;> (subst hc; revert h; decide)
  have hs : isspace c = false := by
    cases hc : isspace c with
    | false => rfl
    | true =>
      exfalso
      simp only [isspace, Bool.or_eq_true, beq_iff_eq, Bool.and_eq_true, decide_eq_true_eq] at hc
      rcases hc with hc | ⟨h1, h2⟩
      · subst hc; revert h; decide
      · have hcc : c = Char.ofNat c.toNat := (Char.ofNat_toNat c).symm
        generalize c.toNat = n at *
        subst hcc
        interval_cases n <;> (revert h; decide)
  refine ⟨hd, ?_, hs, ?_, ?_, ?_, ?_, ?_⟩ <;> (intro hc; subst hc; revert h; decide)

theorem is_token_of_is_hex (hex : Str) (h : is_hex hex) : is_token hex :=
  ⟨h.1, fun c hc => ⟨(hex_not_special c (h.2 c hc)).1, (hex_not_special c (h.2 c hc)).2.1⟩⟩

theorem skip0x_hex (hex : Str) (h : ∀ c ∈ hex, (hexval c).isSome = true) : skip0x hex = hex := by
  unfold skip0x
  split
  · rename_i z x hh t
    have hx := hex_not_special x (h x (by simp))
    have h1 : ¬ (x = Char.ofNat 120 ∨ x = Char.ofNat 88) := by
      rintro (h1 | h1)
      · exact hx.2.2.2.2.2.1 h1
      · exact hx.2.2.2.2.2.2.1 h1
    simp [h1]
  · rfl

theorem strtol16_hex (hex : Str) (h : is_hex hex) (hv : hexnum hex < 2147483648) :
    strtol16 hex = (hexnum hex : Int) := by
  obtain ⟨hne, hall⟩ := h
  cases hex with
  | nil => exact absurd rfl hne
  | cons c cs =>
    have hc := hex_not_special c (hall c (List.mem_cons_self _ _))
    unfold strtol16
    have h1 : (c :: cs).dropWhile isspace = c :: cs := by
      rw [List.dropWhile_cons_of_neg (by simp [hc.2.2.1])]
    have h45 : (some c == some (Char.ofNat 45)) = false := by
      simpa using hc.2.2.2.1
    have h43 : (some c == some (Char.ofNat 43)) = false := by
      simpa using hc.2.2.2.2.1
    simp only [h1, List.head?_cons, h45, h43, Bool.or_self, Bool.false_eq_true, if_false]
    rw [skip0x_hex _ hall]
    have h2 : (c :: cs).takeWhile (fun c => (hexval c).isSome) = c :: cs := by
      rw [List.takeWhile_eq_self_iff]
      exact hall
    rw [h2]
    omega

theorem toWORD_small (n : Nat) (h : n < 65536) : toWORD (n : Int) = n := by
  unfold toWORD
  omega

/-! ### Lines read by fgets -/

theorem fgets_all_cons (size : Nat) (c : Char) (cs cur : Str) :
    fgets_all size (c :: cs) cur =
      if c == LF || size ≤ cur.length + 2 then (cur ++ [c]) :: fgets_all size cs []
      else fgets_all size cs (cur ++ [c]) := rfl

theorem fgets_all_line (size : Nat) (l cur : Str) (hl : ∀ c ∈ l, c ≠ LF)
    (hsize : cur.length + l.length + 2 ≤ size) :
    fgets_all size (l ++ [LF]) cur = [cur ++ l ++ [LF]] := by
  induction l generalizing cur with
  | nil => simp [fgets_all]
  | cons c cs ih =>
    have hc : c ≠ LF := hl c (List.mem_cons_self _ _)
    simp only [List.length_cons] at hsize
    rw [List.cons_append, fgets_all_cons]
    have h1 : (c == LF) = false := by simpa using hc
    have h2 : ¬ size ≤ cur.length + 2 := by omega
    simp only [h1, h2, Bool.false_or, decide_False, Bool.false_eq_true, if_false]
    rw [ih (cur ++ [c]) (fun x hx => hl x (List.mem_cons_of_mem _ hx))
      (by simp only [List.length_append, List.length_singleton]; omega)]
    simp

theorem fgets_all_append (size : Nat) (a b cur : Str) :
    fgets_all size (a ++ LF :: b) cur = fgets_all size (a ++ [LF]) cur ++ fgets_all size b [] := by
  induction a generalizing cur with
  | nil => simp [fgets_all]
  | cons c cs ih =>
    rw [List.cons_append, List.cons_append, fgets_all_cons, fgets_all_cons]
    split
    · rw [ih]; simp
    · rw [ih]

theorem fgets_all_after (size : Nat) (pre b : Str) (h : pre = [] ∨ pre.getLast? = some LF) :
    fgets_all size (pre ++ b) [] = fgets_all size pre [] ++ fgets_all size b [] := by
  rcases h with h | h
  · subst h; simp [fgets_all]
  · obtain ⟨a, rfl⟩ : ∃ a, pre = a ++ [LF] := by
      rcases List.eq_nil_or_concat pre with h1 | ⟨a, x, h1⟩
      · subst h1; simp at h
      · subst h1
        simp at h
        exact ⟨a, by rw [h]; simp⟩
    rw [List.append_assoc, List.singleton_append, fgets_all_append]



/-! ### Looking up a symbol -/

theorem search_from_append_found (symbol : Str) (d d2 : List dict_t) (i j : Nat)
    (h : search_from symbol i d = some j) : search_from symbol i (d ++ d2) = some j := by
  induction d generalizing i with
  | nil => simp [search_from] at h
  | cons e es ih =>
    rw [List.cons_append]
    unfold search_from at h ⊢
    split
    · rename_i h1; simpa [h1] using h
    · rename_i h1
      simp only [h1] at h
      exact ih (i + 1) (by simpa using h)

theorem search_from_append_miss (symbol : Str) (d d2 : List dict_t) (i : Nat)
    (h : search_from symbol i d = none) :
    search_from symbol i (d ++ d2) = search_from symbol (i + d.length) d2 := by
  induction d generalizing i with
  | nil => simp
  | cons e es ih =>
    rw [List.cons_append]
    unfold search_from at h
    split at h
    · simp at h
    · rename_i h1
      conv_lhs => unfold search_from
      simp only [h1]
      rw [ih (i + 1) h]
      simp only [List.length_cons]
      have : i + 1 + es.length = i + (es.length + 1) := by omega
      rw [this]
      rfl

theorem lookup_dict_define_other (d : List dict_t) (symbol other : Str) (v : Int)
    (hne : other ≠ symbol) :
    lookup (dict_define d other v) symbol = lookup d symbol := by
  unfold lookup dict_define
  cases ho : search_dict d other with
  | none =>
    simp only
    cases hs : search_dict d symbol with
    | none =>
      have : search_dict (d ++ [{ symbol := other, value := toWORD v }]) symbol = none := by
        unfold search_dict at hs ⊢
        rw [search_from_append_miss _ _ _ _ hs]
        simp [search_from, strcmp, hne]
      rw [this]
      rfl
    | some i =>
      have : search_dict (d ++ [{ symbol := other, value := toWORD v }]) symbol = some i :=
        search_from_append_found _ _ _ _ _ hs
      rw [this]
      obtain ⟨_, hlt, _⟩ := search_from_some symbol 0 i d hs
      simp only [Nat.sub_zero] at hlt
      simp [List.get?_eq_getElem?, List.getElem?_append_left hlt]
  | some j =>
    simp only
    have hsame : search_dict (set_value d j (toWORD v)) symbol = search_dict d symbol :=
      search_from_congr symbol 0 _ d (map_symbol_set_value d j (toWORD v))
    rw [hsame]
    cases hs : search_dict d symbol with
    | none => rfl
    | some i =>
      have hij : i ≠ j := by
        intro h
        subst h
        obtain ⟨_, _, h1⟩ := search_from_some symbol 0 i d hs
        obtain ⟨_, _, h2⟩ := search_from_some other 0 i d ho
        rw [h1] at h2
        simp only [Option.some.injEq] at h2
        exact hne h2.symm
      show Option.map (fun e => e.value) ((set_value d j (toWORD v)).get? i) = _
      rw [set_value_get?_other d j i _ hij]
      rfl

theorem lookup_res_line (d : List dict_t) (raw symbol : Str)
    (h : token (strz raw) 2 ≠ some symbol) :
    lookup (res_line d raw) symbol = lookup d symbol := by
  unfold res_line
  simp only
  split
  · rfl
  · split
    · rfl
    · rename_i sym hsym
      split
      · rfl
      · split
        · apply lookup_dict_define_other
          intro h2
          subst h2
          exact h hsym
        · rfl

theorem lookup_foldl_res_line (lines : List Str) (d : List dict_t) (symbol : Str)
    (h : ∀ l ∈ lines, token (strz l) 2 ≠ some symbol) :
    lookup (lines.foldl res_line d) symbol = lookup d symbol := by
  induction lines generalizing d with
  | nil => rfl
  | cons l ls ih =>
    simp only [List.foldl_cons]
    rw [ih _ (fun x hx => h x (List.mem_cons_of_mem _ hx)),
      lookup_res_line d l symbol (h l (List.mem_cons_self _ _))]



/-! ### A resource line and its export -/

theorem equ_line_eq (hex name : Str) :
    hex ++ " equ ".toList ++ name ++ [LF] =
      join_tokens [(hex, Char.ofNat 32), ("equ".toList, Char.ofNat 32), (name, LF)] := by
  simp [join_tokens]

theorem export_line_eq (name : Str) :
    "\\res export ".toList ++ name ++ [CR] =
      join_tokens [("\\res".toList, Char.ofNat 32), ("export".toList, Char.ofNat 32),
        (name, CR)] := by
  simp [join_tokens]

theorem isDelim_space : isDelim (Char.ofNat 32) = true := by decide

theorem isDelim_LF : isDelim LF = true := by decide

theorem isDelim_CR : isDelim CR = true := by decide

theorem is_token_equ : is_token "equ".toList := by
  refine ⟨by decide, ?_⟩
  decide

theorem is_token_res : is_token "\\res".toList := by
  refine ⟨by decide, ?_⟩
  decide

theorem is_token_export : is_token "export".toList := by
  refine ⟨by decide, ?_⟩
  decide

theorem res_line_equ (d : List dict_t) (hex name : Str) (hhex : is_hex hex)
    (hname : is_token name) (hv : hexnum hex < 65536) :
    res_line d (hex ++ " equ ".toList ++ name ++ [LF]) = dict_define d name (hexnum hex) := by
  have hpairs : ∀ p ∈ [(hex, Char.ofNat 32), ("equ".toList, Char.ofNat 32), (name, LF)],
      is_token p.1 ∧ isDelim p.2 = true := by
    intro p hp
    simp only [List.mem_cons, List.mem_singleton, List.not_mem_nil, or_false] at hp
    rcases hp with hp | hp | hp <;> subst hp
    · exact ⟨is_token_of_is_hex hex hhex, isDelim_space⟩
    · exact ⟨is_token_equ, isDelim_space⟩
    · exact ⟨hname, isDelim_LF⟩
  have hhead : ((hex ++ " equ ".toList ++ name ++ [LF]).head? == some BSL) = false := by
    obtain ⟨hne, hall⟩ := hhex
    cases hex with
    | nil => exact absurd rfl hne
    | cons c cs =>
      have := (hex_not_special c (hall c (List.mem_cons_self _ _))).2.2.2.2.2.2.2
      simpa using this
  unfold res_line
  rw [equ_line_eq] at hhead ⊢
  rw [strz_of_no_nul _ (join_tokens_no_nul _ hpairs)]
  simp only [hhead, Bool.false_eq_true, if_false, token_join _ hpairs]
  simp only [List.get?_cons_succ, List.get?_cons_zero, Option.map_some', Option.getD_some]
  rw [strtol16_hex hex hhex (by omega)]
  rfl

theorem load_cpu_res_equ (env : Env) (w : World) (filespec : Str) (pre post : List Char)
    (hex name : Str) (hhex : is_hex hex) (hname : is_token name) (hv : hexnum hex < 65536)
    (hline : hex.length + name.length + 6 < 128)
    (hpre : pre = [] ∨ pre.getLast? = some LF)
    (hpost : ∀ l ∈ fgets_all 128 post [], token (strz l) 2 ≠ some name)
    (hfile : env.fopen filespec =
      some (pre ++ (hex ++ " equ ".toList ++ name ++ [LF]) ++ post)) :
    lookup (load_cpu_res env filespec w).2.dict name = some (hexnum hex) := by
  unfold load_cpu_res
  simp only [hfile]
  have hnolf : ∀ c ∈ hex ++ " equ ".toList ++ name, c ≠ LF := by
    intro c hc h
    subst h
    simp only [List.mem_append] at hc
    rcases hc with (hc | hc) | hc
    · have := (hex_not_special _ (hhex.2 _ hc)).1
      revert this; decide
    · revert hc; decide
    · have := (hname.2 _ hc).1
      revert this; decide
  have hfg := fgets_all_line 128 (hex ++ " equ ".toList ++ name) [] hnolf (by
    simp only [List.length_append, List.length_nil]
    have : " equ ".toList.length = 5 := by decide
    omega)
  have hsplit : fgets_all 128 (pre ++ (hex ++ " equ ".toList ++ name ++ [LF]) ++ post) [] =
      fgets_all 128 pre [] ++ [hex ++ " equ ".toList ++ name ++ [LF]] ++
        fgets_all 128 post [] := by
    rw [fgets_all_after 128 (pre ++ (hex ++ " equ ".toList ++ name ++ [LF])) post
      (Or.inr (by
        rw [← List.append_assoc, List.getLast?_append]
        rfl)), fgets_all_after 128 pre _ hpre, hfg]
    simp
  rw [hsplit, List.foldl_append, List.foldl_append]
  simp only [List.foldl_cons, List.foldl_nil]
  rw [lookup_foldl_res_line _ _ _ hpost, res_line_equ _ hex name hhex hname hv,
    lookup_dict_define_same, toWORD_small _ hv]

theorem tokens_from_export (name : Str) (hname : is_token name) :
    tokens_from ("\\res export ".toList ++ name ++ [CR])
      ("\\res export ".toList ++ name ++ [CR]).length 2 = [name] := by
  have hpairs : ∀ p ∈ [("\\res".toList, Char.ofNat 32), ("export".toList, Char.ofNat 32),
      (name, CR)], is_token p.1 ∧ isDelim p.2 = true := by
    intro p hp
    simp only [List.mem_cons, List.mem_singleton, List.not_mem_nil, or_false] at hp
    rcases hp with hp | hp | hp <;> subst hp
    · exact ⟨is_token_res, isDelim_space⟩
    · exact ⟨is_token_export, isDelim_space⟩
    · exact ⟨hname, isDelim_CR⟩
  have hlen : ∃ k, ("\\res export ".toList ++ name ++ [CR]).length = k + 2 := by
    refine ⟨"\\res export ".toList.length + name.length - 1, ?_⟩
    simp only [List.length_append, List.length_singleton]
    have : "\\res export ".toList.length = 12 := by decide
    omega
  obtain ⟨k, hk⟩ := hlen
  have h2 : token ("\\res export ".toList ++ name ++ [CR]) 2 = some name := by
    rw [export_line_eq, token_join _ hpairs]
    rfl
  have h3 : token ("\\res export ".toList ++ name ++ [CR]) 3 = none := by
    rw [export_line_eq, token_join _ hpairs]
    rfl
  rw [hk]
  simp only [tokens_from, h2, h3]

theorem handle_res_export (env : Env) (name : Str) (hname : is_token name) (w : World) :
    handle_res env ("\\res export ".toList ++ name ++ [CR]) w =
      .ok (export_loop env [name] w) := by
  have hpairs : ∀ p ∈ [("\\res".toList, Char.ofNat 32), ("export".toList, Char.ofNat 32),
      (name, CR)], is_token p.1 ∧ isDelim p.2 = true := by
    intro p hp
    simp only [List.mem_cons, List.mem_singleton, List.not_mem_nil, or_false] at hp
    rcases hp with hp | hp | hp <;> subst hp
    · exact ⟨is_token_res, isDelim_space⟩
    · exact ⟨is_token_export, isDelim_space⟩
    · exact ⟨hname, isDelim_CR⟩
  unfold handle_res
  rw [tokens_from_export name hname]
  have h1 : token ("\\res export ".toList ++ name ++ [CR]) 1 = some "export".toList := by
    rw [export_line_eq, token_join _ hpairs]
    rfl
  rw [h1]
  have e1 : strcasecmp "export".toList "MCU:".toList = false := by decide
  have e2 : strcasecmp "export".toList "export".toList = true := by decide
  simp only [e1, e2, Bool.false_eq_true, if_false, if_true]

theorem export_loop_single (env : Env) (name : Str) (w : World) (v : Nat)
    (hl : lookup w.dict name = some v)
    (hbel : strchr (check_reply env (probe_cmd name) w) BEL = true) :
    (export_loop env [name] w).2.sent = w.sent ++ [probe_cmd name, constant_cmd v name] := by
  have hp : (forth_check env (probe_cmd name) w).1 = false := by
    rw [forth_check_result, hbel]; rfl
  have hd : (forth_check env (probe_cmd name) w).2.dict = w.dict := forth_check_dict _ _ _
  unfold lookup at hl
  cases hs : search_dict w.dict name with
  | none => rw [hs] at hl; simp at hl
  | some i =>
    rw [hs] at hl
    have hv : ((w.dict.get? i).map (fun e => e.value)).getD 0 = v := by
      have hl2 : (w.dict.get? i).map (fun e => e.value) = some v := hl
      rw [hl2]; rfl
    unfold export_loop
    simp only [hs, hp, Bool.not_false, if_true, hd, hv]
    have hc : [Char.ofNat 36] ++ fmtX v ++ " CONSTANT ".toList ++ name ++ [CR] =
        constant_cmd v name := rfl
    rw [hc]
    split
    · rw [forth_check_sent, forth_check_sent]; simp
    · simp only [export_loop]
      rw [forth_check_sent, forth_check_sent]; simp

theorem load_cpu_res_sent (env : Env) (filespec : Str) (w : World) :
    (load_cpu_res env filespec w).2.sent = w.sent := by
  unfold load_cpu_res
  split <;> rfl

/-- C5: resource round trip. After `load_cpu_res` has read a file with the line
`<hex> equ <name>` (and no later line for the same name), a `\\res export <name>`
whose probe is answered with BEL sends the probe and then `$<HEX> CONSTANT <name>`
with CR, where `<HEX>` read as a hexadecimal number is the value of `<hex>`. -/
theorem resource_round_trip (env : Env) (w : World) (filespec : Str) (pre post : List Char)
    (hex name : Str) (hhex : is_hex hex) (hv : hexnum hex < 65536)
    (hname : is_token name) (_hlen : name.length < SYMBOL_SIZE)
    (hline : hex.length + name.length + 6 < 128)
    (hpre : pre = [] ∨ pre.getLast? = some LF)
    (hpost : ∀ l ∈ fgets_all 128 post [], token (strz l) 2 ≠ some name)
    (hfile : env.fopen filespec =
      some (pre ++ (hex ++ " equ ".toList ++ name ++ [LF]) ++ post))
    (hbel : strchr (check_reply env (probe_cmd name) (load_cpu_res env filespec w).2) BEL
      = true) :
    sent_of (handle_res env ("\\res export ".toList ++ name ++ [CR])
        (load_cpu_res env filespec w).2) =
      some (w.sent ++ [probe_cmd name, constant_cmd (hexnum hex) name]) ∧
    constant_cmd (hexnum hex) name =
      [Char.ofNat 36] ++ fmtX (hexnum hex) ++ " CONSTANT ".toList ++ name ++ [CR] ∧
    hexnum (fmtX (hexnum hex)) = hexnum hex := by
  refine ⟨?_, rfl, hexnum_fmtX _⟩
  rw [handle_res_export env name hname]
  have hload := load_cpu_res_equ env w filespec pre post hex name hhex hname hv hline hpre
    hpost hfile
  have := export_loop_single env name (load_cpu_res env filespec w).2 (hexnum hex) hload hbel
  simp only [sent_of]
  rw [this, load_cpu_res_sent]

theorem resource_round_trip_witness :
    sent_of (handle_res
        (demo_env [("STM8S103.efr", "\\ config\n7F60 equ CFG_GCR\n7F70 equ ITC_SPR1\n")])
        "\\res export CFG_GCR\r".toList
        (load_cpu_res
          (demo_env [("STM8S103.efr", "\\ config\n7F60 equ CFG_GCR\n7F70 equ ITC_SPR1\n")])
          "STM8S103.efr".toList (demo_world ["CFG_GCR ?\x07\n", " ok\n"])).2) =
      some ["' CFG_GCR DROP\r".toList, "$7F60 CONSTANT CFG_GCR\r".toList] :=
  (resource_round_trip
    (demo_env [("STM8S103.efr", "\\ config\n7F60 equ CFG_GCR\n7F70 equ ITC_SPR1\n")])
    (demo_world ["CFG_GCR ?\x07\n", " ok\n"]) "STM8S103.efr".toList "\\ config\n".toList
    "7F70 equ ITC_SPR1\n".toList "7F60".toList "CFG_GCR".toList ⟨by decide, by decide⟩
    (by decide) ⟨by decide, by decide⟩ (by decide) (by decide) (Or.inr (by decide))
    (by decide) (by decide) (by decide)).1



/-! ### The inline definition `\res <hex> equ <name>` -/

theorem spansFrom_join (pairs : List (Str × Char))
    (h : ∀ p ∈ pairs, is_token p.1 ∧ isDelim p.2 = true) (j : Nat) :
    spansFrom isDelim j none (join_tokens pairs) = join_spans j pairs := by
  induction pairs generalizing j with
  | nil => rfl
  | cons p ps ih =>
    obtain ⟨ht, hd⟩ := h p (List.mem_cons_self _ _)
    simp only [join_tokens, join_spans]
    rw [spansFrom_token isDelim p.1 ht.1 (fun c hc => (ht.2 c hc).1) p.2 hd,
      ih (fun q hq => h q (List.mem_cons_of_mem _ hq))]

theorem tolower_eq_m (c : Char) (h : tolower c = Char.ofNat 109) :
    c = Char.ofNat 109 ∨ c = Char.ofNat 77 := by
  by_cases hu : 65 ≤ c.toNat ∧ c.toNat ≤ 90
  · rw [tolower_of_upper c hu] at h
    have hc : c = Char.ofNat c.toNat := (Char.ofNat_toNat c).symm
    obtain ⟨h1, h2⟩ := hu
    generalize c.toNat = n at *
    subst hc
    interval_cases n <;> revert h <;> decide
  · rw [tolower_of_not_upper c hu] at h
    exact Or.inl h

theorem tolower_eq_x (c : Char) (h : tolower c = Char.ofNat 120) :
    c = Char.ofNat 120 ∨ c = Char.ofNat 88 := by
  by_cases hu : 65 ≤ c.toNat ∧ c.toNat ≤ 90
  · rw [tolower_of_upper c hu] at h
    have hc : c = Char.ofNat c.toNat := (Char.ofNat_toNat c).symm
    obtain ⟨h1, h2⟩ := hu
    generalize c.toNat = n at *
    subst hc
    interval_cases n <;> revert h <;> decide
  · rw [tolower_of_not_upper c hu] at h
    exact Or.inl h

theorem hex_not_keyword (hex : Str) (hhex : is_hex hex) :
    strcasecmp hex "MCU:".toList = false ∧ strcasecmp hex "export".toList = false := by
  constructor
  · cases hc : strcasecmp hex "MCU:".toList with
    | false => rfl
    | true =>
      exfalso
      simp only [strcasecmp, beq_iff_eq] at hc
      cases hex with
      | nil => exact hhex.1 rfl
      | cons c cs =>
        have h1 : tolower c = Char.ofNat 109 := by
          have := congrArg List.head? hc
          simpa using this
        have hv := hhex.2 c (List.mem_cons_self _ _)
        rcases tolower_eq_m c h1 with h2 | h2 <;> (subst h2; revert hv; decide)
  · cases hc : strcasecmp hex "export".toList with
    | false => rfl
    | true =>
      exfalso
      simp only [strcasecmp, beq_iff_eq] at hc
      match hex, hhex, hc with
      | [], hhex, _ => exact hhex.1 rfl
      | [_], _, hc => simp at hc
      | _ :: c :: cs, hhex, hc =>
        have h1 : tolower c = Char.ofNat 120 := by
          have := congrArg (fun l => l.get? 1) hc
          simpa using this
        have hv := hhex.2 c (by simp)
        rcases tolower_eq_x c h1 with h2 | h2 <;> (subst h2; revert hv; decide)

theorem inline_line_eq (hex name : Str) :
    "\\res ".toList ++ hex ++ " equ ".toList ++ name ++ [CR] =
      join_tokens [("\\res".toList, Char.ofNat 32), (hex, Char.ofNat 32),
        ("equ".toList, Char.ofNat 32), (name, CR)] := by
  simp [join_tokens]

/-- The inline definition stores the name together with the CR that ends the
line: `handle_res` on `\res <hex> equ <name>` defines the symbol `<name>` followed
by CR. -/
theorem handle_res_equ (env : Env) (w : World) (hex name : Str) (hhex : is_hex hex)
    (hv : hexnum hex < 2147483648) (hname : is_token name) :
    handle_res env ("\\res ".toList ++ hex ++ " equ ".toList ++ name ++ [CR]) w =
      .ok (true, { w with dict := dict_define w.dict (name ++ [CR]) (hexnum hex) }) := by
  have hpairs : ∀ p ∈ [("\\res".toList, Char.ofNat 32), (hex, Char.ofNat 32),
      ("equ".toList, Char.ofNat 32), (name, CR)], is_token p.1 ∧ isDelim p.2 = true := by
    intro p hp
    simp only [List.mem_cons, List.mem_singleton, List.not_mem_nil, or_false] at hp
    rcases hp with hp | hp | hp | hp <;> subst hp
    · exact ⟨is_token_res, isDelim_space⟩
    · exact ⟨is_token_of_is_hex hex hhex, isDelim_space⟩
    · exact ⟨is_token_equ, isDelim_space⟩
    · exact ⟨hname, isDelim_CR⟩
  have hnn := join_tokens_no_nul _ hpairs
  have h1 : token ("\\res ".toList ++ hex ++ " equ ".toList ++ name ++ [CR]) 1 = some hex := by
    rw [inline_line_eq, token_join _ hpairs]; rfl
  have h2 : token ("\\res ".toList ++ hex ++ " equ ".toList ++ name ++ [CR]) 2 =
      some "equ".toList := by
    rw [inline_line_eq, token_join _ hpairs]; rfl
  have hsp : spans isDelim (strz ("\\res ".toList ++ hex ++ " equ ".toList ++ name ++ [CR])) =
      [(0, 4), (5, 5 + hex.length), (5 + hex.length + 1, 5 + hex.length + 1 + 3),
       (5 + hex.length + 1 + 3 + 1, 5 + hex.length + 1 + 3 + 1 + name.length)] := by
    rw [inline_line_eq, strz_of_no_nul _ hnn]
    unfold spans
    rw [spansFrom_join _ hpairs]
    rfl
  have h3 : (gettoken ("\\res ".toList ++ hex ++ " equ ".toList ++ name ++ [CR]) 3).map
      (strAt (gettoken_buf ("\\res ".toList ++ hex ++ " equ ".toList ++ name ++ [CR]) 1)) =
      some (name ++ [CR]) := by
    unfold gettoken gettoken_buf
    rw [hsp]
    simp only [List.get?_cons_succ, List.get?_cons_zero, Option.map_some', Option.some.injEq]
    unfold strAt
    rw [foldl_set_drop _ _ _ (by
      intro p hp
      simp only [List.take, List.mem_cons, List.mem_singleton, List.not_mem_nil,
        or_false] at hp
      rcases hp with hp | hp <;> subst hp <;> simp only <;> omega)]
    rw [inline_line_eq, strz_of_no_nul _ hnn]
    have hdrop : (join_tokens [("\\res".toList, Char.ofNat 32), (hex, Char.ofNat 32),
        ("equ".toList, Char.ofNat 32), (name, CR)]).drop (5 + hex.length + 1 + 3 + 1) =
        name ++ [CR] := by
      have e : join_tokens [("\\res".toList, Char.ofNat 32), (hex, Char.ofNat 32),
          ("equ".toList, Char.ofNat 32), (name, CR)] =
          ("\\res ".toList ++ hex ++ " equ ".toList) ++ (name ++ [CR]) := by
        simp [join_tokens]
      rw [e]
      apply List.drop_left'
      simp only [List.length_append]
      have a1 : "\\res ".toList.length = 5 := by decide
      have a2 : " equ ".toList.length = 5 := by decide
      omega
    rw [hdrop]
    apply strz_of_no_nul
    intro c hc
    rcases List.mem_append.1 hc with hc | hc
    · exact (hname.2 c hc).2
    · simp only [List.mem_singleton] at hc
      subst hc; decide
  obtain ⟨k1, k2⟩ := hex_not_keyword hex hhex
  have e3 : strcasecmp "equ".toList "equ".toList = true := by decide
  unfold handle_res
  simp only [h1, h2, k1, k2, e3, Bool.false_eq_true, if_false, if_true, h3]
  rw [strtol16_hex hex hhex hv]



/-- C1: evaluation of `include_file` on a file with an ordinary line that the
target answers with BEL. The upload stops behind that line, but the result is
TRUE, not FALSE; and when the file was included by another one, the including
file is streamed on. -/
theorem include_file_bel_returns_true :
    result_of (include_file (demo_env [("a.fs", "1 2 +\nfoo\n3 4 +\n")]) 1 "a.fs".toList false
      (demo_world ["1 2 + ok\n", "foo ?\x07\n", "3 4 + ok\n"])) = some true ∧
    sent_of (include_file (demo_env [("a.fs", "1 2 +\nfoo\n3 4 +\n")]) 1 "a.fs".toList false
      (demo_world ["1 2 + ok\n", "foo ?\x07\n", "3 4 + ok\n"])) =
        some ["1 2 +\r".toList, "foo\r".toList] ∧
    result_of (include_file (demo_env [("a.fs", "#include b.fs\n3 4 +\n"), ("b.fs", "foo\n")]) 2
      "a.fs".toList false (demo_world ["foo ?\x07\n", "3 4 + ok\n"])) = some true ∧
    sent_of (include_file (demo_env [("a.fs", "#include b.fs\n3 4 +\n"), ("b.fs", "foo\n")]) 2
      "a.fs".toList false (demo_world ["foo ?\x07\n", "3 4 + ok\n"])) =
        some ["#include b.fs\r".toList, "foo\r".toList, "3 4 +\r".toList] := by
  refine ⟨?_, ?_, ?_, ?_⟩ <;> decide

/-- C4: evaluation of `handle_res` on the line `\res 7F60 equ CFG_GCR`. The entry
stored has a symbol that ends with the CR of the line, `search_dict` does not find
`CFG_GCR`, and a later `\res export CFG_GCR` fails without writing anything. -/
theorem handle_res_equ_keeps_cr :
    dict_of (handle_res (demo_env []) "\\res 7F60 equ CFG_GCR\r".toList (demo_world [])) =
      some [{ symbol := "CFG_GCR\r".toList, value := 0x7F60 }] ∧
    search_dict [{ symbol := "CFG_GCR\r".toList, value := 0x7F60 }] "CFG_GCR".toList = none ∧
    result_of (include_file
      (demo_env [("a.fs", "\\res 7F60 equ CFG_GCR\n\\res export CFG_GCR\n")]) 1
      "a.fs".toList false (demo_world [])) = some false ∧
    sent_of (include_file
      (demo_env [("a.fs", "\\res 7F60 equ CFG_GCR\n\\res export CFG_GCR\n")]) 1
      "a.fs".toList false (demo_world [])) = some [] := by
  refine ⟨?_, ?_, ?_, ?_⟩ <;> decide

/-! ### The loop of include_file: entry, stop line, resource directive -/

theorem include_file_streams (env : Env) (fuel : Nat) (filename : Str) (conditional : Bool)
    (w : World) (content : List Char)
    (hopen : (search_file env filename).bind env.fopen = some content)
    (hprobe : conditional = true →
      (forth_check env (probe_cmd (probe_word filename)) w).1 = false) :
    include_file env (fuel + 1) filename conditional w =
      stream_result env fuel (fgets_all 256 content [])
        (start_world env filename conditional w) := by
  unfold include_file stream_result start_world
  simp only [hopen]
  cases conditional with
  | false =>
    simp only [Bool.false_eq_true, if_false]
  | true =>
    have hp := hprobe rfl
    simp only [if_true, hp, Bool.false_eq_true, if_false]

theorem include_file_closed (env : Env) (fuel : Nat) (filename : Str) (conditional : Bool)
    (w : World) (h : (search_file env filename).bind env.fopen = none) :
    include_file env (fuel + 1) filename conditional w = .ok (false, w) := by
  unfold include_file
  simp only [h]

/-- C13: when `search_file` finds no candidate, or `fopen` fails on the path it
found, `include_file` returns failure in the world it was called in: nothing is
written to the device, and with `conditional` TRUE no probe is sent. -/
theorem include_file_not_found (env : Env) (fuel : Nat) (filename : Str)
    (conditional : Bool) (w : World) :
    (search_file env filename = none →
      include_file env (fuel + 1) filename conditional w = .ok (false, w)) ∧
    (∀ p, search_file env filename = some p → env.fopen p = none →
      include_file env (fuel + 1) filename conditional w = .ok (false, w)) := by
  constructor
  · intro h
    exact include_file_closed env fuel filename conditional w (by rw [h]; rfl)
  · intro p h1 h2
    exact include_file_closed env fuel filename conditional w (by rw [h1]; exact h2)

theorem include_file_not_found_witness :
    search_file (demo_env [("a.fs", "1 2 +\n")]) "b.fs".toList = none ∧
    include_file (demo_env [("a.fs", "1 2 +\n")]) 1 "b.fs".toList true (demo_world []) =
      .ok (false, demo_world []) ∧
    search_file { demo_env [] with fileExists := fun _ => true } "b.fs".toList =
      some "b.fs".toList ∧
    include_file { demo_env [] with fileExists := fun _ => true } 1 "b.fs".toList true
      (demo_world []) = .ok (false, demo_world []) :=
  ⟨by decide,
   (include_file_not_found (demo_env [("a.fs", "1 2 +\n")]) 0 "b.fs".toList true
      (demo_world [])).1 (by decide),
   by decide,
   (include_file_not_found { demo_env [] with fileExists := fun _ => true } 0 "b.fs".toList
      true (demo_world [])).2 "b.fs".toList (by decide) (by decide)⟩

theorem do_line_stop (env : Env) (incl : Str → Bool → World → Except Fault (Bool × World))
    (raw : Str) (s : Loop) (h : stop_line raw = true) :
    do_line env incl raw s = .ok (.brk s) := by
  simp only [stop_line, Bool.and_eq_true, decide_eq_true_eq] at h
  unfold do_line
  simp only [Nat.not_le.mpr h.1, if_false, h.2, if_true]

theorem stream_stop (env : Env) (incl : Str → Bool → World → Except Fault (Bool × World))
    (pre : List Str) (raw : Str) (rest : List Str) (s : Loop) (h : stop_line raw = true) :
    stream env incl (pre ++ raw :: rest) s = stream env incl pre s := by
  induction pre generalizing s with
  | nil =>
    rw [List.nil_append, stream_cons, do_line_stop env incl raw s h]
    rfl
  | cons l ls ih =>
    rw [List.cons_append, stream_cons, stream_cons]
    cases hd : do_line env incl l s with
    | error f => rfl
    | ok nx =>
      cases nx with
      | brk s1 => rfl
      | cont s1 => exact ih s1

theorem do_line_cont_result (env : Env)
    (incl : Str → Bool → World → Except Fault (Bool × World))
    (raw : Str) (s s1 : Loop) (h : do_line env incl raw s = .ok (.cont s1))
    (hs : s.result = true) : s1.result = true := by
  unfold do_line at h
  split at h
  · simp only [Except.ok.injEq, Next.cont.injEq] at h; rw [← h]; exact hs
  · simp only at h
    split at h
    · simp at h
    · split at h
      · split at h
        · simp at h
        · split at h
          · simp at h
          · rename_i hr
            simp only [Except.ok.injEq, Next.cont.injEq] at h
            rw [← h]
            simpa using hr
      · split at h
        · simp only [Except.ok.injEq, Next.cont.injEq] at h; rw [← h]; exact hs
        · split at h
          · split at h
            · split at h
              · simp at h
              · split at h
                · simp at h
                · rename_i hr
                  simp only [Except.ok.injEq, Next.cont.injEq] at h
                  rw [← h]
                  simpa using hr
            · simp only [Except.ok.injEq, Next.cont.injEq] at h; rw [← h]; exact hs
          · split at h
            · split at h
              · simp at h
              · simp only [Except.ok.injEq, Next.cont.injEq] at h; rw [← h]; exact hs
            · simp only [Except.ok.injEq, Next.cont.injEq] at h; rw [← h]; exact hs

theorem passes_result (env : Env) (incl : Str → Bool → World → Except Fault (Bool × World))
    (lines : List Str) (s s1 : Loop) (h : passes env incl lines s = some s1)
    (hs : s.result = true) : s1.result = true := by
  induction lines generalizing s with
  | nil =>
    simp only [passes, Option.some.injEq] at h
    rw [← h]; exact hs
  | cons l ls ih =>
    unfold passes at h
    split at h
    · rename_i s2 hd
      exact ih s2 h (do_line_cont_result env incl l s s2 hd hs)
    · simp at h

theorem stream_of_passes (env : Env)
    (incl : Str → Bool → World → Except Fault (Bool × World))
    (lines : List Str) (s s1 : Loop) (h : passes env incl lines s = some s1) :
    stream env incl lines s = .ok s1 := by
  have := stream_append env incl lines [] s s1 h
  simpa [stream] using this

/-- C12: a line that starts with two backslashes ends the loop of `include_file`
as the end of the file does: the run over the file equals the run over the lines
in front of that line (so it equals the inclusion of a file that holds just the
text in front of the line), nothing at or behind the line is sent or interpreted,
and when the lines in front of it all pass, the result is success. -/
theorem double_backslash_stop (env : Env) (fuel : Nat) (filename : Str) (conditional : Bool)
    (w : World) (c_pre c_rest : List Char) (raw : Str) (rest : List Str)
    (hopen : (search_file env filename).bind env.fopen = some (c_pre ++ c_rest))
    (hprobe : conditional = true →
      (forth_check env (probe_cmd (probe_word filename)) w).1 = false)
    (hcut : c_pre = [] ∨ c_pre.getLast? = some LF)
    (hrest : fgets_all 256 c_rest [] = raw :: rest)
    (hstop : stop_line raw = true) :
    (∀ incl pre s, stream env incl (pre ++ raw :: rest) s = stream env incl pre s) ∧
    include_file env (fuel + 1) filename conditional w =
      stream_result env fuel (fgets_all 256 c_pre [])
        (start_world env filename conditional w) ∧
    (∀ f2, (search_file env f2).bind env.fopen = some c_pre → conditional = false →
      include_file env (fuel + 1) filename conditional w =
        include_file env (fuel + 1) f2 false w) ∧
    (∀ s1, passes env (include_file env fuel) (fgets_all 256 c_pre [])
        { margin := 85, result := true, w := start_world env filename conditional w } =
          some s1 →
      include_file env (fuel + 1) filename conditional w = .ok (true, s1.w)) := by
  have hmain : include_file env (fuel + 1) filename conditional w =
      stream_result env fuel (fgets_all 256 c_pre [])
        (start_world env filename conditional w) := by
    rw [include_file_streams env fuel filename conditional w _ hopen hprobe,
      fgets_all_after 256 c_pre c_rest hcut, hrest]
    unfold stream_result
    rw [stream_stop env _ _ raw rest _ hstop]
  refine ⟨fun incl pre s => stream_stop env incl pre raw rest s hstop, hmain, ?_, ?_⟩
  · intro f2 h2 hc
    subst hc
    rw [hmain, include_file_streams env fuel f2 false w c_pre h2 (by simp)]
    rfl
  · intro s1 hp
    rw [hmain]
    unfold stream_result
    rw [stream_of_passes env _ _ _ s1 hp]
    show Except.ok (s1.result, s1.w) = _
    rw [passes_result env _ _ _ s1 hp rfl]

theorem double_backslash_stop_witness :
    include_file (demo_env [("a.fs", "1 2 +\n\\\\ rest is not for upload\n3 4 +\n")]) 1
        "a.fs".toList false (demo_world ["1 2 + ok\n"]) =
      .ok (true, { sent := ["1 2 +\r".toList], reads := (demo_world ["1 2 + ok\n"]).reads,
                   nread := 1, dict := [] }) :=
  (double_backslash_stop (demo_env [("a.fs", "1 2 +\n\\\\ rest is not for upload\n3 4 +\n")]) 0
    "a.fs".toList false (demo_world ["1 2 + ok\n"]) "1 2 +\n".toList
    "\\\\ rest is not for upload\n3 4 +\n".toList "\\\\ rest is not for upload\n".toList
    ["3 4 +\n".toList] (by decide) (by decide) (Or.inr (by decide)) (by decide)
    (by decide)).2.2.2
    { margin := 85, result := true,
      w := { sent := ["1 2 +\r".toList], reads := (demo_world ["1 2 + ok\n"]).reads,
             nread := 1, dict := [] } } rfl

/-! ### Resource directives in the loop -/

theorem res_not_stop (line : Str) (h : startsWith line "\\res".toList = true) :
    startsWith line [BSL, BSL] = false ∧ line.head? = some BSL := by
  match line, h with
  | [], h => simp [startsWith, List.isPrefixOf] at h
  | [_], h => simp [startsWith, List.isPrefixOf] at h
  | a :: b :: t, h =>
    simp only [startsWith, String.toList, List.isPrefixOf, Bool.and_eq_true,
      beq_iff_eq] at h
    obtain ⟨h1, h2, _⟩ := h
    subst h1 h2
    refine ⟨?_, rfl⟩
    have hne : (BSL == Char.ofNat 114) = false := by decide
    simp [startsWith, List.isPrefixOf, hne]

theorem do_line_res (env : Env) (incl : Str → Bool → World → Except Fault (Bool × World))
    (raw : Str) (s : Loop) (h : res_directive raw = true) :
    do_line env incl raw s =
      match handle_res env (normalize (strz raw)) s.w with
      | .error f => .error f
      | .ok r =>
        if !r.1 then .ok (.brk { s with result := r.1, w := r.2 })
        else .ok (.cont { s with result := r.1, w := r.2 }) := by
  simp only [res_directive, Bool.and_eq_true, decide_eq_true_eq] at h
  unfold do_line
  simp only [Nat.not_le.mpr h.1, if_false, (res_not_stop _ h.2).1, h.2, if_true,
    Bool.false_eq_true]

theorem probe_cmd_head (symbol : Str) : (probe_cmd symbol).head? = some (Char.ofNat 39) := rfl

theorem constant_cmd_head (v : Nat) (symbol : Str) :
    (constant_cmd v symbol).head? = some (Char.ofNat 36) := rfl

theorem search_dict_value (d : List dict_t) (symbol : Str) (i : Nat)
    (h : search_dict d symbol = some i) :
    lookup d symbol = some (((d.get? i).map (fun e => e.value)).getD 0) := by
  obtain ⟨_, hlt, _⟩ := search_from_some symbol 0 i d h
  simp only [Nat.sub_zero] at hlt
  unfold lookup
  rw [h]
  show (d.get? i).map (fun e => e.value) = _
  rw [List.get?_eq_get hlt]
  rfl

theorem lookup_search (d : List dict_t) (symbol : Str) (v : Nat)
    (h : lookup d symbol = some v) :
    ∃ i, search_dict d symbol = some i ∧ ((d.get? i).map (fun e => e.value)).getD 0 = v := by
  unfold lookup at h
  cases hs : search_dict d symbol with
  | none => rw [hs] at h; simp at h
  | some i =>
    rw [hs] at h
    have h2 : (d.get? i).map (fun e => e.value) = some v := h
    exact ⟨i, rfl, by rw [h2]; rfl⟩

theorem export_loop_nil (env : Env) (w : World) : export_loop env [] w = (true, w) := rfl

theorem export_loop_absent (env : Env) (symbol : Str) (rest : List Str) (w : World)
    (h : search_dict w.dict symbol = none) :
    export_loop env (symbol :: rest) w = (false, w) := by
  unfold export_loop
  simp only [h]

theorem export_loop_present (env : Env) (symbol : Str) (rest : List Str) (w : World)
    (v : Nat) (h : lookup w.dict symbol = some v) :
    export_loop env (symbol :: rest) w =
      if (forth_check env (probe_cmd symbol) w).1 then
        export_loop env rest (forth_check env (probe_cmd symbol) w).2
      else if (forth_check env (constant_cmd v symbol)
          (forth_check env (probe_cmd symbol) w).2).1 then
        export_loop env rest
          (forth_check env (constant_cmd v symbol) (forth_check env (probe_cmd symbol) w).2).2
      else
        (false,
          (forth_check env (constant_cmd v symbol)
            (forth_check env (probe_cmd symbol) w).2).2) := by
  obtain ⟨i, hs, hv⟩ := lookup_search _ _ _ h
  have hc : [Char.ofNat 36] ++ fmtX v ++ " CONSTANT ".toList ++ symbol ++ [CR] =
      constant_cmd v symbol := rfl
  conv_lhs => unfold export_loop
  simp only [hs, forth_check_dict, hv, hc]
  cases (forth_check env (probe_cmd symbol) w).1 with
  | true => simp
  | false =>
    simp only [Bool.not_false, if_true, Bool.false_eq_true, if_false]
    cases (forth_check env (constant_cmd v symbol)
      (forth_check env (probe_cmd symbol) w).2).1 <;> simp

theorem export_loop_sent (env : Env) (syms : List Str) (w : World) :
    ∃ extra, (export_loop env syms w).2.sent = w.sent ++ extra ∧
      ∀ x ∈ extra, x.head? = some (Char.ofNat 39) ∨ x.head? = some (Char.ofNat 36) := by
  induction syms generalizing w with
  | nil => exact ⟨[], by simp [export_loop], by simp⟩
  | cons symbol rest ih =>
    cases hs : search_dict w.dict symbol with
    | none =>
      rw [export_loop_absent env symbol rest w hs]
      exact ⟨[], by simp, by simp⟩
    | some inx =>
      rw [export_loop_present env symbol rest w _ (search_dict_value _ _ _ hs)]
      split
      · obtain ⟨extra, h1, h2⟩ := ih (forth_check env (probe_cmd symbol) w).2
        refine ⟨probe_cmd symbol :: extra, ?_, ?_⟩
        · rw [h1, forth_check_sent]; simp
        · intro x hx
          rcases List.mem_cons.1 hx with hx | hx
          · subst hx; exact Or.inl rfl
          · exact h2 x hx
      · split
        · obtain ⟨extra, h1, h2⟩ := ih (forth_check env (constant_cmd
            (((w.dict.get? inx).map (fun e => e.value)).getD 0) symbol)
            (forth_check env (probe_cmd symbol) w).2).2
          refine ⟨probe_cmd symbol :: constant_cmd
            (((w.dict.get? inx).map (fun e => e.value)).getD 0) symbol :: extra, ?_, ?_⟩
          · rw [h1, forth_check_sent, forth_check_sent]; simp
          · intro x hx
            simp only [List.mem_cons] at hx
            rcases hx with hx | hx | hx
            · subst hx; exact Or.inl rfl
            · subst hx; exact Or.inr rfl
            · exact h2 x hx
        · refine ⟨[probe_cmd symbol, constant_cmd
            (((w.dict.get? inx).map (fun e => e.value)).getD 0) symbol], ?_, ?_⟩
          · rw [forth_check_sent, forth_check_sent]; simp
          · intro x hx
            simp only [List.mem_cons, List.mem_singleton, List.not_mem_nil, or_false] at hx
            rcases hx with hx | hx <;> subst hx
            · exact Or.inl rfl
            · exact Or.inr rfl

theorem handle_res_sent (env : Env) (line : Str) (w : World) (r : Bool × World)
    (hr : handle_res env line w = .ok r) :
    ∃ extra, r.2.sent = w.sent ++ extra ∧
      ∀ x ∈ extra, x.head? = some (Char.ofNat 39) ∨ x.head? = some (Char.ofNat 36) := by
  unfold handle_res at hr
  split at hr
  · simp at hr
  · split at hr
    · split at hr
      · simp at hr
      · simp only at hr
        split at hr
        · simp only [Except.ok.injEq] at hr; subst hr
          exact ⟨[], by simp, by simp⟩
        · simp only [Except.ok.injEq] at hr; subst hr
          exact ⟨[], by simp [load_cpu_res_sent], by simp⟩
    · split at hr
      · simp only [Except.ok.injEq] at hr; subst hr
        exact export_loop_sent env _ w
      · split at hr
        · simp at hr
        · split at hr
          · simp only at hr
            split at hr
            · simp only [Except.ok.injEq] at hr; subst hr
              exact ⟨[], by simp, by simp⟩
            · simp only [Except.ok.injEq] at hr; subst hr
              exact ⟨[], by simp, by simp⟩
          · simp only [Except.ok.injEq] at hr; subst hr
            exact ⟨[], by simp, by simp⟩

/-- C14: for a line that starts with `\res`, the loop of `include_file` hands the
line to `handle_res` and writes nothing itself: what is written are the probes
and constant definitions of `handle_res`, none of which is the line. When
`handle_res` returns failure the loop stops there and `include_file` returns
failure; when it returns success the loop goes on with the next line. -/
theorem res_directive_dispatch (env : Env)
    (incl : Str → Bool → World → Except Fault (Bool × World))
    (raw : Str) (rest : List Str) (s : Loop) (hres : res_directive raw = true) :
    (∀ w1, handle_res env (normalize (strz raw)) s.w = .ok (false, w1) →
      stream env incl (raw :: rest) s = .ok { s with result := false, w := w1 }) ∧
    (∀ w1, handle_res env (normalize (strz raw)) s.w = .ok (true, w1) →
      stream env incl (raw :: rest) s =
        stream env incl rest { s with result := true, w := w1 }) ∧
    (∀ r, handle_res env (normalize (strz raw)) s.w = .ok r →
      ∃ extra, r.2.sent = s.w.sent ++ extra ∧ normalize (strz raw) ∉ extra) ∧
    (∀ fuel filename conditional w content pre w1,
      (search_file env filename).bind env.fopen = some content →
      (conditional = true →
        (forth_check env (probe_cmd (probe_word filename)) w).1 = false) →
      fgets_all 256 content [] = pre ++ raw :: rest →
      passes env (include_file env fuel) pre
        { margin := 85, result := true, w := start_world env filename conditional w } =
          some s →
      handle_res env (normalize (strz raw)) s.w = .ok (false, w1) →
      include_file env (fuel + 1) filename conditional w = .ok (false, w1)) := by
  have hfail : ∀ (incl : Str → Bool → World → Except Fault (Bool × World)) w1,
      handle_res env (normalize (strz raw)) s.w = .ok (false, w1) →
      stream env incl (raw :: rest) s = .ok { s with result := false, w := w1 } := by
    intro incl w1 h
    rw [stream_cons, do_line_res env incl raw s hres, h]
    rfl
  refine ⟨hfail incl, ?_, ?_, ?_⟩
  · intro w1 h
    rw [stream_cons, do_line_res env incl raw s hres, h]
    rfl
  · intro r h
    obtain ⟨extra, h1, h2⟩ := handle_res_sent env _ s.w r h
    refine ⟨extra, h1, fun hmem => ?_⟩
    have hhead : (normalize (strz raw)).head? = some BSL := by
      simp only [res_directive, Bool.and_eq_true, decide_eq_true_eq] at hres
      exact (res_not_stop _ hres.2).2
    rcases h2 _ hmem with h3 | h3 <;> (rw [hhead] at h3; revert h3; decide)
  · intro fuel filename conditional w content pre w1 hopen hprobe hlines hpre h
    rw [include_file_streams env fuel filename conditional w content hopen hprobe, hlines]
    unfold stream_result
    rw [stream_append env _ pre (raw :: rest) _ s hpre, hfail _ w1 h]

theorem res_directive_dispatch_witness :
    stream (demo_env []) (include_file (demo_env []) 0)
        ["\\res export NOSUCH\n".toList, "1 2 +\n".toList]
        { margin := 85, result := true, w := demo_world [] } =
      .ok { margin := 85, result := false, w := demo_world [] } ∧
    stream (demo_env []) (include_file (demo_env []) 0)
        ["\\res export\n".toList, "1 2 +\n".toList]
        { margin := 85, result := true, w := demo_world ["1 2 + ok\n"] } =
      stream (demo_env []) (include_file (demo_env []) 0) ["1 2 +\n".toList]
        { margin := 85, result := true, w := demo_world ["1 2 + ok\n"] } :=
  ⟨(res_directive_dispatch (demo_env []) (include_file (demo_env []) 0)
      "\\res export NOSUCH\n".toList ["1 2 +\n".toList]
      { margin := 85, result := true, w := demo_world [] } (by decide)).1
      (demo_world []) rfl,
   (res_directive_dispatch (demo_env []) (include_file (demo_env []) 0)
      "\\res export\n".toList ["1 2 +\n".toList]
      { margin := 85, result := true, w := demo_world ["1 2 + ok\n"] } (by decide)).2.1
      (demo_world ["1 2 + ok\n"]) rfl⟩

/-! ### The export branch of handle_res -/

theorem spansFrom_length (delim : Char → Bool) (s : Str) (i : Nat) (cur : Option Nat) :
    (spansFrom delim i cur s).length ≤ s.length + 1 := by
  induction s generalizing i cur with
  | nil => cases cur <;> simp [spansFrom]
  | cons c cs ih =>
    cases cur with
    | none =>
      rw [spansFrom_cons_none]
      split
      · have := ih (i + 1) none; simp only [List.length_cons]; omega
      · have := ih (i + 1) (some i); simp only [List.length_cons]; omega
    | some st =>
      rw [spansFrom_cons_some]
      split
      · have := ih (i + 1) none; simp only [List.length_cons]; omega
      · have := ih (i + 1) (some st); simp only [List.length_cons]; omega

theorem strz_length_le (buf : List Char) : (strz buf).length ≤ buf.length := by
  unfold strz
  exact (List.takeWhile_sublist _).length_le

theorem tokens_length_le (line : Str) : (tokens isDelim line).length ≤ line.length + 1 := by
  unfold tokens spans
  rw [List.length_map]
  have h1 := spansFrom_length isDelim (strz line) 0 none
  have h2 := strz_length_le line
  omega

theorem tokens_from_eq (line : Str) (k i : Nat) (h : (tokens isDelim line).length ≤ i + k) :
    tokens_from line k i = (tokens isDelim line).drop i := by
  induction k generalizing i with
  | zero =>
    rw [List.drop_eq_nil_of_le (by omega)]
    rfl
  | succ k ih =>
    unfold tokens_from
    rw [token_eq_tokens]
    cases hg : (tokens isDelim line).get? i with
    | none =>
      simp only
      rw [List.get?_eq_none] at hg
      rw [List.drop_eq_nil_of_le hg]
    | some t =>
      simp only
      rw [ih (i + 1) (by omega)]
      rw [List.get?_eq_some] at hg
      obtain ⟨hlt, hget⟩ := hg
      rw [List.drop_eq_getElem_cons hlt]
      simp only [List.get_eq_getElem] at hget
      rw [hget]

/-- The symbols of an export line are the tokens of the line from the third on. -/
theorem tokens_from_two (line : Str) :
    tokens_from line line.length 2 = (tokens isDelim line).drop 2 :=
  tokens_from_eq line line.length 2 (by have := tokens_length_le line; omega)

theorem handle_res_export_line (env : Env) (line : Str) (w : World) (t1 : Str)
    (ht : token line 1 = some t1) (hexp : strcasecmp t1 "export".toList = true) :
    handle_res env line w = .ok (export_loop env ((tokens isDelim line).drop 2) w) := by
  have hmcu : strcasecmp t1 "MCU:".toList = false := by
    simp only [strcasecmp, beq_iff_eq] at hexp
    simp only [strcasecmp, hexp]
    decide
  unfold handle_res
  simp only [ht, hmcu, hexp, Bool.false_eq_true, if_false, if_true, tokens_from_two]

theorem export_loop_stops (env : Env) (pre : List Str) (sk : Str) (rest : List Str)
    (w : World) (habs : search_dict w.dict sk = none) :
    export_loop env (pre ++ sk :: rest) w = (false, (export_loop env pre w).2) := by
  induction pre generalizing w with
  | nil => rw [List.nil_append, export_loop_absent env sk rest w habs]; rfl
  | cons x xs ih =>
    rw [List.cons_append]
    cases hs : search_dict w.dict x with
    | none =>
      rw [export_loop_absent env x _ w hs, export_loop_absent env x _ w hs]
    | some inx =>
      have hl := search_dict_value _ _ _ hs
      rw [export_loop_present env x _ w _ hl, export_loop_present env x _ w _ hl]
      split
      · exact ih _ (by rw [forth_check_dict]; exact habs)
      · split
        · exact ih _ (by rw [forth_check_dict, forth_check_dict]; exact habs)
        · rfl

theorem export_loop_seq (env : Env) (x : Str) (xs : List Str) (w : World) :
    export_loop env (x :: xs) w =
      if (export_loop env [x] w).1 then export_loop env xs (export_loop env [x] w).2
      else (false, (export_loop env [x] w).2) := by
  cases hs : search_dict w.dict x with
  | none =>
    rw [export_loop_absent env x xs w hs, export_loop_absent env x [] w hs]
    simp
  | some inx =>
    have hl := search_dict_value _ _ _ hs
    rw [export_loop_present env x xs w _ hl, export_loop_present env x [] w _ hl]
    simp only [export_loop_nil]
    split
    · simp
    · split <;> simp

theorem export_single_fails (env : Env) (x : Str) (w : World) :
    (export_loop env [x] w).1 = false ↔ export_fails_at env x w := by
  unfold export_fails_at
  cases hs : search_dict w.dict x with
  | none =>
    rw [export_loop_absent env x [] w hs]
    simp
  | some inx =>
    have hl := search_dict_value _ _ _ hs
    rw [export_loop_present env x [] w _ hl, hl]
    simp only [export_loop_nil, forth_check_result, false_or, Option.some.injEq,
      exists_eq_left']
    cases strchr (check_reply env (probe_cmd x) w) BEL <;>
      cases strchr (check_reply env (constant_cmd
        (((w.dict.get? inx).map (fun e => e.value)).getD 0) x)
        (forth_check env (probe_cmd x) w).2) BEL <;> simp

theorem export_loop_fails_iff (env : Env) (syms : List Str) (w : World) :
    (export_loop env syms w).1 = false ↔
      ∃ pre x post, syms = pre ++ x :: post ∧ (export_loop env pre w).1 = true ∧
        export_fails_at env x (export_loop env pre w).2 := by
  induction syms generalizing w with
  | nil => simp [export_loop]
  | cons y ys ih =>
    rw [export_loop_seq]
    cases hy : (export_loop env [y] w).1 with
    | false =>
      simp only [Bool.false_eq_true, if_false, true_iff]
      exact ⟨[], y, ys, rfl, rfl, (export_single_fails env y w).1 hy⟩
    | true =>
      simp only [if_true]
      rw [ih]
      constructor
      · rintro ⟨pre, x, post, h1, h2, h3⟩
        refine ⟨y :: pre, x, post, by rw [h1]; rfl, ?_, ?_⟩
        · rw [export_loop_seq, hy]; simpa using h2
        · rw [export_loop_seq, hy]; simpa using h3
      · rintro ⟨pre, x, post, h1, h2, h3⟩
        cases pre with
        | nil =>
          simp only [List.nil_append, List.cons.injEq] at h1
          obtain ⟨h1a, _⟩ := h1
          subst h1a
          have := (export_single_fails env y w).2 h3
          rw [hy] at this
          exact absurd this (by simp)
        | cons z pre =>
          simp only [List.cons_append, List.cons.injEq] at h1
          obtain ⟨h1a, h1b⟩ := h1
          subst h1a
          rw [export_loop_seq, hy] at h2 h3
          exact ⟨pre, x, post, h1b, by simpa using h2, by simpa using h3⟩

/-- C15: in `\res export s1 ... sn` with a symbol `sk` that is not in the
dictionary, `handle_res` returns failure in the world that the symbols in front
of `sk` leave: for `sk` and for the symbols behind it nothing is written, and the
symbols in front of `sk` are processed in their order. -/
theorem export_undefined (env : Env) (line : Str) (w : World) (t1 : Str)
    (pre : List Str) (sk : Str) (rest : List Str)
    (ht : token line 1 = some t1) (hexp : strcasecmp t1 "export".toList = true)
    (hsyms : (tokens isDelim line).drop 2 = pre ++ sk :: rest)
    (habs : search_dict w.dict sk = none) :
    handle_res env line w = .ok (false, (export_loop env pre w).2) ∧
    export_loop env [] w = (true, w) ∧
    (∀ x xs w0, export_loop env (x :: xs) w0 =
      if (export_loop env [x] w0).1 then export_loop env xs (export_loop env [x] w0).2
      else (false, (export_loop env [x] w0).2)) := by
  refine ⟨?_, rfl, fun x xs w0 => export_loop_seq env x xs w0⟩
  rw [handle_res_export_line env line w t1 ht hexp, hsyms,
    export_loop_stops env pre sk rest w habs]

theorem export_undefined_witness :
    handle_res (demo_env []) "\\res export PD_ODR PD_DDR PD_CR1\r".toList
        { demo_world [" ok\n"] with dict := [{ symbol := "PD_ODR".toList, value := 0x500F }] } =
      .ok (false, { sent := ["' PD_ODR DROP\r".toList], reads := (demo_world [" ok\n"]).reads,
                    nread := 1, dict := [{ symbol := "PD_ODR".toList, value := 0x500F }] }) :=
  (export_undefined (demo_env []) "\\res export PD_ODR PD_DDR PD_CR1\r".toList
    { demo_world [" ok\n"] with dict := [{ symbol := "PD_ODR".toList, value := 0x500F }] }
    "export".toList ["PD_ODR".toList] "PD_DDR".toList ["PD_CR1".toList]
    (by decide) (by decide) (by decide) (by decide)).1

theorem hexdigit_upper (d : Nat) (h : d < 16) : hexdigit d ∈ "0123456789ABCDEF".toList := by
  interval_cases d <;> decide

theorem hexdigits_upper (k n : Nat) (acc : Str)
    (hacc : ∀ c ∈ acc, c ∈ "0123456789ABCDEF".toList) :
    ∀ c ∈ hexdigits k n acc, c ∈ "0123456789ABCDEF".toList := by
  induction k generalizing n acc with
  | zero => exact hacc
  | succ k ih =>
    have hd := hexdigit_upper (n % 16) (Nat.mod_lt _ (by decide))
    have hacc2 : ∀ c ∈ hexdigit (n % 16) :: acc, c ∈ "0123456789ABCDEF".toList := by
      intro c hc
      rcases List.mem_cons.1 hc with hc | hc
      · rw [hc]; exact hd
      · exact hacc c hc
    unfold hexdigits
    split
    · exact hacc2
    · exact ih _ _ hacc2

theorem fmtX_upper (n : Nat) : ∀ c ∈ fmtX n, c ∈ "0123456789ABCDEF".toList :=
  hexdigits_upper _ _ [] (by simp)

theorem forth_check_true_iff (env : Env) (teststr : Str) (w : World) :
    (forth_check env teststr w).1 = true ↔ strchr (check_reply env teststr w) BEL = false := by
  rw [forth_check_result]
  cases strchr (check_reply env teststr w) BEL <;> simp

/-- C16: for a symbol of an export line that is in the dictionary with value `v`,
`handle_res` sends the probe; when the reply holds no BEL it goes on with the
next symbol; when it holds BEL it sends `$`, `v` in upper case hexadecimal,
` CONSTANT `, the symbol and CR, and fails when the reply to that holds BEL. So
the export fails exactly when it reaches a symbol that is not in the dictionary or
whose definition is answered with BEL. -/
theorem export_symbol (env : Env) (symbol : Str) (rest : List Str) (w : World) (v : Nat)
    (h : lookup w.dict symbol = some v) :
    (forth_check env (probe_cmd symbol) w).2.sent = w.sent ++ [probe_cmd symbol] ∧
    (strchr (check_reply env (probe_cmd symbol) w) BEL = false →
      export_loop env (symbol :: rest) w =
        export_loop env rest (forth_check env (probe_cmd symbol) w).2) ∧
    (strchr (check_reply env (probe_cmd symbol) w) BEL = true →
      (forth_check env (constant_cmd v symbol)
        (forth_check env (probe_cmd symbol) w).2).2.sent =
          w.sent ++ [probe_cmd symbol, constant_cmd v symbol] ∧
      (strchr (check_reply env (constant_cmd v symbol)
          (forth_check env (probe_cmd symbol) w).2) BEL = true →
        export_loop env (symbol :: rest) w =
          (false, (forth_check env (constant_cmd v symbol)
            (forth_check env (probe_cmd symbol) w).2).2)) ∧
      (strchr (check_reply env (constant_cmd v symbol)
          (forth_check env (probe_cmd symbol) w).2) BEL = false →
        export_loop env (symbol :: rest) w =
          export_loop env rest (forth_check env (constant_cmd v symbol)
            (forth_check env (probe_cmd symbol) w).2).2)) ∧
    (constant_cmd v symbol =
        [Char.ofNat 36] ++ fmtX v ++ " CONSTANT ".toList ++ symbol ++ [CR] ∧
      hexnum (fmtX v) = v ∧ ∀ c ∈ fmtX v, c ∈ "0123456789ABCDEF".toList) ∧
    (∀ line t1, token line 1 = some t1 → strcasecmp t1 "export".toList = true →
      handle_res env line w = .ok (export_loop env ((tokens isDelim line).drop 2) w)) ∧
    (∀ syms w0, (export_loop env syms w0).1 = false ↔
      ∃ pre x post, syms = pre ++ x :: post ∧ (export_loop env pre w0).1 = true ∧
        export_fails_at env x (export_loop env pre w0).2) := by
  have hstep := export_loop_present env symbol rest w v h
  refine ⟨forth_check_sent _ _ _, ?_, ?_, ⟨rfl, hexnum_fmtX v, fmtX_upper v⟩, ?_,
    fun syms w0 => export_loop_fails_iff env syms w0⟩
  · intro hb
    rw [hstep, (forth_check_true_iff _ _ _).2 hb]
    simp
  · intro hb
    have hp : (forth_check env (probe_cmd symbol) w).1 = false := by
      rw [forth_check_result, hb]; rfl
    refine ⟨?_, ?_, ?_⟩
    · rw [forth_check_sent, forth_check_sent]; simp
    · intro hd
      have hd2 : (forth_check env (constant_cmd v symbol)
          (forth_check env (probe_cmd symbol) w).2).1 = false := by
        rw [forth_check_result, hd]; rfl
      rw [hstep, hp, hd2]
      simp
    · intro hd
      rw [hstep, hp, (forth_check_true_iff _ _ _).2 hd]
      simp
  · intro line t1 ht hexp
    exact handle_res_export_line env line w t1 ht hexp

theorem export_symbol_witness :
    export_loop (demo_env []) ["PD_ODR".toList]
        { demo_world ["PD_ODR ?\x07\n", " ok\n"] with
          dict := [{ symbol := "PD_ODR".toList, value := 0x500F }] } =
      export_loop (demo_env []) []
        (forth_check (demo_env []) (constant_cmd 0x500F "PD_ODR".toList)
          (forth_check (demo_env []) (probe_cmd "PD_ODR".toList)
            { demo_world ["PD_ODR ?\x07\n", " ok\n"] with
              dict := [{ symbol := "PD_ODR".toList, value := 0x500F }] }).2).2 ∧
    constant_cmd 0x500F "PD_ODR".toList = "$500F CONSTANT PD_ODR\r".toList :=
  ⟨((export_symbol (demo_env []) "PD_ODR".toList []
      { demo_world ["PD_ODR ?\x07\n", " ok\n"] with
        dict := [{ symbol := "PD_ODR".toList, value := 0x500F }] } 0x500F (by decide)).2.2.1
      (by decide)).2.2 (by decide),
   by decide⟩

/-! ### Lines of a resource file -/

theorem res_line_comment (d : List dict_t) (raw : Str) (h : (strz raw).head? = some BSL) :
    res_line d raw = d := by
  unfold res_line
  simp [h]

theorem res_line_short (d : List dict_t) (raw : Str) (h : token (strz raw) 2 = none) :
    res_line d raw = d := by
  unfold res_line
  simp only [h]
  split <;> rfl

theorem res_line_other (d : List dict_t) (raw : Str)
    (h : token (strz raw) 1 ≠ some "equ".toList) : res_line d raw = d := by
  unfold res_line
  simp only
  split
  · rfl
  · split
    · rfl
    · split
      · rfl
      · rename_i t1 ht
        have hne : t1 ≠ "equ".toList := fun h2 => h (by rw [ht, h2])
        have hf : strcmp t1 "equ".toList = false := by
          simp only [strcmp, beq_eq_false_iff_ne, ne_eq]
          exact hne
        rw [if_neg (by rw [hf]; simp)]

theorem res_line_defines (d : List dict_t) (raw t0 sym : Str)
    (hb : (strz raw).head? ≠ some BSL) (h0 : token (strz raw) 0 = some t0)
    (h1 : token (strz raw) 1 = some "equ".toList) (h2 : token (strz raw) 2 = some sym) :
    res_line d raw = dict_define d sym (strtol16 t0) := by
  unfold res_line
  have hb2 : ((strz raw).head? == some BSL) = false := by simpa using hb
  simp [hb2, h0, h1, h2, strcmp]

theorem load_cpu_res_open (env : Env) (filespec : Str) (w : World) (content : List Char)
    (h : env.fopen filespec = some content) :
    load_cpu_res env filespec w =
      (true, { w with dict := (fgets_all 128 content []).foldl res_line w.dict }) := by
  unfold load_cpu_res
  simp only [h]

theorem strtol16_not_number (c : Char) (t : Str) (hc : (hexval c).isSome = false)
    (hs : isspace c = false) (hm : c ≠ Char.ofNat 45) (hp : c ≠ Char.ofNat 43) :
    strtol16 (c :: t) = 0 := by
  unfold strtol16
  have h1 : (c :: t).dropWhile isspace = c :: t := by
    rw [List.dropWhile_cons_of_neg (by simp [hs])]
  have h45 : (some c == some (Char.ofNat 45)) = false := by simpa using hm
  have h43 : (some c == some (Char.ofNat 43)) = false := by simpa using hp
  simp only [h1, List.head?_cons, h45, h43, Bool.or_self, Bool.false_eq_true, if_false]
  have h0 : c ≠ Char.ofNat 48 := by
    intro h; subst h; revert hc; decide
  have hsk : skip0x (c :: t) = c :: t := by
    unfold skip0x
    split
    · rename_i z x hh tt heq
      simp only [List.cons.injEq] at heq
      have : ¬ (z = Char.ofNat 48) := by rw [← heq.1]; exact h0
      rw [if_neg (fun h => this h.1)]
      rw [← heq.1, ← heq.2]
    · rfl
  rw [hsk, List.takeWhile_cons_of_neg (by simp [hc])]
  rfl

/-- C17, as stated, fails: a line whose first token is not a hexadecimal number
changes the dictionary when its second token is `equ`; the name gets the value
0. -/
theorem res_line_not_hex :
    ¬ is_hex "xyz".toList ∧
    res_line [] "xyz equ NAME\n".toList = [{ symbol := "NAME".toList, value := 0 }] ∧
    res_line [] "xyz equ NAME\n".toList ≠ [] := by
  refine ⟨?_, by decide, by decide⟩
  intro h
  have := h.2 (Char.ofNat 120) (by decide)
  revert this
  decide

/-! ### Width of the values -/

theorem toWORD_nat (n : Nat) : toWORD (n : Int) = n % 65536 := by
  unfold toWORD
  omega

theorem equ_line_tokens (hex name : Str) (hhex : is_hex hex) (hname : is_token name) :
    (hex ++ " equ ".toList ++ name ++ [LF]).head? ≠ some BSL ∧
    strz (hex ++ " equ ".toList ++ name ++ [LF]) = hex ++ " equ ".toList ++ name ++ [LF] ∧
    token (hex ++ " equ ".toList ++ name ++ [LF]) 0 = some hex ∧
    token (hex ++ " equ ".toList ++ name ++ [LF]) 1 = some "equ".toList ∧
    token (hex ++ " equ ".toList ++ name ++ [LF]) 2 = some name := by
  have hpairs : ∀ p ∈ [(hex, Char.ofNat 32), ("equ".toList, Char.ofNat 32), (name, LF)],
      is_token p.1 ∧ isDelim p.2 = true := by
    intro p hp
    simp only [List.mem_cons, List.mem_singleton, List.not_mem_nil, or_false] at hp
    rcases hp with hp | hp | hp <;> subst hp
    · exact ⟨is_token_of_is_hex hex hhex, isDelim_space⟩
    · exact ⟨is_token_equ, isDelim_space⟩
    · exact ⟨hname, isDelim_LF⟩
  refine ⟨?_, ?_, ?_, ?_, ?_⟩
  · obtain ⟨hne, hall⟩ := hhex
    cases hex with
    | nil => exact absurd rfl hne
    | cons c cs =>
      have := (hex_not_special c (hall c (List.mem_cons_self _ _))).2.2.2.2.2.2.2
      simpa using this
  · rw [equ_line_eq]
    exact strz_of_no_nul _ (join_tokens_no_nul _ hpairs)
  · rw [equ_line_eq, token_join _ hpairs]; rfl
  · rw [equ_line_eq, token_join _ hpairs]; rfl
  · rw [equ_line_eq, token_join _ hpairs]; rfl

theorem res_line_equ_word (d : List dict_t) (hex name : Str) (hhex : is_hex hex)
    (hname : is_token name) (hv : hexnum hex < 2147483648) :
    lookup (res_line d (hex ++ " equ ".toList ++ name ++ [LF])) name =
      some (hexnum hex % 65536) := by
  obtain ⟨hb, hz, h0, h1, h2⟩ := equ_line_tokens hex name hhex hname
  rw [res_line_defines d _ hex name (by rw [hz]; exact hb) (by rw [hz]; exact h0)
    (by rw [hz]; exact h1) (by rw [hz]; exact h2), strtol16_hex hex hhex hv,
    lookup_dict_define_same, toWORD_nat]

/-- C11, as stated, fails: the value 0x12345 is below 2^32, but the value stored
for the name is 0x2345, and the export sends `$2345 CONSTANT BIG`. -/
theorem dict_value_not_32_bit :
    hexnum "12345".toList = 0x12345 ∧
    lookup (load_cpu_res (demo_env [("a.efr", "12345 equ BIG\n")]) "a.efr".toList
      (demo_world [])).2.dict "BIG".toList = some 0x2345 ∧
    sent_of (handle_res (demo_env [("a.efr", "12345 equ BIG\n")]) "\\res export BIG\r".toList
      (load_cpu_res (demo_env [("a.efr", "12345 equ BIG\n")]) "a.efr".toList
        (demo_world ["BIG ?\x07\n", " ok\n"])).2) =
      some ["' BIG DROP\r".toList, "$2345 CONSTANT BIG\r".toList] := by
  refine ⟨by decide, by decide, by decide⟩

/-! ### search_file -/

theorem search_dirs_eq_find (env : Env) (fnam : Str) (dirs : List Str) :
    search_dirs env fnam dirs =
      (dirs.map (fun dir => dir ++ [SLASH] ++ fnam)).find? env.fileExists := by
  induction dirs with
  | nil => rfl
  | cons d ds ih =>
    simp only [search_dirs, List.map_cons, List.find?_cons]
    cases h : env.fileExists (d ++ [SLASH] ++ fnam) with
    | true => simp
    | false => simpa using ih

theorem spansFrom_last_some (delim : Char → Bool) (t : Str) (hnd : ∀ c ∈ t, delim c = false)
    (j st : Nat) : spansFrom delim j (some st) t = [(st, j + t.length)] := by
  induction t generalizing j with
  | nil => rfl
  | cons c cs ih =>
    rw [spansFrom_cons_some, hnd c (List.mem_cons_self _ _)]
    simp only [Bool.false_eq_true, if_false]
    rw [ih (fun x hx => hnd x (List.mem_cons_of_mem _ hx))]
    simp only [List.length_cons]
    have : j + 1 + cs.length = j + (cs.length + 1) := by omega
    rw [this]

theorem spansFrom_last (delim : Char → Bool) (t : Str) (hne : t ≠ [])
    (hnd : ∀ c ∈ t, delim c = false) (j : Nat) :
    spansFrom delim j none t = [(j, j + t.length)] := by
  cases t with
  | nil => exact absurd rfl hne
  | cons c cs =>
    rw [spansFrom_cons_none, hnd c (List.mem_cons_self _ _)]
    simp only [Bool.false_eq_true, if_false]
    rw [spansFrom_last_some delim cs (fun x hx => hnd x (List.mem_cons_of_mem _ hx))]
    simp only [List.length_cons]
    have : j + 1 + cs.length = j + (cs.length + 1) := by omega
    rw [this]

theorem join_path_cons_cons (d d2 : Str) (ds : List Str) :
    join_path (d :: d2 :: ds) = d ++ Char.ofNat 59 :: join_path (d2 :: ds) := rfl

theorem join_path_no_nul (dirs : List Str) (h : ∀ d ∈ dirs, is_dir d) :
    ∀ c ∈ join_path dirs, c ≠ NUL := by
  induction dirs with
  | nil => simp [join_path]
  | cons d ds ih =>
    cases ds with
    | nil =>
      intro c hc
      exact ((h d (List.mem_cons_self _ _)).2 c hc).2
    | cons d2 ds =>
      intro c hc
      rw [join_path_cons_cons] at hc
      simp only [List.mem_append, List.mem_cons] at hc
      rcases hc with hc | hc | hc
      · exact ((h d (List.mem_cons_self _ _)).2 c hc).2
      · subst hc; decide
      · exact ih (fun x hx => h x (List.mem_cons_of_mem _ hx)) c hc

theorem spans_join_path (dirs : List Str) (h : ∀ d ∈ dirs, is_dir d) (pre : Str) :
    (spansFrom (fun c => c == Char.ofNat 59) pre.length none (join_path dirs)).map
        (fun sp => substr (pre ++ join_path dirs) sp.1 sp.2) = dirs := by
  induction dirs generalizing pre with
  | nil => rfl
  | cons d ds ih =>
    obtain ⟨hne, hall⟩ := h d (List.mem_cons_self _ _)
    have hnd : ∀ c ∈ d, (fun c => c == Char.ofNat 59) c = false := by
      intro c hc
      simpa using (hall c hc).1
    cases ds with
    | nil =>
      show (spansFrom _ pre.length none d).map _ = [d]
      rw [spansFrom_last _ d hne hnd]
      simp only [List.map_cons, List.map_nil, List.cons.injEq, and_true]
      have := substr_mid pre d []
      simpa [join_path] using this
    | cons d2 ds =>
      rw [join_path_cons_cons, spansFrom_token _ d hne hnd (Char.ofNat 59) (by decide)]
      simp only [List.map_cons, List.cons.injEq]
      constructor
      · have := substr_mid pre d (Char.ofNat 59 :: join_path (d2 :: ds))
        simpa [List.append_assoc] using this
      · have := ih (fun x hx => h x (List.mem_cons_of_mem _ hx)) (pre ++ d ++ [Char.ofNat 59])
        simpa [List.append_assoc] using this

theorem tokens_join_path (dirs : List Str) (h : ∀ d ∈ dirs, is_dir d) :
    tokens (fun c => c == Char.ofNat 59) (join_path dirs) = dirs := by
  unfold tokens spans
  rw [strz_of_no_nul _ (join_path_no_nul dirs h)]
  simpa using spans_join_path dirs h []

theorem search_file_exists (env : Env) (name p : Str) (h : search_file env name = some p) :
    env.fileExists p = true := by
  unfold search_file at h
  split at h
  · rename_i h1
    simp only [Option.some.injEq] at h
    rw [← h]; exact h1
  · split at h
    · simp at h
    · split at h
      · simp at h
      · rw [search_dirs_eq_find] at h
        have := List.find?_some h
        exact this

/-- C18: `search_file ( name )` returns `name` when that path exists; otherwise
NULL when `name` holds a slash or a backslash; otherwise the first of the paths
`dir/name`, taken in the order of the directories of the search path, that
exists, and NULL when none of them exists. A path that is returned exists. The
directories are the parts of the search path between the semicolons. -/
theorem search_file_spec (env : Env) (name : Str) :
    (env.fileExists name = true → search_file env name = some name) ∧
    (env.fileExists name = false → (SLASH ∈ name ∨ BSL ∈ name) →
      search_file env name = none) ∧
    (env.fileExists name = false → SLASH ∉ name → BSL ∉ name →
      search_file env name = (candidates env name).find? env.fileExists) ∧
    (∀ p, search_file env name = some p → env.fileExists p = true) ∧
    (∀ dirs, (∀ d ∈ dirs, is_dir d) → env.path = join_path dirs →
      candidates env name = dirs.map (fun dir => dir ++ [SLASH] ++ name)) := by
  refine ⟨?_, ?_, ?_, search_file_exists env name, ?_⟩
  · intro h
    unfold search_file
    simp [h]
  · intro h hs
    unfold search_file
    simp only [h, Bool.false_eq_true, if_false, strchr, List.contains_iff_exists_mem_beq,
      beq_iff_eq, exists_eq_right']
    rcases hs with hs | hs
    · simp [hs]
    · simp [hs]
  · intro h h1 h2
    unfold search_file candidates
    simp only [h, Bool.false_eq_true, if_false, strchr, List.contains_iff_exists_mem_beq,
      beq_iff_eq, exists_eq_right', h1, h2]
    exact search_dirs_eq_find env name _
  · intro dirs hd hp
    unfold candidates
    rw [hp, tokens_join_path dirs hd]

theorem search_file_spec_witness :
    search_file (demo_env [("./lib/b.fs", ": b ;\n"), ("./mcu/b.fs", ": b ;\n")])
        "b.fs".toList =
      (["./b.fs".toList, "./mcu/b.fs".toList, "./lib/b.fs".toList].find?
        (demo_env [("./lib/b.fs", ": b ;\n"), ("./mcu/b.fs", ": b ;\n")]).fileExists) ∧
    search_file (demo_env [("./lib/b.fs", ": b ;\n")]) "x/b.fs".toList = none ∧
    search_file (demo_env [("x/b.fs", ": b ;\n")]) "x/b.fs".toList = some "x/b.fs".toList :=
  ⟨by
    have h := search_file_spec (demo_env [("./lib/b.fs", ": b ;\n"), ("./mcu/b.fs", ": b ;\n")])
      "b.fs".toList
    rw [h.2.2.1 (by decide) (by decide) (by decide),
      h.2.2.2.2 [".".toList, "./mcu".toList, "./lib".toList]
        (by intro d hd; simp only [List.mem_cons, List.mem_singleton, List.not_mem_nil,
              or_false] at hd
            rcases hd with hd | hd | hd <;> subst hd <;> exact ⟨by decide, by decide⟩)
        (by decide)]
    rfl,
   (search_file_spec (demo_env [("./lib/b.fs", ": b ;\n")]) "x/b.fs".toList).2.1
     (by decide) (Or.inl (by decide)),
   (search_file_spec (demo_env [("x/b.fs", ": b ;\n")]) "x/b.fs".toList).1 (by decide)⟩

/-! ### Inclusion directives -/

theorem directive_line_eq (kw name : Str) :
    normalize (kw ++ [Char.ofNat 32] ++ name ++ [LF]) =
      join_tokens [(kw, Char.ofNat 32), (name, CR)] := by
  unfold normalize
  have h1 : (kw ++ [Char.ofNat 32] ++ name ++ [LF]).getLast? = some LF := by
    rw [List.getLast?_append]; rfl
  rw [if_pos (by rw [h1]; rfl), List.dropLast_concat]
  simp [join_tokens]

theorem is_token_include : is_token "#include".toList := by
  refine ⟨by decide, ?_⟩
  decide

theorem is_token_require : is_token "#require".toList := by
  refine ⟨by decide, ?_⟩
  decide

theorem directive_token (kw name : Str) (hkw : is_token kw) (hname : is_token name) :
    token (normalize (kw ++ [Char.ofNat 32] ++ name ++ [LF])) 1 = some name := by
  have hpairs : ∀ p ∈ [(kw, Char.ofNat 32), (name, CR)],
      is_token p.1 ∧ isDelim p.2 = true := by
    intro p hp
    simp only [List.mem_cons, List.mem_singleton, List.not_mem_nil, or_false] at hp
    rcases hp with hp | hp <;> subst hp
    · exact ⟨hkw, isDelim_space⟩
    · exact ⟨hname, isDelim_CR⟩
  rw [directive_line_eq, token_join _ hpairs]
  rfl

/-- C19 (amended): for a line that starts with `#include` or `#require` the loop of
`include_file` writes the CR-terminated line to the device; then, when the line
has a second token for the delimiters space, CR and LF, it calls `include_file`
on that token, with `conditional` TRUE exactly when the line starts with
`#require`, and stops with failure when the call fails; when the line has no
second token nothing is included and the loop goes on. In `#include name` and
`#require name`, written with a space, the second token is the name. -/
theorem directive_dispatch (env : Env)
    (incl : Str → Bool → World → Except Fault (Bool × World))
    (raw : Str) (rest : List Str) (s : Loop) (hdir : directive raw = true) :
    (∀ p, token (normalize (strz raw)) 1 = some p →
      stream env incl (raw :: rest) s =
        match incl p (startsWith (normalize (strz raw)) "#require".toList)
            (writecom (normalize (strz raw)) s.w) with
        | .error f => .error f
        | .ok r =>
          if r.1 then stream env incl rest { s with result := true, w := r.2 }
          else .ok { s with result := false, w := r.2 }) ∧
    (token (normalize (strz raw)) 1 = none →
      stream env incl (raw :: rest) s =
        stream env incl rest { s with w := writecom (normalize (strz raw)) s.w }) ∧
    (writecom (normalize (strz raw)) s.w).sent = s.w.sent ++ [normalize (strz raw)] ∧
    (∀ name, is_token name →
      token (normalize ("#include".toList ++ [Char.ofNat 32] ++ name ++ [LF])) 1 = some name ∧
      token (normalize ("#require".toList ++ [Char.ofNat 32] ++ name ++ [LF])) 1 = some name ∧
      startsWith (normalize ("#include".toList ++ [Char.ofNat 32] ++ name ++ [LF]))
        "#require".toList = false ∧
      startsWith (normalize ("#require".toList ++ [Char.ofNat 32] ++ name ++ [LF]))
        "#require".toList = true) := by
  refine ⟨?_, ?_, rfl, ?_⟩
  · intro p hp
    rw [stream_cons, do_line_directive env incl raw s hdir, hp]
    simp only
    cases incl p (startsWith (normalize (strz raw)) "#require".toList)
        (writecom (normalize (strz raw)) s.w) with
    | error f => rfl
    | ok r =>
      obtain ⟨b, w2⟩ := r
      cases b <;> rfl
  · intro hp
    rw [stream_cons, do_line_directive env incl raw s hdir, hp]
  · intro name hname
    refine ⟨directive_token _ name is_token_include hname,
      directive_token _ name is_token_require hname, ?_, ?_⟩
    · rw [directive_line_eq]; rfl
    · rw [directive_line_eq]; rfl

theorem directive_dispatch_witness :
    stream (demo_env [("b.fs", "1 2 +\n")]) (include_file (demo_env [("b.fs", "1 2 +\n")]) 1)
        ["#require b.fs\n".toList] { margin := 85, result := true, w := demo_world [" ok\n"] } =
      .ok { margin := 85, result := true,
            w := { sent := ["#require b.fs\r".toList, "' b.fs DROP\r".toList],
                   reads := (demo_world [" ok\n"]).reads, nread := 1, dict := [] } } ∧
    stream (demo_env []) (include_file (demo_env []) 1) ["#include\n".toList]
        { margin := 85, result := true, w := demo_world [] } =
      .ok { margin := 85, result := true,
            w := { sent := ["#include\r".toList], reads := (demo_world []).reads,
                   nread := 0, dict := [] } } :=
  ⟨(directive_dispatch (demo_env [("b.fs", "1 2 +\n")])
      (include_file (demo_env [("b.fs", "1 2 +\n")]) 1) "#require b.fs\n".toList []
      { margin := 85, result := true, w := demo_world [" ok\n"] } (by decide)).1
      "b.fs".toList (by decide),
   (directive_dispatch (demo_env []) (include_file (demo_env []) 1) "#include\n".toList []
      { margin := 85, result := true, w := demo_world [] } (by decide)).2.1 (by decide)⟩

/-- C19, as stated, fails: in a line whose file name follows the directive after a
tab, the name is the first token after the directive, but `include_file` is not
called on it: the file `b.fs` exists and none of its lines is sent. A directive
without a name includes nothing either. -/
theorem directive_tab_not_included :
    sent_of (include_file (demo_env [("a.fs", "#include\tb.fs\n1 2 +\n"), ("b.fs", "foo\n")]) 2
      "a.fs".toList false (demo_world ["1 2 + ok\n"])) =
        some ["#include\tb.fs\r".toList, "1 2 +\r".toList] ∧
    sent_of (include_file (demo_env [("a.fs", "#include b.fs\n1 2 +\n"), ("b.fs", "foo\n")]) 2
      "a.fs".toList false (demo_world ["foo ok\n", "1 2 + ok\n"])) =
        some ["#include b.fs\r".toList, "foo\r".toList, "1 2 +\r".toList] ∧
    sent_of (include_file (demo_env [("a.fs", "#include\n1 2 +\n")]) 2
      "a.fs".toList false (demo_world ["1 2 + ok\n"])) =
        some ["#include\r".toList, "1 2 +\r".toList] := by
  refine ⟨by decide, by decide, by decide⟩

/-! ### strip_comment -/

theorem strrchrFrom_none (c : Char) (i : Nat) (s : Str) :
    strrchrFrom c i s = none ↔ c ∉ s := by
  induction s generalizing i with
  | nil => simp [strrchrFrom]
  | cons x xs ih =>
    unfold strrchrFrom
    cases h : strrchrFrom c (i + 1) xs with
    | some j =>
      have : c ∈ xs := by
        by_contra hn
        rw [(ih (i + 1)).2 hn] at h
        exact absurd h (by simp)
      simp [this]
    | none =>
      have hn := (ih (i + 1)).1 h
      by_cases hx : x = c
      · simp [hx]
      · have hx2 : ¬ c = x := fun h2 => hx h2.symm
        simp [hx, hx2, hn]

theorem strrchrFrom_some (c : Char) (i j : Nat) (s : Str) (h : strrchrFrom c i s = some j) :
    i ≤ j ∧ ∃ a b, s = a ++ c :: b ∧ a.length = j - i ∧ c ∉ b := by
  induction s generalizing i with
  | nil => simp [strrchrFrom] at h
  | cons x xs ih =>
    unfold strrchrFrom at h
    cases h2 : strrchrFrom c (i + 1) xs with
    | some k =>
      rw [h2] at h
      simp only [Option.some.injEq] at h
      subst h
      obtain ⟨hle, a, b, hs, hl, hb⟩ := ih (i + 1) h2
      refine ⟨by omega, x :: a, b, by rw [hs]; rfl, ?_, hb⟩
      simp only [List.length_cons]
      omega
    | none =>
      rw [h2] at h
      simp only at h
      split at h
      · rename_i hx
        simp only [Option.some.injEq] at h
        subst h
        subst hx
        exact ⟨Nat.le_refl _, [], xs, rfl, by simp, (strrchrFrom_none _ _ _).1 h2⟩
      · simp at h

theorem takeWhile_append_of_mem (a b : Str) (c : Char) (h : c ∈ a) :
    (a ++ b).takeWhile (fun x => x != c) = a.takeWhile (fun x => x != c) := by
  induction a with
  | nil => simp at h
  | cons x xs ih =>
    by_cases hx : x = c
    · subst hx
      simp [List.takeWhile]
    · have : c ∈ xs := by
        rcases List.mem_cons.1 h with h1 | h1
        · exact absurd h1.symm hx
        · exact h1
      rw [List.cons_append, List.takeWhile_cons_of_pos (by simpa using hx),
        List.takeWhile_cons_of_pos (by simpa using hx), ih this]

theorem takeWhile_append_stop (a b : Str) (c : Char) (h : c ∉ a) :
    (a ++ c :: b).takeWhile (fun x => x != c) = a := by
  induction a with
  | nil => simp [List.takeWhile]
  | cons x xs ih =>
    have hx : x ≠ c := fun h2 => h (by rw [h2]; exact List.mem_cons_self _ _)
    rw [List.cons_append, List.takeWhile_cons_of_pos (by simpa using hx),
      ih (fun h2 => h (List.mem_cons_of_mem _ h2))]

theorem strip_spec_no_bsl (line : Str) (h : BSL ∉ line) : strip_spec line = line := by
  unfold strip_spec
  rw [if_neg h]

theorem strip_loop_spec (k : Nat) (line : Str) (hhead : line.head? ≠ some BSL)
    (hk : line.count BSL ≤ k) : strip_loop k line = strip_spec line := by
  induction k generalizing line with
  | zero =>
    have : BSL ∉ line := by
      intro hm
      have := List.count_pos_iff.2 hm
      omega
    rw [strip_spec_no_bsl line this]
    rfl
  | succ k ih =>
    unfold strip_loop
    cases hs : strrchr line BSL with
    | none =>
      simp only
      rw [strip_spec_no_bsl line ((strrchrFrom_none _ _ _).1 hs)]
    | some p =>
      obtain ⟨_, a, b, hl, hlen, hb⟩ := strrchrFrom_some BSL 0 p line hs
      simp only [Nat.sub_zero] at hlen
      have hp : 0 < p := by
        rcases Nat.eq_zero_or_pos p with h0 | h0
        · exfalso
          rw [h0] at hlen
          have ha : a = [] := List.length_eq_zero.1 hlen
          rw [hl, ha] at hhead
          exact hhead rfl
        · exact h0
      have htake : line.take p = a := by
        rw [hl, ← hlen, List.take_left]
      simp only [hp, if_true, htake]
      have hane : a ≠ [] := by
        intro ha
        rw [ha] at hlen
        simp at hlen
        omega
      have hhead2 : (a ++ [CR]).head? ≠ some BSL := by
        cases a with
        | nil => exact absurd rfl hane
        | cons x xs =>
          rw [hl] at hhead
          simpa using hhead
      have hcount : (a ++ [CR]).count BSL ≤ k := by
        rw [hl] at hk
        simp only [List.count_append, List.count_cons, beq_self_eq_true, if_true] at hk
        simp only [List.count_append, List.count_cons, List.count_nil]
        have : (CR == BSL) = false := by decide
        simp only [this, Bool.false_eq_true, if_false]
        omega
      rw [ih (a ++ [CR]) hhead2 hcount]
      have hmem : BSL ∈ line := by rw [hl]; simp
      unfold strip_spec
      rw [if_pos hmem]
      by_cases ha : BSL ∈ a
      · rw [if_pos (List.mem_append_left _ ha), takeWhile_append_of_mem a [CR] BSL ha, hl,
          takeWhile_append_of_mem a (BSL :: b) BSL ha]
      · have hn : BSL ∉ a ++ [CR] := by
          intro hm
          rcases List.mem_append.1 hm with h1 | h1
          · exact ha h1
          · simp only [List.mem_singleton] at h1
            revert h1; decide
        rw [if_neg hn, hl, takeWhile_append_stop a b BSL ha]

theorem strip_comment_eq (line : Str) (hhead : line.head? ≠ some BSL) :
    strip_comment line = strip_spec line :=
  strip_loop_spec line.length line hhead (List.count_le_length _ _)

theorem strip_spec_props (line : Str) :
    BSL ∉ strip_spec line ∧ (strip_spec line).head? = line.head? ∨
      (line.head? = some BSL) := by
  by_cases hhead : line.head? = some BSL
  · exact Or.inr hhead
  · left
    unfold strip_spec
    by_cases hm : BSL ∈ line
    · rw [if_pos hm]
      constructor
      · intro h
        rcases List.mem_append.1 h with h1 | h1
        · have := List.mem_takeWhile_imp h1
          simp at this
        · simp only [List.mem_singleton] at h1
          revert h1; decide
      · cases line with
        | nil => simp at hm
        | cons x xs =>
          have hx : x ≠ BSL := by simpa using hhead
          rw [List.takeWhile_cons_of_pos (by simpa using hx)]
          rfl
    · rw [if_neg hm]
      exact ⟨hm, rfl⟩

/-- C20: on a CR-terminated line that does not start with a backslash,
`strip_comment` leaves a line without backslash as it is, otherwise yields the
text in front of the first backslash followed by one CR; applying it twice gives
the same as applying it once. The result holds no backslash and ends with CR. -/
theorem strip_comment_spec (line : Str) (hcr : line.getLast? = some CR)
    (hhead : line.head? ≠ some BSL) :
    (BSL ∉ line → strip_comment line = line) ∧
    (BSL ∈ line → strip_comment line = line.takeWhile (fun c => c != BSL) ++ [CR]) ∧
    BSL ∉ strip_comment line ∧
    (strip_comment line).getLast? = some CR ∧
    strip_comment (strip_comment line) = strip_comment line := by
  have heq := strip_comment_eq line hhead
  have hprops : BSL ∉ strip_spec line ∧ (strip_spec line).head? = line.head? := by
    rcases strip_spec_props line with h | h
    · exact h
    · exact absurd h hhead
  refine ⟨?_, ?_, ?_, ?_, ?_⟩
  · intro h
    rw [heq, strip_spec_no_bsl line h]
  · intro h
    rw [heq]
    unfold strip_spec
    rw [if_pos h]
  · rw [heq]; exact hprops.1
  · rw [heq]
    unfold strip_spec
    by_cases h : BSL ∈ line
    · rw [if_pos h]
      simp
    · rw [if_neg h]
      exact hcr
  · rw [heq, strip_comment_eq _ (by rw [hprops.2]; exact hhead),
      strip_spec_no_bsl _ hprops.1]

theorem strip_comment_spec_witness :
    strip_comment ": x 1 ; \\ one \\ more\r".toList = ": x 1 ; \r".toList ∧
    strip_comment "1 2 +\r".toList = "1 2 +\r".toList :=
  ⟨by
    have h := (strip_comment_spec ": x 1 ; \\ one \\ more\r".toList (by decide)
      (by decide)).2.1 (by decide)
    rw [h]
    decide,
   (strip_comment_spec "1 2 +\r".toList (by decide) (by decide)).1 (by decide)⟩

/-! ### readcom: bound on the reads, and the end-of-line test -/

theorem readcom_loop_reads (under : Char) (k : Nat) (buf : List Char) (tot maxlen : Nat)
    (w : World) (hk : 0 < k) :
    w.nread + 1 ≤ (readcom_loop under k buf tot maxlen w).2.2.nread ∧
    (readcom_loop under k buf tot maxlen w).2.2.nread ≤ w.nread + k := by
  induction k generalizing buf tot maxlen w with
  | zero => exact absurd hk (Nat.lt_irrefl 0)
  | succ k ih =>
    unfold readcom_loop
    simp only
    cases hr : w.reads w.nread with
    | none => simp
    | some chunk =>
      simp only
      split
      · simp
      · split
        · simp
        · rename_i hk0
          have := ih (List.take tot buf ++ List.take maxlen chunk)
            (tot + (List.take maxlen chunk).length)
            (maxlen - (List.take maxlen chunk).length) { w with nread := w.nread + 1 }
            (Nat.pos_of_ne_zero hk0)
          constructor
          · exact Nat.le_trans (Nat.le_succ _) this.1
          · have h2 := this.2
            simp only at h2
            omega

theorem readcom_reads (env : Env) (buf0 : List Char) (maxlen maxtry : Nat) (w : World)
    (hk : 0 < maxtry) :
    w.nread + 1 ≤ (readcom env buf0 maxlen maxtry w).2.2.nread ∧
    (readcom env buf0 maxlen maxtry w).2.2.nread ≤ w.nread + maxtry :=
  readcom_loop_reads env.under maxtry buf0 0 maxlen w hk

theorem eol_seen_eq (under : Char) (acc : List Char) (hLF : under ≠ LF) (hCR : under ≠ CR) :
    eol_seen under acc acc.length = true ↔
      (acc.getLast? = some LF ∨ acc.getLast? = some CR) := by
  unfold eol_seen
  rcases List.eq_nil_or_concat acc with h | ⟨l, x, h⟩
  · subst h
    simp [hLF, hCR]
  · subst h
    rw [List.concat_eq_append]
    have h1 : (l ++ [x]).length ≠ 0 := by simp
    have h2 : (l ++ [x]).getD ((l ++ [x]).length - 1) NUL = x := by
      have : (l ++ [x]).length - 1 = l.length + 0 := by simp
      rw [this, List.getD_eq_getElem?_getD]
      simp
    have h3 : (l ++ [x]).getLast? = some x := by simp
    simp only [h1, if_false, h2, h3, Option.some.injEq, Bool.or_eq_true, beq_iff_eq]

theorem readcom_loop_eq_spec (under : Char) (k : Nat) (buf : List Char) (tot maxlen : Nat)
    (w : World) (hLF : under ≠ LF) (hCR : under ≠ CR) (hk : 0 < k) (ht : tot ≤ buf.length) :
    (readcom_loop under k buf tot maxlen w).1 = (readcom_spec k (buf.take tot) maxlen w).1 ∧
    (readcom_loop under k buf tot maxlen w).2.2 = (readcom_spec k (buf.take tot) maxlen w).2.2 ∧
    ((readcom_loop under k buf tot maxlen w).1 ≠ -1 →
      (readcom_loop under k buf tot maxlen w).2.1 =
        (readcom_spec k (buf.take tot) maxlen w).2.1) := by
  induction k generalizing buf tot maxlen w with
  | zero => exact absurd hk (Nat.lt_irrefl 0)
  | succ k ih =>
    unfold readcom_loop readcom_spec
    simp only
    cases hr : w.reads w.nread with
    | none => simp
    | some chunk =>
      simp only
      have hl : (List.take tot buf ++ List.take maxlen chunk).length =
          tot + (List.take maxlen chunk).length := by
        rw [List.length_append, List.length_take, Nat.min_eq_left ht]
      have he := eol_seen_eq under (List.take tot buf ++ List.take maxlen chunk) hLF hCR
      rw [hl] at he
      by_cases hq : (List.take tot buf ++ List.take maxlen chunk).getLast? = some LF ∨
          (List.take tot buf ++ List.take maxlen chunk).getLast? = some CR
      · rw [if_pos (he.2 hq), if_pos hq, hl]
        simp
      · have he2 : ¬ eol_seen under (List.take tot buf ++ List.take maxlen chunk)
            (tot + (List.take maxlen chunk).length) = true := fun h => hq (he.1 h)
        rw [if_neg he2, if_neg hq]
        by_cases hk0 : k = 0
        · rw [if_pos hk0, if_pos hk0, hl]
          simp
        · rw [if_neg hk0, if_neg hk0]
          have := ih (List.take tot buf ++ List.take maxlen chunk)
            (tot + (List.take maxlen chunk).length) (maxlen - (List.take maxlen chunk).length)
            { w with nread := w.nread + 1 } (Nat.pos_of_ne_zero hk0) (by rw [hl])
          rw [← hl, List.take_length] at this
          rw [← hl]
          exact this

theorem readcom_eq_spec (env : Env) (buf0 : List Char) (maxlen maxtry : Nat) (w : World)
    (hLF : env.under ≠ LF) (hCR : env.under ≠ CR) (hk : 0 < maxtry) :
    (readcom env buf0 maxlen maxtry w).1 = (readcom_spec maxtry [] maxlen w).1 ∧
    (readcom env buf0 maxlen maxtry w).2.2 = (readcom_spec maxtry [] maxlen w).2.2 ∧
    ((readcom env buf0 maxlen maxtry w).1 ≠ -1 →
      (readcom env buf0 maxlen maxtry w).2.1 = (readcom_spec maxtry [] maxlen w).2.1) := by
  have := readcom_loop_eq_spec env.under maxtry buf0 0 maxlen w hLF hCR hk (Nat.zero_le _)
  simpa [readcom] using this

theorem readcom_eq_spec_demo :
    (readcom (demo_env []) [] 256 12 (demo_world ["", "1 2 + ok\n"])).1 = 9 ∧
    (readcom (demo_env []) [] 256 12 (demo_world ["", "1 2 + ok\n"])).2.2.nread = 2 := by
  decide

/-- C21 fails on the code: when the first read delivers no byte, the end test of
`readcom` looks at the byte in front of the buffer (`buf[totread - 1]` with
`totread` 0). With a line feed there, `readcom` returns 0 after one read, although
no data ending in CR or LF has been read and 11 reads are left; by the claim it
reads once more and returns the 9 bytes of the reply. -/
theorem readcom_reads_before_buffer :
    (readcom { demo_env [] with under := LF } [] 256 12
      (demo_world ["", "1 2 + ok\n"])).1 = 0 ∧
    (readcom { demo_env [] with under := LF } [] 256 12
      (demo_world ["", "1 2 + ok\n"])).2.2.nread = 1 ∧
    (readcom_spec 12 [] 256 (demo_world ["", "1 2 + ok\n"])).1 = 9 ∧
    (readcom_spec 12 [] 256 (demo_world ["", "1 2 + ok\n"])).2.2.nread = 2 := by
  decide

/-! ### beautify of escom.c -/

theorem pad_loop_eq (k : Nat) (buf : Str) (lenok margin : Nat) :
    pad_loop k buf lenok margin =
      buf ++ List.replicate (min k (margin - (buf.length + lenok))) (Char.ofNat 32) := by
  induction k generalizing buf with
  | zero => simp [pad_loop]
  | succ k ih =>
    unfold pad_loop
    split
    · rename_i h
      rw [ih]
      have h1 : (buf ++ [Char.ofNat 32]).length = buf.length + 1 := by simp
      rw [h1]
      have h2 : min (k + 1) (margin - (buf.length + lenok)) =
          min k (margin - (buf.length + 1 + lenok)) + 1 := by omega
      rw [h2, List.replicate_succ, List.append_assoc]
      rfl
    · rename_i h
      have h2 : min (k + 1) (margin - (buf.length + lenok)) = 0 := by omega
      rw [h2]
      simp

theorem beautify_some (chk : Str → Option Nat) (buf : Str) (margin p : Nat)
    (h : chk buf = some p) (hp : p ≤ buf.length) :
    beautify chk buf margin =
      buf.take p ++ List.replicate (margin - buf.length) (Char.ofNat 32) ++ buf.drop p := by
  unfold beautify
  simp only [h]
  rw [pad_loop_eq]
  have h1 : (List.take p buf).length + (List.drop p buf).length = buf.length := by
    rw [List.length_take, List.length_drop]; omega
  rw [h1, Nat.min_eq_right (Nat.sub_le _ _)]

theorem beautify_none (chk : Str → Option Nat) (buf : Str) (margin : Nat)
    (h : chk buf = none) : beautify chk buf margin = buf := by
  unfold beautify
  simp only [h]

theorem check_ok_stm8e_le (buf : Str) (p : Nat) (h : check_ok_stm8e buf = some p) :
    p = buf.length - 3 ∧ 3 ≤ buf.length := by
  unfold check_ok_stm8e at h
  split at h
  · simp at h
  · rename_i h3
    simp only at h
    split at h
    · simp at h
    · simp only [Option.some.injEq] at h
      exact ⟨h.symm, by omega⟩

theorem check_ok_mecrisp_le (buf : Str) (p : Nat) (h : check_ok_mecrisp buf = some p) :
    p = buf.length - 4 ∧ 4 ≤ buf.length := by
  unfold check_ok_mecrisp at h
  split at h
  · simp at h
  · rename_i h3
    simp only at h
    split at h
    · simp at h
    · simp only [Option.some.injEq] at h
      exact ⟨h.symm, by omega⟩

theorem ok_chk_le (target buf : Str) (p : Nat) (h : ok_chk target buf = some p) :
    p ≤ buf.length := by
  unfold ok_chk at h
  split at h
  · have := check_ok_mecrisp_le buf p h; omega
  · have := check_ok_stm8e_le buf p h; omega

theorem mem_of_mem_beautify (chk : Str → Option Nat) (buf : Str) (margin : Nat) (c : Char)
    (h : c ∈ beautify chk buf margin) : c ∈ buf ∨ c = Char.ofNat 32 := by
  unfold beautify at h
  split at h
  · rename_i p _
    simp only at h
    rw [pad_loop_eq] at h
    rcases List.mem_append.1 h with h1 | h1
    · rcases List.mem_append.1 h1 with h2 | h2
      · exact Or.inl (List.mem_of_mem_take h2)
      · exact Or.inr (List.eq_of_mem_replicate h2)
    · exact Or.inl (List.mem_of_mem_drop h1)
  · exact Or.inl h

/-- C26: when the active ok check matches at position `p` of the line, `beautify`
yields the text in front of `p`, then spaces, then the text from `p` on, with the
total length max (length of the line, margin); for a line `prefix ++ marker` that
is the prefix, the spaces and the marker, both unchanged. When the check does not
match, the line is unchanged. -/
theorem beautify_spec (target buf : Str) (margin : Nat) :
    (∀ p, ok_chk target buf = some p →
      beautify (ok_chk target) buf margin =
        buf.take p ++ List.replicate (margin - buf.length) (Char.ofNat 32) ++ buf.drop p ∧
      (beautify (ok_chk target) buf margin).length = max buf.length margin) ∧
    (ok_chk target buf = none → beautify (ok_chk target) buf margin = buf) ∧
    (∀ pre o k, strcasecmp target "mecrisp".toList = false → buf = pre ++ [o, k, LF] →
      (o = Char.ofNat 111 ∨ o = Char.ofNat 79) → (k = Char.ofNat 107 ∨ k = Char.ofNat 75) →
      beautify (ok_chk target) buf margin =
        pre ++ List.replicate (margin - buf.length) (Char.ofNat 32) ++ [o, k, LF]) ∧
    (∀ pre o k, strcasecmp target "mecrisp".toList = true →
      buf = pre ++ [o, k, Char.ofNat 46, LF] →
      (o = Char.ofNat 111 ∨ o = Char.ofNat 79) → (k = Char.ofNat 107 ∨ k = Char.ofNat 75) →
      beautify (ok_chk target) buf margin =
        pre ++ List.replicate (margin - buf.length) (Char.ofNat 32) ++
          [o, k, Char.ofNat 46, LF]) := by
  refine ⟨?_, beautify_none _ buf margin, ?_, ?_⟩
  · intro p hp
    have hle := ok_chk_le target buf p hp
    have heq := beautify_some (ok_chk target) buf margin p hp hle
    refine ⟨heq, ?_⟩
    rw [heq]
    simp only [List.length_append, List.length_take, List.length_replicate, List.length_drop]
    omega
  · intro pre o k ht hbuf ho hk
    have hchk : ok_chk target = check_ok_stm8e := by
      unfold ok_chk; rw [ht]; rfl
    have hlen : 3 ≤ buf.length := by rw [hbuf]; simp
    have hends : endsWithOk buf := ⟨pre, o, k, hbuf, ho, hk⟩
    have hp := ((check_ok_stm8e_iff buf hlen).1).2 hends
    rw [hchk, beautify_some check_ok_stm8e buf margin _ hp (Nat.sub_le _ _)]
    have h3 : buf.length - 3 = pre.length := by rw [hbuf]; simp
    have h4 : buf.take pre.length = pre := by rw [hbuf]; simp
    have h5 : buf.drop pre.length = [o, k, LF] := by rw [hbuf]; simp
    rw [h3, h4, h5]
  · intro pre o k ht hbuf ho hk
    have hchk : ok_chk target = check_ok_mecrisp := by
      unfold ok_chk; rw [ht]; rfl
    have hlen : 4 ≤ buf.length := by rw [hbuf]; simp
    have hends : endsWithOkDot buf := ⟨pre, o, k, hbuf, ho, hk⟩
    have hp := ((check_ok_mecrisp_iff buf hlen).1).2 hends
    rw [hchk, beautify_some check_ok_mecrisp buf margin _ hp (Nat.sub_le _ _)]
    have h3 : buf.length - 4 = pre.length := by rw [hbuf]; simp
    have h4 : buf.take pre.length = pre := by rw [hbuf]; simp
    have h5 : buf.drop pre.length = [o, k, Char.ofNat 46, LF] := by rw [hbuf]; simp
    rw [h3, h4, h5]

theorem beautify_spec_witness :
    beautify (ok_chk "stm8ef".toList) "1 2 + ok\n".toList 12 = "1 2 +    ok\n".toList ∧
    beautify (ok_chk "mecrisp".toList) "1 2 + ok.\n".toList 12 = "1 2 +   ok.\n".toList ∧
    beautify (ok_chk "stm8ef".toList) "1 2 + ok\n".toList 5 = "1 2 + ok\n".toList ∧
    beautify (ok_chk "stm8ef".toList) "foo ?\n".toList 12 = "foo ?\n".toList :=
  ⟨(beautify_spec "stm8ef".toList "1 2 + ok\n".toList 12).2.2.1 "1 2 + ".toList
      (Char.ofNat 111) (Char.ofNat 107) (by decide) (by decide) (Or.inl rfl) (Or.inl rfl),
   (beautify_spec "mecrisp".toList "1 2 + ok.\n".toList 12).2.2.2 "1 2 + ".toList
      (Char.ofNat 111) (Char.ofNat 107) (by decide) (by decide) (Or.inl rfl) (Or.inl rfl),
   (beautify_spec "stm8ef".toList "1 2 + ok\n".toList 5).2.2.1 "1 2 + ".toList
      (Char.ofNat 111) (Char.ofNat 107) (by decide) (by decide) (Or.inl rfl) (Or.inl rfl),
   (beautify_spec "stm8ef".toList "foo ?\n".toList 12).2.1 (by decide)⟩

/-! ### A read that ends without data or without terminator -/

theorem beautify_no_bel (chk : Str → Option Nat) (buf : Str) (margin : Nat)
    (h : strchr buf BEL = false) : strchr (beautify chk buf margin) BEL = false := by
  cases hb : strchr (beautify chk buf margin) BEL with
  | false => rfl
  | true =>
    rcases mem_of_mem_beautify chk buf margin BEL ((strchr_iff _ _).1 hb) with h1 | h1
    · rw [(strchr_iff _ _).2 h1] at h
      exact absurd h (by simp)
    · exact absurd h1 (by decide)

/-- C22 (amended): when the read for an ordinary line ends without any reply data
(or fails), the loop of `include_file` goes on with the next line, with `result`
and the margin as they were; when it ends with data, with or without terminator,
and the data holds no BEL, the loop goes on with the next line as well, with
`result` as it was. The line has been written in both cases. -/
theorem timeout_continues (env : Env)
    (incl : Str → Bool → World → Except Fault (Bool × World))
    (raw : Str) (rest : List Str) (s : Loop) (hord : ordinary raw = true) :
    ((line_reply env raw s).1 ≤ 0 →
      stream env incl (raw :: rest) s =
        stream env incl rest { s with w := (line_reply env raw s).2.2 }) ∧
    (0 < (line_reply env raw s).1 →
      strchr (strz (line_reply env raw s).2.1) BEL = false →
      stream env incl (raw :: rest) s =
        stream env incl rest { s with
          margin := new_margin s.margin (line_reply env raw s).1,
          w := (line_reply env raw s).2.2 }) ∧
    (line_reply env raw s).2.2.sent = s.w.sent ++ [ordinary_cmd raw] := by
  refine ⟨?_, ?_, line_reply_sent env raw s⟩
  · intro hn
    rw [stream_cons, do_line_ordinary env incl raw s hord, if_neg (by omega)]
  · intro hn hb
    rw [stream_cons, do_line_ordinary env incl raw s hord, if_pos hn,
      beautify_no_bel _ _ _ hb]
    rfl

theorem timeout_continues_witness :
    (line_reply (demo_env []) "1 2 +\n".toList
      { margin := 85, result := true, w := demo_world [] }).1 ≤ 0 ∧
    stream (demo_env []) (include_file (demo_env []) 0) ["1 2 +\n".toList, "3 4 +\n".toList]
        { margin := 85, result := true, w := demo_world [] } =
      stream (demo_env []) (include_file (demo_env []) 0) ["3 4 +\n".toList]
        { margin := 85, result := true,
          w := (line_reply (demo_env []) "1 2 +\n".toList
            { margin := 85, result := true, w := demo_world [] }).2.2 } :=
  ⟨by decide,
   (timeout_continues (demo_env []) (include_file (demo_env []) 0) "1 2 +\n".toList
      ["3 4 +\n".toList] { margin := 85, result := true, w := demo_world [] }
      (by decide)).1 (by decide)⟩

/-- C22, as stated, fails: against a target that sends nothing, and against a
target whose reply has no terminator, `include_file` sends the next line of the
file and returns success. -/
theorem timeout_not_failure :
    (line_reply (demo_env []) "1 2 +\n".toList
      { margin := 85, result := true, w := demo_world [] }).1 = 0 ∧
    result_of (include_file (demo_env [("a.fs", "1 2 +\n3 4 +\n")]) 1 "a.fs".toList false
      (demo_world [])) = some true ∧
    sent_of (include_file (demo_env [("a.fs", "1 2 +\n3 4 +\n")]) 1 "a.fs".toList false
      (demo_world [])) = some ["1 2 +\r".toList, "3 4 +\r".toList] ∧
    (line_reply (demo_env []) "1 2 +\n".toList
      { margin := 85, result := true, w := demo_world ["1 2 + ok"] }).1 = 8 ∧
    (line_reply (demo_env []) "1 2 +\n".toList
      { margin := 85, result := true, w := demo_world ["1 2 + ok"] }).2.2.nread = 12 ∧
    result_of (include_file (demo_env [("a.fs", "1 2 +\n3 4 +\n")]) 1 "a.fs".toList false
      (demo_world ["1 2 + ok"])) = some true ∧
    sent_of (include_file (demo_env [("a.fs", "1 2 +\n3 4 +\n")]) 1 "a.fs".toList false
      (demo_world ["1 2 + ok"])) = some ["1 2 +\r".toList, "3 4 +\r".toList] := by
  refine ⟨?_, ?_, ?_, ?_, ?_, ?_, ?_⟩ <;> decide

/-! ### Depth of the recursion of include_file -/

theorem include_file_skipped (env : Env) (fuel : Nat) (filename : Str) (w : World)
    (content : List Char)
    (hopen : (search_file env filename).bind env.fopen = some content)
    (hprobe : (forth_check env (probe_cmd (probe_word filename)) w).1 = true) :
    include_file env (fuel + 1) filename true w =
      .ok (true, (forth_check env (probe_cmd (probe_word filename)) w).2) := by
  unfold include_file
  simp only [hopen, if_true, hprobe]

theorem include_file_closed_last (env : Env) (filename : Str) (conditional : Bool)
    (w : World) (h : (search_file env filename).bind env.fopen = none) :
    include_file env 0 filename conditional w = .ok (false, w) := by
  unfold include_file
  simp only [h]

theorem include_file_skipped_last (env : Env) (filename : Str) (w : World)
    (content : List Char)
    (hopen : (search_file env filename).bind env.fopen = some content)
    (hprobe : (forth_check env (probe_cmd (probe_word filename)) w).1 = true) :
    include_file env 0 filename true w =
      .ok (true, (forth_check env (probe_cmd (probe_word filename)) w).2) := by
  unfold include_file
  simp only [hopen, if_true, hprobe]

theorem include_file_last (env : Env) (filename : Str) (conditional : Bool)
    (w : World) (content : List Char)
    (hopen : (search_file env filename).bind env.fopen = some content)
    (hprobe : conditional = true →
      (forth_check env (probe_cmd (probe_word filename)) w).1 = false) :
    include_file env 0 filename conditional w =
      last_result env (fgets_all 256 content [])
        (start_world env filename conditional w) := by
  unfold include_file last_result start_world
  simp only [hopen]
  cases conditional with
  | false =>
    simp only [Bool.false_eq_true, if_false]
  | true =>
    have hp := hprobe rfl
    simp only [if_true, hp, Bool.false_eq_true, if_false]

theorem drop_after_last (c : Char) (f : Str) (j : Nat) (h : strrchr f c = some j) :
    c ∉ f.drop (j + 1) ∧ ∃ a, f = a ++ c :: f.drop (j + 1) := by
  obtain ⟨_, a, b, hf, hl, hb⟩ := strrchrFrom_some c 0 j f h
  simp only [Nat.sub_zero] at hl
  have hd : f.drop (j + 1) = b := by
    rw [hf, ← hl]
    have : a ++ c :: b = (a ++ [c]) ++ b := by simp
    rw [this]
    have h2 : a.length + 1 = (a ++ [c]).length := by simp
    rw [h2, List.drop_left]
  rw [hd]
  exact ⟨hb, a, hf⟩

theorem probe_word_props (f : Str) :
    BSL ∉ probe_word f ∧
    (BSL ∉ f → SLASH ∉ probe_word f) ∧
    (BSL ∉ f → SLASH ∉ f → probe_word f = f) := by
  unfold probe_word
  cases hb : strrchr f BSL with
  | some j =>
    have hin : BSL ∈ f := by
      by_contra hn
      rw [strrchr, (strrchrFrom_none BSL 0 f).2 hn] at hb
      exact absurd hb (by simp)
    refine ⟨(drop_after_last BSL f j hb).1, fun h => absurd hin h, fun h => absurd hin h⟩
  | none =>
    have hnb : BSL ∉ f := (strrchrFrom_none BSL 0 f).1 hb
    cases hs : strrchr f SLASH with
    | some j =>
      have hin : SLASH ∈ f := by
        by_contra hn
        rw [strrchr, (strrchrFrom_none SLASH 0 f).2 hn] at hs
        exact absurd hs (by simp)
      refine ⟨fun h => hnb (List.mem_of_mem_drop h), fun _ => (drop_after_last SLASH f j hs).1,
        fun _ h => absurd hin h⟩
    | none => exact ⟨hnb, fun _ => (strrchrFrom_none SLASH 0 f).1 hs, fun _ _ => rfl⟩

/-- C24 fails on the code: for the path `lib\sub/word.fs`, whose last separator is
the slash, the word of the probe is `sub/word.fs`: it holds a separator and is
not the bare file name `word.fs`. The probe of the conditional inclusion of this
file is `' sub/word.fs DROP`. -/
theorem probe_word_mixed_separators :
    probe_word "lib\\sub/word.fs".toList = "sub/word.fs".toList ∧
    SLASH ∈ probe_word "lib\\sub/word.fs".toList ∧
    probe_word "lib/sub/word.fs".toList = "word.fs".toList ∧
    sent_of (include_file (demo_env [("lib\\sub/word.fs", "1 2 +\n")]) 1
      "lib\\sub/word.fs".toList true (demo_world ["ok\n"])) =
        some ["' sub/word.fs DROP\r".toList] := by
  refine ⟨?_, ?_, ?_, ?_⟩ <;> decide

/-! ### The display margin -/

theorem new_margin_eq (m : Nat) (n : Int) : new_margin m n = max m n.toNat := by
  unfold new_margin
  split
  · rename_i h
    have : m ≤ n.toNat := by omega
    rw [Nat.max_eq_right this]
  · rename_i h
    have : n.toNat ≤ m := by omega
    rw [Nat.max_eq_left this]

theorem foldl_max_init (l : List Int) (m : Nat) :
    l.foldl (fun m n => max m n.toNat) m = max m (l.foldl (fun m n => max m n.toNat) 0) := by
  induction l generalizing m with
  | nil => simp
  | cons n l ih =>
    simp only [List.foldl_cons]
    rw [ih (max m n.toNat), ih (max 0 n.toNat)]
    simp only [Nat.zero_max, Nat.max_assoc]

theorem longest_nil : longest [] = 0 := rfl

theorem longest_append (a b : List Int) : longest (a ++ b) = max (longest a) (longest b) := by
  unfold longest
  rw [List.foldl_append, foldl_max_init]

theorem longest_single (n : Int) : longest [n] = n.toNat := by
  simp [longest]

theorem do_line_other_margin (env : Env)
    (incl : Str → Bool → World → Except Fault (Bool × World))
    (raw : Str) (s s1 : Loop) (hord : ordinary raw = false)
    (h : do_line env incl raw s = .ok (.cont s1) ∨ do_line env incl raw s = .ok (.brk s1)) :
    s1.margin = s.margin := by
  unfold do_line at h
  split at h
  · rcases h with h | h
    · simp only [Except.ok.injEq, Next.cont.injEq] at h; rw [← h]
    · simp at h
  · rename_i hlen
    simp only at h
    split at h
    · rcases h with h | h
      · simp at h
      · simp only [Except.ok.injEq, Next.brk.injEq] at h; rw [← h]
    · split at h
      · split at h
        · simp at h
        · split at h
          · rcases h with h | h
            · simp at h
            · simp only [Except.ok.injEq, Next.brk.injEq] at h; rw [← h]
          · rcases h with h | h
            · simp only [Except.ok.injEq, Next.cont.injEq] at h; rw [← h]
            · simp at h
      · split at h
        · rcases h with h | h
          · simp only [Except.ok.injEq, Next.cont.injEq] at h; rw [← h]
          · simp at h
        · rename_i hhead
          split at h
          · split at h
            · split at h
              · simp at h
              · split at h
                · rcases h with h | h
                  · simp at h
                  · simp only [Except.ok.injEq, Next.brk.injEq] at h; rw [← h]
                · rcases h with h | h
                  · simp only [Except.ok.injEq, Next.cont.injEq] at h; rw [← h]
                  · simp at h
            · rcases h with h | h
              · simp only [Except.ok.injEq, Next.cont.injEq] at h; rw [← h]
              · simp at h
          · rename_i hdir
            exfalso
            simp only [Bool.or_eq_true, not_or, Bool.not_eq_true] at hdir
            have : ordinary raw = true := by
              unfold ordinary
              simp only [Bool.and_eq_true, decide_eq_true_eq, Bool.not_eq_true']
              refine ⟨⟨⟨by omega, ?_⟩, hdir.1⟩, hdir.2⟩
              simpa using hhead
            rw [this] at hord
            exact absurd hord (by simp)

theorem do_line_ordinary_margin (env : Env)
    (incl : Str → Bool → World → Except Fault (Bool × World))
    (raw : Str) (s s1 : Loop) (hord : ordinary raw = true)
    (h : do_line env incl raw s = .ok (.cont s1) ∨ do_line env incl raw s = .ok (.brk s1)) :
    s1.margin = max s.margin ((line_reply env raw s).1).toNat := by
  rw [do_line_ordinary env incl raw s hord] at h
  split at h
  · split at h
    · rcases h with h | h
      · simp at h
      · simp only [Except.ok.injEq, Next.brk.injEq] at h
        rw [← h, ← new_margin_eq]
    · rcases h with h | h
      · simp only [Except.ok.injEq, Next.cont.injEq] at h
        rw [← h, ← new_margin_eq]
      · simp at h
  · rename_i hn
    have : ((line_reply env raw s).1).toNat = 0 := by omega
    rw [this, Nat.max_zero]
    rcases h with h | h
    · simp only [Except.ok.injEq, Next.cont.injEq] at h
      rw [← h]
    · simp at h

theorem do_line_margin (env : Env)
    (incl : Str → Bool → World → Except Fault (Bool × World))
    (raw : Str) (s s1 : Loop)
    (h : do_line env incl raw s = .ok (.cont s1) ∨ do_line env incl raw s = .ok (.brk s1)) :
    s1.margin = max s.margin
      (longest (if ordinary raw then [(line_reply env raw s).1] else [])) := by
  cases hord : ordinary raw with
  | true =>
    simp only [if_true, longest_single]
    exact do_line_ordinary_margin env incl raw s s1 hord h
  | false =>
    simp only [Bool.false_eq_true, if_false, longest_nil, Nat.max_zero]
    exact do_line_other_margin env incl raw s s1 hord h

theorem replies_cons (env : Env) (incl : Str → Bool → World → Except Fault (Bool × World))
    (raw : Str) (rest : List Str) (s : Loop) :
    replies env incl (raw :: rest) s =
      match do_line env incl raw s with
      | .ok (.cont s1) =>
        (if ordinary raw then [(line_reply env raw s).1] else []) ++ replies env incl rest s1
      | _ => if ordinary raw then [(line_reply env raw s).1] else [] := rfl

theorem stream_margin (env : Env)
    (incl : Str → Bool → World → Except Fault (Bool × World))
    (lines : List Str) (s s1 : Loop) (h : stream env incl lines s = .ok s1) :
    s1.margin = max s.margin (longest (replies env incl lines s)) := by
  induction lines generalizing s with
  | nil =>
    simp only [stream, Except.ok.injEq] at h
    rw [← h]
    simp [replies, longest]
  | cons raw rest ih =>
    rw [stream_cons] at h
    rw [replies_cons]
    cases hd : do_line env incl raw s with
    | error f => rw [hd] at h; simp at h
    | ok nx =>
      cases nx with
      | brk s2 =>
        rw [hd] at h
        simp only [Except.ok.injEq] at h
        subst h
        exact do_line_margin env incl raw s s2 (Or.inr hd)
      | cont s2 =>
        rw [hd] at h
        simp only at h
        rw [ih s2 h, do_line_margin env incl raw s s2 (Or.inl hd), longest_append,
          Nat.max_assoc]

/-- C25: in the loop of one `include_file` invocation the margin starts at 85;
after the reply to an ordinary line it is max (margin before, bytes of the reply),
after any other line, an inclusion directive with its recursive call included, it
is what it was; so it never decreases and, at the end of any run of lines, it is
max (margin at the start, longest reply read in that run). -/
theorem margin_spec (env : Env)
    (incl : Str → Bool → World → Except Fault (Bool × World))
    (lines : List Str) (s s1 : Loop) (h : stream env incl lines s = .ok s1) :
    s1.margin = max s.margin (longest (replies env incl lines s)) ∧
    s.margin ≤ s1.margin ∧
    (∀ raw s2, ordinary raw = true →
      (do_line env incl raw s = .ok (.cont s2) ∨ do_line env incl raw s = .ok (.brk s2)) →
      s2.margin = max s.margin ((line_reply env raw s).1).toNat) ∧
    (∀ raw s2, ordinary raw = false →
      (do_line env incl raw s = .ok (.cont s2) ∨ do_line env incl raw s = .ok (.brk s2)) →
      s2.margin = s.margin) ∧
    (∀ fuel filename conditional w content,
      (search_file env filename).bind env.fopen = some content →
      (conditional = true →
        (forth_check env (probe_cmd (probe_word filename)) w).1 = false) →
      include_file env (fuel + 1) filename conditional w =
        (stream env (include_file env fuel) (fgets_all 256 content [])
          { margin := 85, result := true,
            w := start_world env filename conditional w }).map
          (fun s => (s.result, s.w))) := by
  have hm := stream_margin env incl lines s s1 h
  refine ⟨hm, by rw [hm]; exact Nat.le_max_left _ _,
    fun raw s2 hord hd => do_line_ordinary_margin env incl raw s s2 hord hd,
    fun raw s2 hord hd => do_line_other_margin env incl raw s s2 hord hd, ?_⟩
  intro fuel filename conditional w content hopen hprobe
  rw [include_file_streams env fuel filename conditional w content hopen hprobe]
  unfold stream_result
  cases stream env (include_file env fuel) (fgets_all 256 content [])
    { margin := 85, result := true, w := start_world env filename conditional w } <;> rfl

theorem margin_spec_witness :
    stream (demo_env []) (include_file (demo_env []) 0) ["1 2 +\n".toList, "3 4 +\n".toList]
        { margin := 5, result := true, w := demo_world ["1 2 + ok\n", "3 4 + ok\n"] } =
      .ok { margin := 9, result := true,
            w := { sent := ["1 2 +\r".toList, "3 4 +\r".toList],
                   reads := (demo_world ["1 2 + ok\n", "3 4 + ok\n"]).reads,
                   nread := 2, dict := [] } } ∧
    replies (demo_env []) (include_file (demo_env []) 0) ["1 2 +\n".toList, "3 4 +\n".toList]
      { margin := 5, result := true, w := demo_world ["1 2 + ok\n", "3 4 + ok\n"] } = [9, 9] ∧
    (9 : Nat) = max 5 (longest (replies (demo_env []) (include_file (demo_env []) 0)
      ["1 2 +\n".toList, "3 4 +\n".toList]
      { margin := 5, result := true, w := demo_world ["1 2 + ok\n", "3 4 + ok\n"] })) :=
  ⟨rfl, by decide,
   (margin_spec (demo_env []) (include_file (demo_env []) 0)
      ["1 2 +\n".toList, "3 4 +\n".toList]
      { margin := 5, result := true, w := demo_world ["1 2 + ok\n", "3 4 + ok\n"] }
      { margin := 9, result := true,
        w := { sent := ["1 2 +\r".toList, "3 4 +\r".toList],
               reads := (demo_world ["1 2 + ok\n", "3 4 + ok\n"]).reads,
               nread := 2, dict := [] } } rfl).1⟩

/-! ### What the Sending step writes -/

theorem fgets_all_lf (size : Nat) (content : List Char) (cur : Str) (hcur : LF ∉ cur) :
    ∀ raw ∈ fgets_all size content cur, LF ∉ raw.dropLast := by
  induction content generalizing cur with
  | nil =>
    intro raw hraw
    unfold fgets_all at hraw
    split at hraw
    · simp at hraw
    · simp only [List.mem_singleton] at hraw
      subst hraw
      exact fun h => hcur (List.mem_of_mem_dropLast h)
  | cons c cs ih =>
    intro raw hraw
    rw [fgets_all_cons] at hraw
    split at hraw
    · rcases List.mem_cons.1 hraw with h | h
      · subst h
        rw [List.dropLast_concat]
        exact hcur
      · exact ih [] (by simp) raw h
    · rename_i hc
      simp only [Bool.or_eq_true, beq_iff_eq, decide_eq_true_eq, not_or] at hc
      apply ih (cur ++ [c]) _ raw hraw
      intro hm
      rcases List.mem_append.1 hm with h | h
      · exact hcur h
      · simp only [List.mem_singleton] at h
        exact hc.1 h.symm

theorem strz_dropLast_lf (raw : Str) (h : LF ∉ raw.dropLast) : LF ∉ (strz raw).dropLast := by
  obtain ⟨r, hr⟩ : strz raw <+: raw := List.takeWhile_prefix _
  rcases List.eq_nil_or_concat r with h1 | ⟨r1, x, h1⟩
  · subst h1
    rw [List.append_nil] at hr
    rw [hr]; exact h
  · subst h1
    intro hm
    apply h
    rw [← hr, List.concat_eq_append, ← List.append_assoc, List.dropLast_concat]
    exact List.mem_append_left _ (List.mem_of_mem_dropLast hm)

theorem normalize_props (line : Str) (h : LF ∉ line.dropLast) :
    LF ∉ normalize line ∧ (normalize line).getLast? = some CR := by
  unfold normalize
  split
  · refine ⟨?_, by simp⟩
    intro hm
    rcases List.mem_append.1 hm with h1 | h1
    · exact h h1
    · simp only [List.mem_singleton] at h1
      exact absurd h1 (by decide)
  · rename_i hl
    refine ⟨?_, by simp⟩
    intro hm
    rcases List.mem_append.1 hm with h1 | h1
    · rcases List.eq_nil_or_concat line with h2 | ⟨l, x, h2⟩
      · subst h2; simp at h1
      · subst h2
        rw [List.concat_eq_append] at h1 hl h
        rw [List.dropLast_concat] at h
        rcases List.mem_append.1 h1 with h3 | h3
        · exact h h3
        · simp only [List.mem_singleton] at h3
          subst h3
          simp at hl
    · simp only [List.mem_singleton] at h1
      exact absurd h1 (by decide)

theorem strip_spec_keeps (line : Str) (c : Char) (hc : c ∉ line) : c ∉ strip_spec line ∨ c = CR := by
  unfold strip_spec
  split
  · by_cases hcr : c = CR
    · exact Or.inr hcr
    · left
      intro hm
      rcases List.mem_append.1 hm with h1 | h1
      · exact hc ((List.takeWhile_sublist _).subset h1)
      · simp only [List.mem_singleton] at h1
        exact hcr h1
  · exact Or.inl hc

theorem strip_spec_last (line : Str) (h : line.getLast? = some CR) :
    (strip_spec line).getLast? = some CR := by
  unfold strip_spec
  split
  · simp
  · exact h

theorem ordinary_head (raw : Str) (hord : ordinary raw = true) :
    (normalize (strz raw)).head? ≠ some BSL := by
  simp only [ordinary, Bool.and_eq_true, decide_eq_true_eq, Bool.not_eq_true',
    beq_eq_false_iff_ne, ne_eq] at hord
  exact hord.1.1.2

theorem ordinary_cmd_props (raw : Str) (hlf : LF ∉ raw.dropLast) (hord : ordinary raw = true) :
    ordinary_cmd raw ≠ [] ∧ (ordinary_cmd raw).getLast? = some CR ∧
    LF ∉ ordinary_cmd raw ∧ BSL ∉ ordinary_cmd raw ∧
    (ordinary_cmd raw).head? ≠ some BSL := by
  have hhead := ordinary_head raw hord
  have hn := normalize_props (strz raw) (strz_dropLast_lf raw hlf)
  have heq : ordinary_cmd raw = strip_spec (normalize (strz raw)) :=
    strip_comment_eq _ hhead
  have hlast := strip_spec_last _ hn.2
  have hp : BSL ∉ strip_spec (normalize (strz raw)) ∧
      (strip_spec (normalize (strz raw))).head? = (normalize (strz raw)).head? := by
    rcases strip_spec_props (normalize (strz raw)) with h | h
    · exact h
    · exact absurd h hhead
  rw [heq]
  refine ⟨?_, hlast, ?_, hp.1, by rw [hp.2]; exact hhead⟩
  · intro h
    rw [h] at hlast
    simp at hlast
  · rcases strip_spec_keeps _ LF hn.1 with h | h
    · exact h
    · exact absurd h (by decide)

theorem do_line_ordinary_sent (env : Env)
    (incl : Str → Bool → World → Except Fault (Bool × World))
    (raw : Str) (s s1 : Loop) (hord : ordinary raw = true)
    (h : do_line env incl raw s = .ok (.cont s1) ∨ do_line env incl raw s = .ok (.brk s1)) :
    s1.w.sent = s.w.sent ++ [ordinary_cmd raw] := by
  rw [do_line_ordinary env incl raw s hord] at h
  have hs := line_reply_sent env raw s
  split at h
  · split at h
    · rcases h with h | h
      · simp at h
      · simp only [Except.ok.injEq, Next.brk.injEq] at h
        rw [← h]; exact hs
    · rcases h with h | h
      · simp only [Except.ok.injEq, Next.cont.injEq] at h
        rw [← h]; exact hs
      · simp at h
  · rcases h with h | h
    · simp only [Except.ok.injEq, Next.cont.injEq] at h
      rw [← h]; exact hs
    · simp at h

theorem wrote_refl (w : World) : wrote_no_backslash w w := ⟨[], by simp, by simp⟩

theorem wrote_trans (w1 w2 w3 : World) (h1 : wrote_no_backslash w1 w2)
    (h2 : wrote_no_backslash w2 w3) : wrote_no_backslash w1 w3 := by
  obtain ⟨e1, hs1, hp1⟩ := h1
  obtain ⟨e2, hs2, hp2⟩ := h2
  refine ⟨e1 ++ e2, by rw [hs2, hs1, List.append_assoc], ?_⟩
  intro x hx
  rcases List.mem_append.1 hx with h | h
  · exact hp1 x h
  · exact hp2 x h

theorem wrote_one (w w1 : World) (x : Str) (hs : w1.sent = w.sent ++ [x])
    (hx : x.head? ≠ some BSL) : wrote_no_backslash w w1 :=
  ⟨[x], hs, by intro y hy; simp only [List.mem_singleton] at hy; subst hy; exact hx⟩

theorem handle_res_wrote (env : Env) (line : Str) (w : World) (r : Bool × World)
    (h : handle_res env line w = .ok r) : wrote_no_backslash w r.2 := by
  obtain ⟨extra, hs, hp⟩ := handle_res_sent env line w r h
  refine ⟨extra, hs, ?_⟩
  intro x hx
  rcases hp x hx with h1 | h1 <;> rw [h1] <;> decide

theorem do_line_wrote (env : Env)
    (incl : Str → Bool → World → Except Fault (Bool × World))
    (hincl : ∀ p c w r, incl p c w = .ok r → wrote_no_backslash w r.2)
    (raw : Str) (s s1 : Loop)
    (h : do_line env incl raw s = .ok (.cont s1) ∨ do_line env incl raw s = .ok (.brk s1)) :
    wrote_no_backslash s.w s1.w := by
  by_cases hord : ordinary raw = true
  · have hs := do_line_ordinary_sent env incl raw s s1 hord h
    refine wrote_one _ _ _ hs ?_
    have hhead := ordinary_head raw hord
    have heq : ordinary_cmd raw = strip_spec (normalize (strz raw)) :=
      strip_comment_eq _ hhead
    rcases strip_spec_props (normalize (strz raw)) with hp | hp
    · rw [heq, hp.2]; exact hhead
    · exact absurd hp hhead
  · by_cases hdir : directive raw = true
    · rw [do_line_directive env incl raw s hdir] at h
      have hw : wrote_no_backslash s.w (writecom (normalize (strz raw)) s.w) := by
        refine wrote_one _ _ _ rfl ?_
        simp only [directive, Bool.and_eq_true, decide_eq_true_eq, Bool.or_eq_true] at hdir
        rcases hdir.2 with h1 | h1
        · rw [head_of_startsWith _ _ _ h1]; decide
        · rw [head_of_startsWith _ _ _ h1]; decide
      cases ht : token (normalize (strz raw)) 1 with
      | none =>
        rw [ht] at h
        simp only at h
        rcases h with h | h
        · simp only [Except.ok.injEq, Next.cont.injEq] at h
          rw [← h]; exact hw
        · simp at h
      | some p =>
        rw [ht] at h
        simp only at h
        cases hi : incl p (startsWith (normalize (strz raw)) "#require".toList)
            (writecom (normalize (strz raw)) s.w) with
        | error f => rw [hi] at h; simp at h
        | ok r =>
          rw [hi] at h
          simp only at h
          have hr := hincl _ _ _ _ hi
          split at h
          · rcases h with h | h
            · simp at h
            · simp only [Except.ok.injEq, Next.brk.injEq] at h
              rw [← h]; exact wrote_trans _ _ _ hw hr
          · rcases h with h | h
            · simp only [Except.ok.injEq, Next.cont.injEq] at h
              rw [← h]; exact wrote_trans _ _ _ hw hr
            · simp at h
    · by_cases hres : res_directive raw = true
      · rw [do_line_res env incl raw s hres] at h
        cases hh : handle_res env (normalize (strz raw)) s.w with
        | error f => rw [hh] at h; simp at h
        | ok r =>
          rw [hh] at h
          simp only at h
          have hr := handle_res_wrote env _ _ r hh
          split at h
          · rcases h with h | h
            · simp at h
            · simp only [Except.ok.injEq, Next.brk.injEq] at h
              rw [← h]; exact hr
          · rcases h with h | h
            · simp only [Except.ok.injEq, Next.cont.injEq] at h
              rw [← h]; exact hr
            · simp at h
      · have hsame : s1.w = s.w := by
          unfold do_line at h
          split at h
          · rcases h with h | h
            · simp only [Except.ok.injEq, Next.cont.injEq] at h; rw [← h]
            · simp at h
          · rename_i hlen
            simp only at h
            split at h
            · rcases h with h | h
              · simp at h
              · simp only [Except.ok.injEq, Next.brk.injEq] at h; rw [← h]
            · split at h
              · rename_i hr
                exfalso
                apply hres
                simp only [res_directive, Bool.and_eq_true, decide_eq_true_eq]
                exact ⟨by omega, hr⟩
              · split at h
                · rcases h with h | h
                  · simp only [Except.ok.injEq, Next.cont.injEq] at h; rw [← h]
                  · simp at h
                · rename_i hhead
                  exfalso
                  split at h
                  · rename_i hd
                    apply hdir
                    simp only [directive, Bool.and_eq_true, decide_eq_true_eq]
                    exact ⟨by omega, hd⟩
                  · rename_i hd
                    apply hord
                    simp only [Bool.or_eq_true, not_or, Bool.not_eq_true] at hd
                    unfold ordinary
                    simp only [Bool.and_eq_true, decide_eq_true_eq, Bool.not_eq_true']
                    refine ⟨⟨⟨by omega, ?_⟩, hd.1⟩, hd.2⟩
                    simpa using hhead
        rw [hsame]
        exact wrote_refl _

theorem stream_wrote (env : Env)
    (incl : Str → Bool → World → Except Fault (Bool × World))
    (hincl : ∀ p c w r, incl p c w = .ok r → wrote_no_backslash w r.2)
    (lines : List Str) (s s1 : Loop) (h : stream env incl lines s = .ok s1) :
    wrote_no_backslash s.w s1.w := by
  induction lines generalizing s with
  | nil =>
    simp only [stream, Except.ok.injEq] at h
    rw [← h]; exact wrote_refl _
  | cons raw rest ih =>
    rw [stream_cons] at h
    cases hd : do_line env incl raw s with
    | error f => rw [hd] at h; simp at h
    | ok nx =>
      cases nx with
      | brk s2 =>
        rw [hd] at h
        simp only [Except.ok.injEq] at h
        subst h
        exact do_line_wrote env incl hincl raw s s2 (Or.inr hd)
      | cont s2 =>
        rw [hd] at h
        simp only at h
        exact wrote_trans _ _ _ (do_line_wrote env incl hincl raw s s2 (Or.inl hd)) (ih s2 h)

theorem include_file_wrote (env : Env) (fuel : Nat) :
    ∀ f c w r, include_file env fuel f c w = .ok r → wrote_no_backslash w r.2 := by
  induction fuel with
  | zero =>
    intro f c w r h
    cases ho : (search_file env f).bind env.fopen with
    | none =>
      rw [include_file_closed_last env f c w ho] at h
      simp only [Except.ok.injEq] at h
      rw [← h]; exact wrote_refl _
    | some content =>
      have hprobe_w : wrote_no_backslash w (forth_check env (probe_cmd (probe_word f)) w).2 :=
        wrote_one _ _ _ (forth_check_sent _ _ _) (by rw [probe_cmd_head]; decide)
      by_cases hskip : c = true ∧ (forth_check env (probe_cmd (probe_word f)) w).1 = true
      · obtain ⟨hc, hp⟩ := hskip
        subst hc
        rw [include_file_skipped_last env f w content ho hp] at h
        simp only [Except.ok.injEq] at h
        rw [← h]; exact hprobe_w
      · have hprobe : c = true → (forth_check env (probe_cmd (probe_word f)) w).1 = false := by
          intro hc
          cases hp : (forth_check env (probe_cmd (probe_word f)) w).1 with
          | false => rfl
          | true => exact absurd ⟨hc, hp⟩ hskip
        rw [include_file_last env f c w content ho hprobe] at h
        unfold last_result at h
        have hstart : wrote_no_backslash w (start_world env f c w) := by
          unfold start_world
          split
          · exact hprobe_w
          · exact wrote_refl _
        have hstub : ∀ (f2 : Str) (c2 : Bool) (w2 : World) (r2 : Bool × World),
            (fun (_ : Str) (_ : Bool) (w1 : World) =>
              (Except.ok (false, w1) : Except Fault (Bool × World))) f2 c2 w2 = .ok r2 →
            wrote_no_backslash w2 r2.2 := by
          intro f2 c2 w2 r2 h2
          simp only [Except.ok.injEq] at h2
          rw [← h2]; exact wrote_refl _
        cases hs : stream (no_file_left env) (fun _ _ w1 => .ok (false, w1))
            (fgets_all 256 content [])
            { margin := 85, result := true, w := start_world env f c w } with
        | error e => rw [hs] at h; simp at h
        | ok s1 =>
          rw [hs] at h
          simp only [Except.ok.injEq] at h
          rw [← h]
          exact wrote_trans _ _ _ hstart (stream_wrote (no_file_left env) _ hstub _ _ s1 hs)
  | succ n ih =>
    intro f c w r h
    cases ho : (search_file env f).bind env.fopen with
    | none =>
      rw [include_file_closed env n f c w ho] at h
      simp only [Except.ok.injEq] at h
      rw [← h]; exact wrote_refl _
    | some content =>
      have hprobe_w : wrote_no_backslash w (forth_check env (probe_cmd (probe_word f)) w).2 :=
        wrote_one _ _ _ (forth_check_sent _ _ _) (by rw [probe_cmd_head]; decide)
      by_cases hskip : c = true ∧ (forth_check env (probe_cmd (probe_word f)) w).1 = true
      · obtain ⟨hc, hp⟩ := hskip
        subst hc
        rw [include_file_skipped env n f w content ho hp] at h
        simp only [Except.ok.injEq] at h
        rw [← h]; exact hprobe_w
      · have hprobe : c = true → (forth_check env (probe_cmd (probe_word f)) w).1 = false := by
          intro hc
          cases hp : (forth_check env (probe_cmd (probe_word f)) w).1 with
          | false => rfl
          | true => exact absurd ⟨hc, hp⟩ hskip
        rw [include_file_streams env n f c w content ho hprobe] at h
        unfold stream_result at h
        have hstart : wrote_no_backslash w (start_world env f c w) := by
          unfold start_world
          split
          · exact hprobe_w
          · exact wrote_refl _
        cases hs : stream env (include_file env n) (fgets_all 256 content [])
            { margin := 85, result := true, w := start_world env f c w } with
        | error e => rw [hs] at h; simp at h
        | ok s1 =>
          rw [hs] at h
          simp only [Except.ok.injEq] at h
          rw [← h]
          exact wrote_trans _ _ _ hstart (stream_wrote env _ ih _ _ s1 hs)

/-- C27: an ordinary line that `include_file` sends is written as a string that
is not empty, ends in CR and holds neither LF nor a backslash; and no string that
`include_file` writes to the device, at any depth of inclusion, starts with a
backslash. -/
theorem sending_invariant (content : List Char) (raw : Str)
    (hraw : raw ∈ fgets_all 256 content []) (hord : ordinary raw = true) :
    ordinary_cmd raw ≠ [] ∧ (ordinary_cmd raw).getLast? = some CR ∧
    LF ∉ ordinary_cmd raw ∧ BSL ∉ ordinary_cmd raw ∧
    (∀ env incl s s1,
      (do_line env incl raw s = .ok (.cont s1) ∨ do_line env incl raw s = .ok (.brk s1)) →
      s1.w.sent = s.w.sent ++ [ordinary_cmd raw]) ∧
    (∀ env fuel f c w r, include_file env fuel f c w = .ok r → wrote_no_backslash w r.2) := by
  have hp := ordinary_cmd_props raw (fgets_all_lf 256 content [] (by simp) raw hraw) hord
  exact ⟨hp.1, hp.2.1, hp.2.2.1, hp.2.2.2.1,
    fun env incl s s1 h => do_line_ordinary_sent env incl raw s s1 hord h,
    fun env fuel => include_file_wrote env fuel⟩

theorem sending_invariant_witness :
    ordinary_cmd ": x 1 ; \\ one\n".toList = ": x 1 ; \r".toList ∧
    BSL ∉ ordinary_cmd ": x 1 ; \\ one\n".toList ∧
    LF ∉ ordinary_cmd ": x 1 ; \\ one\n".toList :=
  ⟨by decide,
   (sending_invariant "\\ c\n: x 1 ; \\ one\n".toList ": x 1 ; \\ one\n".toList (by decide)
      (by decide)).2.2.2.1,
   (sending_invariant "\\ c\n: x 1 ; \\ one\n".toList ": x 1 ; \\ one\n".toList (by decide)
      (by decide)).2.2.1⟩

/-! ### A target that sends nothing -/

theorem readcom_loop_silent (under : Char) (k : Nat) (buf : List Char) (maxlen : Nat)
    (w : World) (hk : 0 < k) (hw : silent w) :
    (readcom_loop under k buf 0 maxlen w).1 = 0 ∧
    (readcom_loop under k buf 0 maxlen w).2.1 = [] := by
  induction k generalizing buf maxlen w with
  | zero => exact absurd hk (Nat.lt_irrefl 0)
  | succ k ih =>
    unfold readcom_loop
    simp only [hw w.nread, List.take_nil, List.take_zero, List.append_nil, List.length_nil,
      Nat.add_zero, Nat.sub_zero]
    split
    · exact ⟨rfl, rfl⟩
    · split
      · exact ⟨rfl, rfl⟩
      · rename_i hk0
        exact ih [] maxlen { w with nread := w.nread + 1 } (Nat.pos_of_ne_zero hk0) hw

theorem check_reply_silent (env : Env) (teststr : Str) (w : World) (hw : silent w) :
    check_reply env teststr w = [] := by
  unfold check_reply readcom
  rw [(readcom_loop_silent env.under 12 env.junk 128 (writecom teststr w) (by decide) hw).2]
  rfl

theorem forth_check_silent (env : Env) (teststr : Str) (w : World) (hw : silent w) :
    (forth_check env teststr w).1 = true ∧ silent (forth_check env teststr w).2 ∧
    (forth_check env teststr w).2.sent = w.sent ++ [teststr] ∧
    (forth_check env teststr w).2.dict = w.dict := by
  refine ⟨?_, ?_, forth_check_sent env teststr w, forth_check_dict env teststr w⟩
  · rw [forth_check_result, check_reply_silent env teststr w hw]
    rfl
  · intro k
    have : (forth_check env teststr w).2.reads = w.reads :=
      (readcom_frame env env.junk 128 12 (writecom teststr w)).2.2
    rw [this]
    exact hw k

theorem export_loop_silent (env : Env) (syms : List Str) (w : World) (hw : silent w) :
    ∃ n, (export_loop env syms w).2.sent = w.sent ++ (syms.take n).map probe_cmd ∧
      ((∀ x ∈ syms, search_dict w.dict x ≠ none) →
        (export_loop env syms w).1 = true ∧ n = syms.length) := by
  induction syms generalizing w with
  | nil => exact ⟨0, by simp [export_loop], fun _ => ⟨rfl, rfl⟩⟩
  | cons x rest ih =>
    cases hs : search_dict w.dict x with
    | none =>
      rw [export_loop_absent env x rest w hs]
      refine ⟨0, by simp, ?_⟩
      intro hall
      exact absurd hs (hall x (List.mem_cons_self _ _))
    | some inx =>
      have hf := forth_check_silent env (probe_cmd x) w hw
      rw [export_loop_present env x rest w _ (search_dict_value _ _ _ hs), if_pos hf.1]
      obtain ⟨n, h1, h2⟩ := ih (forth_check env (probe_cmd x) w).2 hf.2.1
      refine ⟨n + 1, ?_, ?_⟩
      · rw [h1, hf.2.2.1]
        simp
      · intro hall
        have := h2 (by
          intro y hy
          rw [hf.2.2.2]
          exact hall y (List.mem_cons_of_mem _ hy))
        exact ⟨this.1, by rw [this.2]; rfl⟩

/-- C28: `forth_check` returns TRUE exactly when the reply in its buffer holds no
BEL. Against a target that sends nothing the reply is empty after at most 12 reads,
so `forth_check` returns TRUE: a conditional inclusion of a file that can be
opened sends the probe only and returns TRUE, and an export sends probes only,
one for each symbol up to the first that is not in the dictionary. -/
theorem silent_target (env : Env) (w : World) :
    (∀ t, (forth_check env t w).1 = true ↔ BEL ∉ check_reply env t w) ∧
    (silent w → ∀ t, check_reply env t w = [] ∧ (forth_check env t w).1 = true ∧
      (forth_check env t w).2.nread ≤ w.nread + 12) ∧
    (silent w → ∀ fuel F content, (search_file env F).bind env.fopen = some content →
      include_file env (fuel + 1) F true w =
        .ok (true, (forth_check env (probe_cmd (probe_word F)) w).2) ∧
      (forth_check env (probe_cmd (probe_word F)) w).2.sent =
        w.sent ++ [probe_cmd (probe_word F)]) ∧
    (silent w → ∀ syms, ∃ n,
      (export_loop env syms w).2.sent = w.sent ++ (syms.take n).map probe_cmd ∧
      ((∀ x ∈ syms, search_dict w.dict x ≠ none) →
        (export_loop env syms w).1 = true ∧ n = syms.length)) := by
  refine ⟨?_, ?_, ?_, fun hw syms => export_loop_silent env syms w hw⟩
  · intro t
    rw [forth_check_true_iff, ← strchr_iff]
    cases strchr (check_reply env t w) BEL <;> simp
  · intro hw t
    refine ⟨check_reply_silent env t w hw, (forth_check_silent env t w hw).1, ?_⟩
    exact (readcom_reads env env.junk 128 12 (writecom t w) (by decide)).2
  · intro hw fuel F content ho
    exact ⟨include_file_skipped env fuel F w content ho
      (forth_check_silent env _ w hw).1, forth_check_sent _ _ _⟩

theorem silent_target_witness :
    include_file (demo_env [("a.fs", "1 2 +\n")]) 1 "a.fs".toList true (demo_world []) =
      .ok (true, (forth_check (demo_env [("a.fs", "1 2 +\n")])
        (probe_cmd (probe_word "a.fs".toList)) (demo_world [])).2) ∧
    (forth_check (demo_env [("a.fs", "1 2 +\n")])
      (probe_cmd (probe_word "a.fs".toList)) (demo_world [])).2.sent =
        [] ++ ["' a.fs DROP\r".toList] :=
  (silent_target (demo_env [("a.fs", "1 2 +\n")]) (demo_world [])).2.2.1
    (fun k => by simp [demo_world, List.getD]) 0 "a.fs".toList "1 2 +\n".toList (by decide)

/-! ### Replies shorter than the marker -/

/-- C29 fails on the code: the only guard in front of `beautify` is `n > 0`. A
reply of one byte (a line feed) passes it, so `beautify` and the ok check of
stm8ef get a string of length 1, shorter than the 3 characters the check looks
at; with the target mecrisp the reply `ok`, LF of length 3 is shorter than the 4
characters of that check. The loop goes on as for any reply without BEL. -/
theorem short_reply_reaches_beautify :
    ordinary "1 2 +\n".toList = true ∧
    (line_reply (demo_env []) "1 2 +\n".toList
      { margin := 85, result := true, w := demo_world ["\n"] }).1 = 1 ∧
    strz (line_reply (demo_env []) "1 2 +\n".toList
      { margin := 85, result := true, w := demo_world ["\n"] }).2.1 = [LF] ∧
    (strz (line_reply (demo_env []) "1 2 +\n".toList
      { margin := 85, result := true, w := demo_world ["\n"] }).2.1).length < 3 ∧
    (line_reply { demo_env [] with target := "mecrisp".toList } "1 2 +\n".toList
      { margin := 85, result := true, w := demo_world ["ok\n"] }).1 = 3 ∧
    (strz (line_reply { demo_env [] with target := "mecrisp".toList } "1 2 +\n".toList
      { margin := 85, result := true, w := demo_world ["ok\n"] }).2.1).length < 4 ∧
    sent_of (include_file (demo_env [("a.fs", "1 2 +\n3 4 +\n")]) 1 "a.fs".toList false
      (demo_world ["\n", "3 4 + ok\n"])) = some ["1 2 +\r".toList, "3 4 +\r".toList] := by
  refine ⟨?_, ?_, ?_, ?_, ?_, ?_, ?_⟩ <;> decide

/-! ### beautify of efthcom.c -/

theorem strz_append_nul (t tail : List Char) (h : NUL ∉ t) : strz (t ++ NUL :: tail) = t := by
  induction t with
  | nil => simp [strz, List.takeWhile]
  | cons x xs ih =>
    have hx : x ≠ NUL := fun h2 => h (by rw [h2]; exact List.mem_cons_self _ _)
    have := ih (fun h2 => h (List.mem_cons_of_mem _ h2))
    unfold strz at this ⊢
    rw [List.cons_append, List.takeWhile_cons_of_pos (by simpa using hx), this]

theorem getD_append_add (pre l : List Char) (i : Nat) (d : Char) :
    (pre ++ l).getD (pre.length + i) d = l.getD i d := by
  induction pre with
  | nil => simp
  | cons x xs ih =>
    have : (x :: xs).length + i = (xs.length + i) + 1 := by simp only [List.length_cons]; omega
    rw [this, List.cons_append, List.getD_cons_succ, ih]

theorem shift_step (pre : List Char) (a b c : Char) (tail : List Char) (n : Nat)
    (hn : n = pre.length) :
    ((((pre ++ a :: b :: c :: NUL :: tail).set (n + 4) NUL).set (n + 2)
        (((pre ++ a :: b :: c :: NUL :: tail).set (n + 4) NUL).getD (n + 1) NUL)).set (n + 1)
        (((((pre ++ a :: b :: c :: NUL :: tail).set (n + 4) NUL).set (n + 2)
          (((pre ++ a :: b :: c :: NUL :: tail).set (n + 4) NUL).getD (n + 1) NUL))).getD n
            NUL)).set n (Char.ofNat 32) =
      pre ++ Char.ofNat 32 :: a :: b :: NUL :: tail.set 0 NUL := by
  induction pre generalizing n with
  | nil =>
    subst hn
    cases tail <;> rfl
  | cons x xs ih =>
    subst hn
    simp only [List.length_cons, List.cons_append, List.set_cons_succ, List.getD_cons_succ]
    rw [ih xs.length rfl]

theorem Efthcom.beautify_loop_stuck (fuel : Nat) (pre : List Char) (a b c : Char)
    (tail : List Char) (margin : Nat) (hpre : NUL ∉ pre) (ha : a ≠ NUL) (hb : b ≠ NUL)
    (hc : c ≠ NUL) (hm : pre.length + 3 < margin) :
    Efthcom.beautify_loop fuel (pre ++ a :: b :: c :: NUL :: tail) margin = none := by
  induction fuel generalizing a b c tail with
  | zero => rfl
  | succ k ih =>
    have hz : strz (pre ++ a :: b :: c :: NUL :: tail) = pre ++ [a, b, c] := by
      have h1 : pre ++ a :: b :: c :: NUL :: tail = (pre ++ [a, b, c]) ++ NUL :: tail := by simp
      rw [h1]
      apply strz_append_nul
      intro hmem
      rcases List.mem_append.1 hmem with h | h
      · exact hpre h
      · simp only [List.mem_cons, List.mem_singleton, List.not_mem_nil, or_false] at h
        rcases h with h | h | h
        · exact ha h.symm
        · exact hb h.symm
        · exact hc h.symm
    have hlen : (strz (pre ++ a :: b :: c :: NUL :: tail)).length = pre.length + 3 := by
      rw [hz]; simp
    unfold Efthcom.beautify_loop
    simp only [hlen, hm, if_true]
    have e1 : pre.length + 3 + 1 = pre.length + 4 := rfl
    have e2 : pre.length + 3 - 1 = pre.length + 2 := rfl
    have e3 : pre.length + 3 - 2 = pre.length + 1 := rfl
    have e4 : pre.length + 3 - 3 = pre.length := by omega
    rw [e1, e2, e3, e4, shift_step pre a b c tail pre.length rfl]
    exact ih (Char.ofNat 32) a b (tail.set 0 NUL) (by decide) ha hb

theorem Efthcom.beautify_stuck (fuel : Nat) (pre : List Char) (o k : Char)
    (tail : List Char) (margin : Nat) (hpre : NUL ∉ pre)
    (ho : o = Char.ofNat 111 ∨ o = Char.ofNat 79)
    (hk : k = Char.ofNat 107 ∨ k = Char.ofNat 75)
    (hm : (pre ++ [o, k, LF]).length < margin) :
    strz (pre ++ o :: k :: LF :: NUL :: tail) = pre ++ [o, k, LF] ∧
    Efthcom.beautify fuel (pre ++ o :: k :: LF :: NUL :: tail) margin = none := by
  have ho2 : o ≠ NUL := by rcases ho with h | h <;> subst h <;> decide
  have hk2 : k ≠ NUL := by rcases hk with h | h <;> subst h <;> decide
  have hl2 : LF ≠ NUL := by decide
  have hz : strz (pre ++ o :: k :: LF :: NUL :: tail) = pre ++ [o, k, LF] := by
    have h1 : pre ++ o :: k :: LF :: NUL :: tail = (pre ++ [o, k, LF]) ++ NUL :: tail := by simp
    rw [h1]
    apply strz_append_nul
    intro hmem
    rcases List.mem_append.1 hmem with h | h
    · exact hpre h
    · simp only [List.mem_cons, List.mem_singleton, List.not_mem_nil, or_false] at h
      rcases h with h | h | h
      · exact ho2 h.symm
      · exact hk2 h.symm
      · exact hl2 h.symm
  refine ⟨hz, ?_⟩
  simp only [List.length_append, List.length_cons, List.length_nil] at hm
  unfold Efthcom.beautify
  simp only [hz]
  have hlen : (pre ++ [o, k, LF]).length = pre.length + 3 := by simp
  have g1 : (pre ++ o :: k :: LF :: NUL :: tail).getD (pre.length + 3 - 3) NUL = o := by
    have : pre.length + 3 - 3 = pre.length + 0 := by omega
    rw [this, getD_append_add]; rfl
  have g2 : (pre ++ o :: k :: LF :: NUL :: tail).getD (pre.length + 3 - 2) NUL = k := by
    have : pre.length + 3 - 2 = pre.length + 1 := rfl
    rw [this, getD_append_add]; rfl
  have g3 : (pre ++ o :: k :: LF :: NUL :: tail).getD (pre.length + 3 - 1) NUL = LF := by
    have : pre.length + 3 - 1 = pre.length + 2 := rfl
    rw [this, getD_append_add]; rfl
  have hto : tolower o = Char.ofNat 111 := by rcases ho with h | h <;> subst h <;> decide
  have htk : tolower k = Char.ofNat 107 := by rcases hk with h | h <;> subst h <;> decide
  rw [hlen, g1, g2, g3, hto, htk]
  simp only [Nat.le_add_left, and_self, if_true]
  exact Efthcom.beautify_loop_stuck fuel pre o k LF tail margin hpre ho2 hk2 hl2 (by omega)

/-- C30 fails on the code: in efthcom.c, `beautify` with the buffer `1 2 + ok`, LF
(the rest of the 256 bytes is NUL) and the margin 128 does not terminate: whatever
the number of iterations allowed, the loop has not ended, because `strlen ( buf )`
stays 9. -/
theorem efthcom_beautify_loops :
    strz ("1 2 + ok\n".toList ++ List.replicate 247 NUL) = "1 2 + ok\n".toList ∧
    ∀ fuel, Efthcom.beautify fuel ("1 2 + ok\n".toList ++ List.replicate 247 NUL) 128 = none := by
  have h : "1 2 + ok\n".toList ++ List.replicate 247 NUL =
      "1 2 + ".toList ++ Char.ofNat 111 :: Char.ofNat 107 :: LF :: NUL ::
        List.replicate 246 NUL := rfl
  rw [h]
  refine ⟨?_, fun fuel => ?_⟩
  · exact (Efthcom.beautify_stuck 0 "1 2 + ".toList _ _ _ 128 (by decide) (Or.inl rfl)
      (Or.inl rfl) (by decide)).1
  · exact (Efthcom.beautify_stuck fuel "1 2 + ".toList _ _ _ 128 (by decide) (Or.inl rfl)
      (Or.inl rfl) (by decide)).2

/-! ### The dictionary as bytes and as a list of entries -/

theorem poke_length (l : List Char) (o : Nat) (b : List Char) : (poke l o b).length = l.length := by
  induction l generalizing o b with
  | nil => cases o <;> cases b <;> rfl
  | cons m ms ih =>
    cases o with
    | zero =>
      cases b with
      | nil => rfl
      | cons b0 bs => simp [poke, ih]
    | succ o => simp [poke, ih]

theorem poke_before (l : List Char) (o : Nat) (b : List Char) (a n : Nat) (h : a + n ≤ o) :
    ((poke l o b).drop a).take n = (l.drop a).take n := by
  induction l generalizing o a n with
  | nil => cases o <;> cases b <;> rfl
  | cons m ms ih =>
    cases o with
    | zero =>
      have hn : n = 0 := by omega
      subst hn
      simp
    | succ o =>
      cases a with
      | zero =>
        cases n with
        | zero => simp
        | succ n =>
          have := ih o 0 n (by omega)
          simp only [List.drop_zero] at this
          simp [poke, this]
      | succ a =>
        have := ih o a n (by omega)
        simp [poke, this]

theorem poke_after (l : List Char) (o : Nat) (b : List Char) (a n : Nat)
    (h : o + b.length ≤ a) :
    ((poke l o b).drop a).take n = (l.drop a).take n := by
  induction l generalizing o a b with
  | nil => cases o <;> cases b <;> rfl
  | cons m ms ih =>
    cases o with
    | zero =>
      cases b with
      | nil => rfl
      | cons b0 bs =>
        simp only [List.length_cons] at h
        obtain ⟨a1, rfl⟩ : ∃ a1, a = a1 + 1 := ⟨a - 1, by omega⟩
        have := ih 0 bs a1 (by omega)
        simp [poke, this]
    | succ o =>
      obtain ⟨a1, rfl⟩ : ∃ a1, a = a1 + 1 := ⟨a - 1, by omega⟩
      have := ih o b a1 (by omega)
      simp [poke, this]

theorem poke_at (l : List Char) (o : Nat) (b : List Char) (h : o + b.length ≤ l.length) :
    ((poke l o b).drop o).take b.length = b := by
  induction l generalizing o b with
  | nil =>
    simp only [List.length_nil] at h
    have h1 : b.length = 0 := by omega
    have h2 : b = [] := List.length_eq_zero.1 h1
    subst h2
    cases o <;> rfl
  | cons m ms ih =>
    simp only [List.length_cons] at h
    cases o with
    | zero =>
      cases b with
      | nil => rfl
      | cons b0 bs =>
        simp only [List.length_cons] at h
        have := ih 0 bs (by omega)
        simp only [List.drop_zero] at this
        simp [poke, this]
    | succ o =>
      have := ih o b (by omega)
      simp [poke, this]

theorem strAt_of_field (bytes : List Char) (o : Nat) (s : Str) (hn : NUL ∉ s)
    (h : (bytes.drop o).take (s.length + 1) = s ++ [NUL]) : strAt bytes o = s := by
  unfold strAt
  have := List.take_append_drop (s.length + 1) (bytes.drop o)
  rw [h] at this
  rw [← this, List.append_assoc, List.singleton_append]
  exact strz_append_nul s _ hn

theorem mem_search_from_eq (bytes : List Char) (d : List dict_t) (symbol : Str)
    (hd : dict_fits d)
    (hf : ∀ i e, d.get? i = some e →
      (bytes.drop (ENTRY_SIZE * i)).take (e.symbol.length + 1) = e.symbol ++ [NUL])
    (k : Nat) : ∀ i, i + k = d.length →
      Mem.search_from bytes symbol i k = search_from symbol i (d.drop i) := by
  induction k with
  | zero =>
    intro i hi
    have : d.drop i = [] := by
      apply List.drop_eq_nil_of_le; omega
    rw [this]
    rfl
  | succ k ih =>
    intro i hi
    have hlt : i < d.length := by omega
    have hdrop : d.drop i = d[i] :: d.drop (i + 1) := by
      rw [List.drop_eq_getElem_cons hlt]
    have hget : d.get? i = some d[i] := by
      rw [List.get?_eq_getElem?, List.getElem?_eq_getElem hlt]
    have hs := strAt_of_field bytes (ENTRY_SIZE * i) d[i].symbol
      (hd d[i] (List.getElem_mem _)).2 (hf i d[i] hget)
    rw [hdrop]
    unfold Mem.search_from search_from
    rw [hs, ih (i + 1) (by omega)]

theorem mem_search_dict_eq (m : DictMem) (d : List dict_t) (symbol : Str)
    (hm : Mem.holds m d) (hd : dict_fits d) :
    Mem.search_dict m symbol = search_dict d symbol := by
  unfold Mem.search_dict search_dict
  have := mem_search_from_eq m.dictionary d symbol hd (fun i e h => (hm.2 i e h).1) m.dinx 0
    (by rw [hm.1]; omega)
  simpa using this

theorem word_bytes_length (v : Nat) : (word_bytes v).length = 2 := rfl

theorem field_length_le (bytes : List Char) (o n : Nat) (b : List Char)
    (h : (bytes.drop o).take n = b) (hb : b.length = n) (hn : 0 < n) :
    o + n ≤ bytes.length := by
  have h1 : ((bytes.drop o).take n).length = n := by rw [h, hb]
  rw [List.length_take, List.length_drop] at h1
  have h2 : n ≤ bytes.length - o := by
    rw [← h1]; exact Nat.min_le_right _ _
  omega

theorem mem_holds_update (m : DictMem) (d : List dict_t) (i x : Nat)
    (hm : Mem.holds m d) (hd : dict_fits d) (hi : i < d.length) :
    Mem.holds
      { dictionary := poke m.dictionary (ENTRY_SIZE * i + SYMBOL_SIZE) (word_bytes x),
        dinx := m.dinx }
      (set_value d i x) := by
  refine ⟨by rw [set_value_length]; exact hm.1, ?_⟩
  intro j e hj
  simp only
  have hgi : d.get? i = some d[i] := by
    rw [List.get?_eq_getElem?, List.getElem?_eq_getElem hi]
  have hcap := field_length_le m.dictionary (ENTRY_SIZE * i + SYMBOL_SIZE) 2 _
    (hm.2 i d[i] hgi).2 rfl (by decide)
  by_cases hji : j = i
  · subst hji
    rw [set_value_get?_same, hgi] at hj
    simp only [Option.map_some', Option.some.injEq] at hj
    subst hj
    simp only
    have hl := (hd d[j] (List.getElem_mem _)).1
    constructor
    · rw [poke_before _ _ _ _ _ (by unfold SYMBOL_SIZE at hl ⊢; omega)]
      exact (hm.2 j d[j] hgi).1
    · have := poke_at m.dictionary (ENTRY_SIZE * j + SYMBOL_SIZE) (word_bytes x) (by
        rw [word_bytes_length]; exact hcap)
      exact this
  · rw [set_value_get?_other d i j x hji] at hj
    have he : e ∈ d := List.get?_mem hj
    have hl := (hd e he).1
    obtain ⟨h1, h2⟩ := hm.2 j e hj
    rcases Nat.lt_or_gt_of_ne hji with hlt | hgt
    · constructor
      · rw [poke_before _ _ _ _ _ (by unfold SYMBOL_SIZE ENTRY_SIZE at *; omega)]
        exact h1
      · rw [poke_before _ _ _ _ _ (by unfold SYMBOL_SIZE ENTRY_SIZE at *; omega)]
        exact h2
    · constructor
      · rw [poke_after _ _ _ _ _ (by
          rw [word_bytes_length]; unfold SYMBOL_SIZE ENTRY_SIZE at *; omega)]
        exact h1
      · rw [poke_after _ _ _ _ _ (by
          rw [word_bytes_length]; unfold SYMBOL_SIZE ENTRY_SIZE at *; omega)]
        exact h2

theorem mem_holds_append (m : DictMem) (d : List dict_t) (symbol : Str) (x : Nat)
    (hm : Mem.holds m d) (hd : dict_fits d) (hs : symbol.length < SYMBOL_SIZE)
    (hcap : ENTRY_SIZE * (d.length + 1) ≤ m.dictionary.length) :
    Mem.holds
      { dictionary :=
          poke (poke m.dictionary (ENTRY_SIZE * m.dinx) (symbol ++ [NUL]))
            (ENTRY_SIZE * m.dinx + SYMBOL_SIZE) (word_bytes x),
        dinx := m.dinx + 1 }
      (d ++ [{ symbol := symbol, value := x }]) := by
  refine ⟨by simp [hm.1], ?_⟩
  intro j e hj
  simp only
  rw [hm.1]
  by_cases hlt : j < d.length
  · rw [List.get?_eq_getElem?, List.getElem?_append_left hlt, ← List.get?_eq_getElem?] at hj
    have he : e ∈ d := List.get?_mem hj
    have hl := (hd e he).1
    obtain ⟨h1, h2⟩ := hm.2 j e hj
    constructor
    · rw [poke_before _ _ _ _ _ (by unfold SYMBOL_SIZE ENTRY_SIZE at *; omega),
        poke_before _ _ _ _ _ (by unfold SYMBOL_SIZE ENTRY_SIZE at *; omega)]
      exact h1
    · rw [poke_before _ _ _ _ _ (by unfold SYMBOL_SIZE ENTRY_SIZE at *; omega),
        poke_before _ _ _ _ _ (by unfold SYMBOL_SIZE ENTRY_SIZE at *; omega)]
      exact h2
  · have hjl : j = d.length := by
      have := List.get?_eq_some.1 hj
      obtain ⟨hlen, _⟩ := this
      simp only [List.length_append, List.length_singleton] at hlen
      omega
    subst hjl
    rw [List.get?_eq_getElem?, List.getElem?_append_right (Nat.le_refl _)] at hj
    simp only [Nat.sub_self, List.getElem?_cons_zero, Option.some.injEq] at hj
    subst hj
    simp only
    constructor
    · rw [poke_before _ _ _ _ _ (by unfold SYMBOL_SIZE at *; omega)]
      have := poke_at m.dictionary (ENTRY_SIZE * d.length) (symbol ++ [NUL]) (by
        simp only [List.length_append, List.length_singleton]
        unfold SYMBOL_SIZE ENTRY_SIZE at *; omega)
      simpa using this
    · have := poke_at (poke m.dictionary (ENTRY_SIZE * d.length) (symbol ++ [NUL]))
        (ENTRY_SIZE * d.length + SYMBOL_SIZE) (word_bytes x) (by
          rw [poke_length, word_bytes_length]; unfold SYMBOL_SIZE ENTRY_SIZE at *; omega)
      exact this

theorem dict_fits_define (d : List dict_t) (symbol : Str) (v : Int) (hd : dict_fits d)
    (hs : symbol.length < SYMBOL_SIZE) (hn : NUL ∉ symbol) :
    dict_fits (dict_define d symbol v) := by
  have hmap : (dict_define d symbol v).map (fun e => e.symbol) =
      d.map (fun e => e.symbol) ∨
      (dict_define d symbol v).map (fun e => e.symbol) = d.map (fun e => e.symbol) ++ [symbol] := by
    cases h : search_dict d symbol with
    | none => rw [dict_define_new d symbol v h]; right; simp
    | some i => rw [dict_define_found d symbol v i h]; left; exact map_symbol_set_value d i _
  intro e he
  have hmem : e.symbol ∈ (dict_define d symbol v).map (fun e => e.symbol) :=
    List.mem_map_of_mem _ he
  have key : ∀ s ∈ d.map (fun e => e.symbol), s.length < SYMBOL_SIZE ∧ NUL ∉ s := by
    intro s hs2
    obtain ⟨e2, he2, rfl⟩ := List.mem_map.1 hs2
    exact hd e2 he2
  rcases hmap with h | h
  · rw [h] at hmem
    exact key _ hmem
  · rw [h] at hmem
    rcases List.mem_append.1 hmem with h1 | h1
    · exact key _ h1
    · simp only [List.mem_singleton] at h1
      rw [h1]; exact ⟨hs, hn⟩

/-- For symbols that fit `symbol[20]` the list of entries is the array: when the
bytes hold the dictionary `d`, `search_dict` on the bytes finds what
`search_dict` on `d` finds, and after the insert-or-update block the bytes hold
`dict_define d symbol v`. -/
theorem mem_dict_define_refines (m : DictMem) (d : List dict_t) (symbol : Str) (v : Int)
    (hm : Mem.holds m d) (hd : dict_fits d) (hs : symbol.length < SYMBOL_SIZE)
    (hn : NUL ∉ symbol) (hcap : ENTRY_SIZE * (d.length + 1) ≤ m.dictionary.length) :
    Mem.search_dict m symbol = search_dict d symbol ∧
    Mem.holds (Mem.dict_define m symbol v) (dict_define d symbol v) ∧
    dict_fits (dict_define d symbol v) := by
  have hsearch := mem_search_dict_eq m d symbol hm hd
  refine ⟨hsearch, ?_, dict_fits_define d symbol v hd hs hn⟩
  unfold Mem.dict_define
  rw [hsearch]
  cases h : search_dict d symbol with
  | none =>
    rw [dict_define_new d symbol v h]
    exact mem_holds_append m d symbol _ hm hd hs hcap
  | some i =>
    rw [dict_define_found d symbol v i h]
    have := search_from_some symbol 0 i d h
    exact mem_holds_update m d i _ hm hd (by omega)

theorem mem_holds_empty : Mem.holds Mem.empty [] :=
  ⟨rfl, by intro i e h; simp at h⟩

theorem dict_fits_nil : dict_fits [] := by
  intro e he
  simp at he

theorem mem_empty_length : Mem.empty.dictionary.length = ENTRY_SIZE * DICT_SIZE :=
  List.length_replicate _ _

theorem token_no_nul (str : Str) (i : Nat) (t : Str) (h : token str i = some t) : NUL ∉ t := by
  unfold token at h
  cases hg : gettoken str i with
  | none => rw [hg] at h; simp at h
  | some p =>
    rw [hg] at h
    simp only [Option.map_some', Option.some.injEq] at h
    rw [← h]
    intro hm
    exact strz_no_nul _ NUL hm rfl

theorem is_token_no_nul (t : Str) (h : is_token t) : NUL ∉ t :=
  fun hm => (h.2 NUL hm).2 rfl

theorem strtol16_hex_sat (hex : Str) (h : is_hex hex) :
    strtol16 hex = min 2147483647 (hexnum hex : Int) := by
  obtain ⟨hne, hall⟩ := h
  cases hex with
  | nil => exact absurd rfl hne
  | cons c cs =>
    have hc := hex_not_special c (hall c (List.mem_cons_self _ _))
    unfold strtol16
    have h1 : (c :: cs).dropWhile isspace = c :: cs := by
      rw [List.dropWhile_cons_of_neg (by simp [hc.2.2.1])]
    have h45 : (some c == some (Char.ofNat 45)) = false := by
      simpa using hc.2.2.2.1
    have h43 : (some c == some (Char.ofNat 43)) = false := by
      simpa using hc.2.2.2.2.1
    simp only [h1, List.head?_cons, h45, h43, Bool.or_self, Bool.false_eq_true, if_false]
    rw [skip0x_hex _ hall]
    have h2 : (c :: cs).takeWhile (fun c => (hexval c).isSome) = c :: cs := by
      rw [List.takeWhile_eq_self_iff]
      exact hall
    rw [h2]

/-! ### The insert-or-update step within the array -/

/-- C9 (amended): for a symbol shorter than 20 characters, in a dictionary whose
symbols are all shorter than 20 characters, the insert-or-update step is
idempotent; for a symbol that is present it overwrites the value of the entry
found and changes nothing else (same length, same index, other entries
untouched); for a new symbol it appends one entry at index `dinx`. The bytes of
the array hold these entries when the array has room for one more entry. -/
theorem dict_define_spec (d : List dict_t) (symbol : Str) (v : Int)
    (hd : dict_fits d) (hsym : symbol.length < SYMBOL_SIZE) (hnul : NUL ∉ symbol) :
    dict_define (dict_define d symbol v) symbol v = dict_define d symbol v ∧
    (∀ i, search_dict d symbol = some i →
      (dict_define d symbol v).length = d.length ∧
      (dict_define d symbol v).get? i = some { symbol := symbol, value := toWORD v } ∧
      (∀ j, j ≠ i → (dict_define d symbol v).get? j = d.get? j) ∧
      search_dict (dict_define d symbol v) symbol = some i) ∧
    (search_dict d symbol = none →
      dict_define d symbol v = d ++ [{ symbol := symbol, value := toWORD v }] ∧
      (dict_define d symbol v).length = d.length + 1 ∧
      search_dict (dict_define d symbol v) symbol = some d.length) ∧
    (∀ m, Mem.holds m d → ENTRY_SIZE * (d.length + 1) ≤ m.dictionary.length →
      Mem.search_dict m symbol = search_dict d symbol ∧
      Mem.holds (Mem.dict_define m symbol v) (dict_define d symbol v) ∧
      (Mem.dict_define m symbol v).dinx = (dict_define d symbol v).length) := by
  refine ⟨?_, ?_, ?_, ?_⟩
  · have h1 := search_dict_define d symbol v
    rw [dict_define_found _ symbol v _ h1]
    cases h : search_dict d symbol with
    | none =>
      rw [dict_define_new d symbol v h]
      simpa using set_value_append_last d { symbol := symbol, value := toWORD v }
    | some i =>
      rw [dict_define_found d symbol v i h]
      simpa [h] using set_value_idem d i (toWORD v)
  · intro i h
    rw [dict_define_found d symbol v i h]
    refine ⟨set_value_length _ _ _, ?_, fun j hj => set_value_get?_other d i j _ hj, ?_⟩
    · rw [← dict_define_found d symbol v i h]
      exact dict_define_get_found d symbol v i h
    · have := search_dict_define d symbol v
      rw [dict_define_found d symbol v i h] at this
      simpa [h] using this
  · intro h
    refine ⟨dict_define_new d symbol v h, ?_, ?_⟩
    · simp [dict_define_new d symbol v h]
    · simpa [h] using search_dict_define d symbol v
  · intro m hm hcap
    have := mem_dict_define_refines m d symbol v hm hd hsym hnul hcap
    exact ⟨this.1, this.2.1, this.2.1.1⟩

theorem dict_define_spec_witness :
    (search_dict [{ symbol := "A".toList, value := 1 }, { symbol := "B".toList, value := 2 }]
        "B".toList = some 1 ∧
      (dict_define [{ symbol := "A".toList, value := 1 }, { symbol := "B".toList, value := 2 }]
        "B".toList 5).get? 1 = some { symbol := "B".toList, value := toWORD 5 }) ∧
    (search_dict [{ symbol := "A".toList, value := 1 }, { symbol := "B".toList, value := 2 }]
        "b".toList = none ∧
      dict_define [{ symbol := "A".toList, value := 1 }, { symbol := "B".toList, value := 2 }]
        "b".toList 7 =
        [{ symbol := "A".toList, value := 1 }, { symbol := "B".toList, value := 2 }] ++
          [{ symbol := "b".toList, value := toWORD 7 }]) ∧
    Mem.holds (Mem.dict_define Mem.empty "B".toList 5) (dict_define [] "B".toList 5) :=
  ⟨⟨by decide, ((dict_define_spec _ "B".toList 5 (by unfold dict_fits; decide) (by decide)
      (by decide)).2.1 1 (by decide)).2.1⟩,
   ⟨by decide, ((dict_define_spec _ "b".toList 7 (by unfold dict_fits; decide) (by decide)
      (by decide)).2.2.1 (by decide)).1⟩,
   ((dict_define_spec [] "B".toList 5 dict_fits_nil (by decide) (by decide)).2.2.2 Mem.empty
      mem_holds_empty (by rw [mem_empty_length]; decide)).2.1⟩

/-- C9, as stated, fails: a symbol of 20 characters does not fit `symbol[20]` with
its NUL. After it has been defined with the value 0x1234, `search_dict` does not
find it, because the C string of the entry goes on into the bytes of the value;
the same definition once more appends a second entry, so the step is not
idempotent. -/
theorem long_symbol_defined_twice :
    "ABCDEFGHIJKLMNOPQRST".toList.length = 20 ∧
    (Mem.dict_define Mem.empty "ABCDEFGHIJKLMNOPQRST".toList 0x1234).dinx = 1 ∧
    Mem.search_dict (Mem.dict_define Mem.empty "ABCDEFGHIJKLMNOPQRST".toList 0x1234)
      "ABCDEFGHIJKLMNOPQRST".toList = none ∧
    strAt (Mem.dict_define Mem.empty "ABCDEFGHIJKLMNOPQRST".toList 0x1234).dictionary 0 =
      "ABCDEFGHIJKLMNOPQRST".toList ++ [Char.ofNat 0x34, Char.ofNat 0x12] ∧
    (Mem.dict_define (Mem.dict_define Mem.empty "ABCDEFGHIJKLMNOPQRST".toList 0x1234)
      "ABCDEFGHIJKLMNOPQRST".toList 0x1234).dinx = 2 := by
  refine ⟨?_, ?_, ?_, ?_, ?_⟩ <;> decide

/-- C10 fails on the code: for the name `ABCDEFGHIJKLMNOPQRS` of 19 characters,
`handle_res` stores the name with the CR behind it, 20 characters, which do not
fit `symbol[20]` with their NUL. The second `\res 1234 equ` line for the same name
does not find the entry and appends another one: two entries carry the same
symbol. -/
theorem long_name_duplicated :
    "ABCDEFGHIJKLMNOPQRS".toList.length = 19 ∧
    dict_of (handle_res (demo_env []) "\\res 1234 equ ABCDEFGHIJKLMNOPQRS\r".toList
      (demo_world [])) =
        some [{ symbol := "ABCDEFGHIJKLMNOPQRS\r".toList, value := 0x1234 }] ∧
    "ABCDEFGHIJKLMNOPQRS\r".toList.length = 20 ∧
    (Mem.dict_define (Mem.dict_define Mem.empty "ABCDEFGHIJKLMNOPQRS\r".toList 0x1234)
      "ABCDEFGHIJKLMNOPQRS\r".toList 0x1234).dinx = 2 ∧
    Mem.symbol_field (Mem.dict_define (Mem.dict_define Mem.empty
      "ABCDEFGHIJKLMNOPQRS\r".toList 0x1234) "ABCDEFGHIJKLMNOPQRS\r".toList 0x1234) 0 =
        "ABCDEFGHIJKLMNOPQRS\r".toList ∧
    Mem.symbol_field (Mem.dict_define (Mem.dict_define Mem.empty
      "ABCDEFGHIJKLMNOPQRS\r".toList 0x1234) "ABCDEFGHIJKLMNOPQRS\r".toList 0x1234) 1 =
        "ABCDEFGHIJKLMNOPQRS\r".toList := by
  refine ⟨?_, ?_, ?_, ?_, ?_, ?_⟩ <;> decide

/-! ### Lines of a resource file within the array -/

/-- C17 (amended): `load_cpu_res` returns success for every file it can open, and
a line changes the dictionary only when it does not start with a backslash, has
at least three tokens and has `equ` as its second token: such a line, with a
third token shorter than 20 characters, defines that token with the value
`strtol` gives for the first token, which is the number, at most 2^31 - 1, when
the token is a hexadecimal number, and 0 when the token does not start like a
number; further tokens are ignored. -/
theorem res_line_shape (d : List dict_t) (raw : Str) :
    ((strz raw).head? = some BSL → res_line d raw = d) ∧
    (token (strz raw) 2 = none → res_line d raw = d) ∧
    (token (strz raw) 1 ≠ some "equ".toList → res_line d raw = d) ∧
    (∀ t0 sym, (strz raw).head? ≠ some BSL → token (strz raw) 0 = some t0 →
      token (strz raw) 1 = some "equ".toList → token (strz raw) 2 = some sym →
      sym.length < SYMBOL_SIZE → dict_fits d →
      res_line d raw = dict_define d sym (strtol16 t0) ∧
      (∀ m, Mem.holds m d → ENTRY_SIZE * (d.length + 1) ≤ m.dictionary.length →
        Mem.holds (Mem.dict_define m sym (strtol16 t0)) (res_line d raw))) ∧
    (∀ t0, is_hex t0 → strtol16 t0 = min 2147483647 (hexnum t0 : Int)) ∧
    (∀ c t, (hexval c).isSome = false → isspace c = false → c ≠ Char.ofNat 45 →
      c ≠ Char.ofNat 43 → strtol16 (c :: t) = 0) ∧
    (∀ env filespec w content, env.fopen filespec = some content →
      load_cpu_res env filespec w =
        (true, { w with dict := (fgets_all 128 content []).foldl res_line w.dict })) := by
  refine ⟨res_line_comment d raw, res_line_short d raw, res_line_other d raw, ?_,
   fun t0 h1 => strtol16_hex_sat t0 h1,
   fun c t h1 h2 h3 h4 => strtol16_not_number c t h1 h2 h3 h4,
   fun env filespec w content h => load_cpu_res_open env filespec w content h⟩
  intro t0 sym hb h0 h1 h2 hlen hd
  have heq := res_line_defines d raw t0 sym hb h0 h1 h2
  refine ⟨heq, ?_⟩
  intro m hm hcap
  rw [heq]
  exact (mem_dict_define_refines m d sym (strtol16 t0) hm hd hlen
    (token_no_nul _ _ _ h2) hcap).2.1

theorem res_line_shape_witness :
    res_line [] "\\ 7F60 equ CFG_GCR\n".toList = [] ∧
    res_line [] "7F60 equ\n".toList = [] ∧
    res_line [] "7F60 EQU CFG_GCR\n".toList = [] ∧
    res_line [] "7F60 equ CFG_GCR \\ Global configuration register\n".toList =
      dict_define [] "CFG_GCR".toList (strtol16 "7F60".toList) ∧
    strtol16 "7F60".toList = min 2147483647 (hexnum "7F60".toList : Int) ∧
    strtol16 "xyz".toList = 0 ∧
    load_cpu_res (demo_env [("a.efr", "7F60 equ CFG_GCR\n")]) "a.efr".toList (demo_world []) =
      (true, { demo_world [] with dict :=
        (fgets_all 128 "7F60 equ CFG_GCR\n".toList []).foldl res_line [] }) :=
  ⟨(res_line_shape [] "\\ 7F60 equ CFG_GCR\n".toList).1 (by decide),
   (res_line_shape [] "7F60 equ\n".toList).2.1 (by decide),
   (res_line_shape [] "7F60 EQU CFG_GCR\n".toList).2.2.1 (by decide),
   ((res_line_shape [] "7F60 equ CFG_GCR \\ Global configuration register\n".toList).2.2.2.1
     "7F60".toList "CFG_GCR".toList (by decide) (by decide) (by decide) (by decide)
     (by decide) dict_fits_nil).1,
   (res_line_shape [] []).2.2.2.2.1 "7F60".toList ⟨by decide, by decide⟩,
   (res_line_shape [] []).2.2.2.2.2.1 (Char.ofNat 120) "yz".toList (by decide)
     (by decide) (by decide) (by decide),
   (res_line_shape [] []).2.2.2.2.2.2 (demo_env [("a.efr", "7F60 equ CFG_GCR\n")])
     "a.efr".toList (demo_world []) "7F60 equ CFG_GCR\n".toList (by decide)⟩

/-! ### Width of the values, within the array -/

/-- C11 (amended): dictionary values are 16-bit unsigned integers. A line
`<hex> equ <name>` with a name shorter than 20 characters, whose number is below
2^31, stores that number modulo 2^16 for the name, hence the number itself when
it is below 2^16; the bytes of the array hold the entry when the array has room
for it; and an export whose probe is answered with BEL sends a constant definition
whose hexadecimal text reads as the value stored. -/
theorem dict_value_word (d : List dict_t) (hex name : Str) (hhex : is_hex hex)
    (hname : is_token name) (hlen : name.length < SYMBOL_SIZE) (hd : dict_fits d)
    (hv : hexnum hex < 2147483648) :
    lookup (res_line d (hex ++ " equ ".toList ++ name ++ [LF])) name =
      some (hexnum hex % 65536) ∧
    (hexnum hex < 65536 →
      lookup (res_line d (hex ++ " equ ".toList ++ name ++ [LF])) name =
        some (hexnum hex)) ∧
    (∀ m, Mem.holds m d → ENTRY_SIZE * (d.length + 1) ≤ m.dictionary.length →
      Mem.holds (Mem.dict_define m name (hexnum hex))
        (res_line d (hex ++ " equ ".toList ++ name ++ [LF]))) ∧
    (∀ env w v, lookup w.dict name = some v →
      strchr (check_reply env (probe_cmd name) w) BEL = true →
      (export_loop env [name] w).2.sent =
        w.sent ++ [probe_cmd name, constant_cmd v name] ∧
      hexnum (fmtX v) = v) := by
  refine ⟨res_line_equ_word d hex name hhex hname hv, ?_, ?_, ?_⟩
  · intro h
    rw [res_line_equ_word d hex name hhex hname hv, Nat.mod_eq_of_lt h]
  · intro m hm hcap
    obtain ⟨hb, hz, h0, h1, h2⟩ := equ_line_tokens hex name hhex hname
    rw [res_line_defines d _ hex name (by rw [hz]; exact hb) (by rw [hz]; exact h0)
      (by rw [hz]; exact h1) (by rw [hz]; exact h2), strtol16_hex hex hhex hv]
    exact (mem_dict_define_refines m d name (hexnum hex) hm hd hlen
      (is_token_no_nul name hname) hcap).2.1
  · intro env w v hl hb
    exact ⟨export_loop_single env name w v hl hb, hexnum_fmtX v⟩

theorem dict_value_word_witness :
    lookup (res_line [] ("FFFF".toList ++ " equ ".toList ++ "TOP".toList ++ [LF]))
      "TOP".toList = some (hexnum "FFFF".toList) ∧
    lookup (res_line [] ("12345".toList ++ " equ ".toList ++ "BIG".toList ++ [LF]))
      "BIG".toList = some (hexnum "12345".toList % 65536) :=
  ⟨(dict_value_word [] "FFFF".toList "TOP".toList ⟨by decide, by decide⟩
      ⟨by decide, by decide⟩ (by decide) dict_fits_nil (by decide)).2.1 (by decide),
   (dict_value_word [] "12345".toList "BIG".toList ⟨by decide, by decide⟩
      ⟨by decide, by decide⟩ (by decide) dict_fits_nil (by decide)).1⟩

/-! ### The word of the probe and the bare file name -/

theorem basename_of_suffix (a b : Str) (c : Char) (hc : c = SLASH ∨ c = BSL)
    (hs : SLASH ∉ b) (hb : BSL ∉ b) : basename (a ++ c :: b) = b := by
  unfold basename
  have h1 : (a ++ c :: b).reverse = b.reverse ++ c :: a.reverse := by simp
  rw [h1]
  have h2 : ∀ x ∈ b.reverse, (x != SLASH && x != BSL) = true := by
    intro x hx
    have hx2 : x ∈ b := List.mem_reverse.1 hx
    have n1 : x ≠ SLASH := fun h => hs (h ▸ hx2)
    have n2 : x ≠ BSL := fun h => hb (h ▸ hx2)
    simp [n1, n2]
  have h3 : (c != SLASH && c != BSL) = false := by
    rcases hc with h | h <;> subst h <;> decide
  rw [List.takeWhile_append_of_pos h2, List.takeWhile_cons_of_neg (by simp [h3])]
  simp

theorem basename_plain (f : Str) (hs : SLASH ∉ f) (hb : BSL ∉ f) : basename f = f := by
  unfold basename
  have h2 : ∀ x ∈ f.reverse, (x != SLASH && x != BSL) = true := by
    intro x hx
    have hx2 : x ∈ f := List.mem_reverse.1 hx
    have n1 : x ≠ SLASH := fun h => hs (h ▸ hx2)
    have n2 : x ≠ BSL := fun h => hb (h ▸ hx2)
    simp [n1, n2]
  rw [List.takeWhile_eq_self_iff.2 h2]
  simp

/-- For a path with one kind of separator the word of the probe is the bare file
name. -/
theorem probe_word_eq_basename (f : Str) (h : BSL ∉ f ∨ SLASH ∉ f) :
    probe_word f = basename f := by
  unfold probe_word
  cases hb : strrchr f BSL with
  | some j =>
    have hin : BSL ∈ f := by
      by_contra hn
      rw [strrchr, (strrchrFrom_none BSL 0 f).2 hn] at hb
      exact absurd hb (by simp)
    have hns : SLASH ∉ f := by
      rcases h with h | h
      · exact absurd hin h
      · exact h
    obtain ⟨hnb, a, ha⟩ := drop_after_last BSL f j hb
    simp only
    have hns2 : SLASH ∉ f.drop (j + 1) := fun hm => hns (List.mem_of_mem_drop hm)
    conv_rhs => rw [ha]
    rw [basename_of_suffix a _ BSL (Or.inr rfl) hns2 hnb]
  | none =>
    have hnb : BSL ∉ f := (strrchrFrom_none BSL 0 f).1 hb
    cases hs : strrchr f SLASH with
    | some j =>
      obtain ⟨hns, a, ha⟩ := drop_after_last SLASH f j hs
      simp only
      have hnb2 : BSL ∉ f.drop (j + 1) := fun hm => hnb (List.mem_of_mem_drop hm)
      conv_rhs => rw [ha]
      rw [basename_of_suffix a _ SLASH (Or.inl rfl) hns hnb2]
    | none =>
      simp only
      rw [basename_plain f ((strrchrFrom_none SLASH 0 f).1 hs) hnb]

/-- C3 fails on the code: for the existing file `lib\sub/word.fs` the bare file
name is `word.fs`, but the probe that the conditional inclusion sends first is
`' sub/word.fs DROP` with CR, not `' word.fs DROP`. -/
theorem conditional_probe_not_basename :
    basename "lib\\sub/word.fs".toList = "word.fs".toList ∧
    sent_of (include_file (demo_env [("lib\\sub/word.fs", ": word.fs ;\n")]) 1
      "lib\\sub/word.fs".toList true (demo_world [" ok\n"])) =
        some ["' sub/word.fs DROP\r".toList] ∧
    "' sub/word.fs DROP\r".toList ≠ probe_cmd (basename "lib\\sub/word.fs".toList) ∧
    sent_of (include_file (demo_env [("lib/sub/word.fs", ": word.fs ;\n")]) 1
      "lib/sub/word.fs".toList true (demo_world [" ok\n"])) =
        some [probe_cmd (basename "lib/sub/word.fs".toList)] := by
  refine ⟨?_, ?_, ?_, ?_⟩ <;> decide

end Escom
